import Mathlib

/-!
EgLang: rule compiler, output cache and scheduler.

A shallow embedding of `src/EgLang.cpp` / `src/EgLang.h`.

Modelling conventions.

* A C string is the list of its characters before the terminating NUL, one
  `Char` per byte, so a list that stands for a string holds no NUL; `charAt`
  reads the terminator at index `length`.
* A pointer into a string is the index of the character it points to.
* `int` values are `Int`; conversions to `byte` and to 4-bit fields are the
  explicit `toByte` and `nibble`.
* The members `count` and `currentRule` are 6-bit fields; every increment in
  the code is guarded by `count < MAX_RULES` or `currentRule < count`, so they
  are plain `Nat`.
* The hardware is a record of the `pinMode` and `digitalWrite` calls made so
  far, the `CHANGE Pin` lines printed, the `setPinOutput` calls received and the
  number of `digitalRead` calls answered; what `digitalRead` returns is given
  by an environment `env : Nat → Nat → Nat` (number of the read, pin ↦ level).
  Delays and the other diagnostic lines on `Serial` are left out.
-/

namespace EgLang

/-! ## Constants -/

def MAX_RULES : Nat := 20
def MAX_RULE_LENGTH : Nat := 32
def MAX_LOOP_COMMANDS : Nat := 24

def LOW : Nat := 0
def HIGH : Nat := 1

/-- The table `inputs[]`. -/
def inputs : List Nat := [3, 5, 7, 9, 11, 13]

/-- The table `outputs[]`. -/
def outputs : List Nat := [2, 4, 6, 8, 10, 12]

/-! ## C strings -/

/-- The terminator of a C string. -/
def NUL : Char := Char.ofNat 0

/-- The character `s[i]` of a C string; the terminator at `i = length`. -/
def charAt (s : List Char) (i : Nat) : Char := s.getD i NUL

/-- The function `strchr(s, c)` for a character `c` other than NUL: the index
of the first occurrence. -/
def strchr : List Char → Char → Option Nat
  | [], _ => none
  | x :: xs, c => if x = c then some 0 else (strchr xs c).map (· + 1)

/-- The call `strchr(s + off, c)`, as an index into `s`. -/
def strchrFrom (s : List Char) (off : Nat) (c : Char) : Option Nat :=
  (strchr (s.drop off) c).map (· + off)

/-- The call `strncpy(dst, s + off, n); dst[n] = 0`. -/
def substr (s : List Char) (off n : Nat) : List Char := (s.drop off).take n

/-- The C library `isspace` in the C locale. -/
def isspace (c : Char) : Bool :=
  c = ' ' || c = '\t' || c = '\n' || c = Char.ofNat 11 || c = Char.ofNat 12 || c = '\r'

/-- The C library `isdigit`. -/
def isdigit (c : Char) : Bool := decide ('0'.toNat ≤ c.toNat ∧ c.toNat ≤ '9'.toNat)

/-- The digit loop of `atoi`: accumulates decimal digits until the first
character that is not one. -/
def atoiDigits : List Char → Nat → Nat
  | [], acc => acc
  | c :: cs, acc => if isdigit c then atoiDigits cs (acc * 10 + (c.toNat - '0'.toNat)) else acc

/-- The C library `atoi`: skips leading white space, reads an optional sign and
then decimal digits, stopping at the first other character. The result is
exact here: the code only calls it on tokens of at most two characters. -/
def atoi (s : List Char) : Int :=
  match s.dropWhile isspace with
  | '-' :: r => - (atoiDigits r 0 : Int)
  | '+' :: r => (atoiDigits r 0 : Int)
  | r => (atoiDigits r 0 : Int)

/-- Conversion of an `int` to `byte`. -/
def toByte (n : Int) : Nat := (n % 256).toNat

/-- Conversion of an `int` to a 4-bit unsigned field. -/
def nibble (n : Int) : Nat := (n % 16).toNat

/-! ## Rule -/

/-- The struct `Rule::ParsedRule`. One-bit state fields hold 0 or 1. -/
structure ParsedRule where
  trigger1 : Nat
  tState1 : Nat
  trigger2 : Nat
  tState2 : Nat
  action : Nat
  aState : Nat
  useAND : Bool
  isSimpleCommand : Bool
  isLoop : Bool
  isContinuous : Bool
  loopPin : Nat
  inLoop : Bool
  valid : Bool
  loopCommands : List Char
  deriving DecidableEq, Repr

/-- The result of `memset(&parsed, 0, sizeof(parsed))`. -/
def ParsedRule.zero : ParsedRule :=
  { trigger1 := 0, tState1 := 0, trigger2 := 0, tState2 := 0, action := 0, aState := 0,
    useAND := false, isSimpleCommand := false, isLoop := false, isContinuous := false,
    loopPin := 0, inLoop := false, valid := false, loopCommands := [] }

/-- The struct `Rule`. -/
structure Rule where
  ruleText : List Char
  done : Bool
  parsed : ParsedRule
  deriving DecidableEq, Repr

/-- The constructor `Rule::Rule()`. -/
def Rule.new : Rule := { ruleText := [], done := false, parsed := ParsedRule.zero }

/-- The method `Rule::isInputPin`. -/
def isInputPin (pin : Nat) : Bool := inputs.contains pin

/-- The method `Rule::isOutputPin`. -/
def isOutputPin (pin : Nat) : Bool := outputs.contains pin

/-- The method `Rule::isPinValid`. -/
def isPinValid (pin : Nat) : Bool := decide (2 ≤ pin ∧ pin ≤ 13)

/-- The method `Rule::validateSingleLoopCommand`. -/
def validateSingleLoopCommand (command : List Char) : Bool :=
  if command = [] then false else
  match strchr command ',' with
  | none => false
  | some comma =>
    if comma = 0 then false
    else if charAt command (comma + 1) = NUL ∨ charAt command (comma + 2) ≠ NUL then false
    else
      let pinLen := comma
      if pinLen ≤ 0 ∨ pinLen > 2 then false
      else
        let pin := atoi (substr command 0 pinLen)
        if !isPinValid (toByte pin) || !isOutputPin (toByte pin) then false
        else
          let stateChar := charAt command (comma + 1)
          if stateChar ≠ '0' ∧ stateChar ≠ '1' then false
          else true

/-- The scanning loop of `Rule::validateLoopCommands` and the check of the
last command after it: `rest` is what `cmd` still has to read, `seg` the
characters from `start` up to `cmd`. -/
def validateLoopScan : List Char → List Char → Bool
  | [], seg => if seg ≠ [] then (if !validateSingleLoopCommand seg then false else true) else true
  | c :: rest, seg =>
    if c = ';' then
      if !validateSingleLoopCommand seg then false else validateLoopScan rest []
    else validateLoopScan rest (seg ++ [c])

/-- The method `Rule::validateLoopCommands`. -/
def validateLoopCommands (commands : List Char) : Bool :=
  if commands = [] then false
  else validateLoopScan (commands.take (MAX_LOOP_COMMANDS - 1)) []

/-- The method `Rule::parseLoop`. -/
def Rule.parseLoop (r : Rule) : Rule :=
  let len := r.ruleText.length
  if len < 5 then r else
  match strchrFrom r.ruleText 1 ':' with
  | none => r
  | some colon =>
    if colon ≥ len - 2 then r else
    let pinLen := colon - 1
    if pinLen ≤ 0 ∨ pinLen > 2 then r else
    let pin := atoi (substr r.ruleText 1 pinLen)
    if !isPinValid (toByte pin) then r else
    if !isInputPin (toByte pin) then r else
    let cmdLen := (len - 1) - (colon + 1)
    if cmdLen ≤ 0 ∨ cmdLen ≥ MAX_LOOP_COMMANDS then r else
    let r1 : Rule := { r with parsed := { r.parsed with
      loopCommands := substr r.ruleText (colon + 1) cmdLen } }
    if !validateLoopCommands r1.parsed.loopCommands then r1 else
    { r1 with parsed := { r1.parsed with loopPin := nibble pin, isLoop := true, valid := true } }

/-- The method `Rule::parseSimpleCommand`. -/
def Rule.parseSimpleCommand (r : Rule) : Rule :=
  match strchr r.ruleText ',' with
  | none => r
  | some comma =>
    if comma = 0 then r
    else if charAt r.ruleText (comma + 1) = NUL ∨ charAt r.ruleText (comma + 2) ≠ NUL then r
    else
      let pinLen := comma
      if pinLen ≤ 0 ∨ pinLen > 2 then r else
      let pin := atoi (substr r.ruleText 0 pinLen)
      if !isPinValid (toByte pin) then r else
      if !isOutputPin (toByte pin) then r else
      let stateChar := charAt r.ruleText (comma + 1)
      if stateChar ≠ '0' ∧ stateChar ≠ '1' then r else
      { r with parsed := { r.parsed with
          action := nibble pin, aState := if stateChar = '1' then 1 else 0,
          isSimpleCommand := true, valid := true } }

/-- The method `Rule::parseAndCondition`; `ampersand` is an index into
`condition`. Where `comma2` is the last character of `condition`, the code
reads `*(comma2 + 2)` beyond the terminator; it returns false there whatever
that byte is (a zero byte leads to `state2Char` being the terminator), and so
does this definition. -/
def Rule.parseAndCondition (r : Rule) (condition : List Char) (ampersand : Nat) : Rule × Bool :=
  match strchr condition ',', strchrFrom condition (ampersand + 1) ',' with
  | some comma1, some comma2 =>
    if comma1 ≥ ampersand then (r, false) else
    let pin1Len := comma1
    if pin1Len ≤ 0 ∨ pin1Len > 2 then (r, false) else
    let pin1 := atoi (substr condition 0 pin1Len)
    if !isPinValid (toByte pin1) || !isInputPin (toByte pin1) then (r, false) else
    if comma1 + 2 ≠ ampersand then (r, false) else
    let state1Char := charAt condition (comma1 + 1)
    if state1Char ≠ '0' ∧ state1Char ≠ '1' then (r, false) else
    let pin2Len := comma2 - (ampersand + 1)
    if pin2Len ≤ 0 ∨ pin2Len > 2 then (r, false) else
    let pin2 := atoi (substr condition (ampersand + 1) pin2Len)
    if !isPinValid (toByte pin2) || !isInputPin (toByte pin2) then (r, false) else
    if charAt condition (comma2 + 2) ≠ NUL then (r, false) else
    let state2Char := charAt condition (comma2 + 1)
    if state2Char ≠ '0' ∧ state2Char ≠ '1' then (r, false) else
    ({ r with parsed := { r.parsed with
        trigger1 := nibble pin1, tState1 := if state1Char = '1' then 1 else 0,
        trigger2 := nibble pin2, tState2 := if state2Char = '1' then 1 else 0,
        useAND := true } }, true)
  | _, _ => (r, false)

/-- The method `Rule::parseSimpleCondition`. -/
def Rule.parseSimpleCondition (r : Rule) (condition : List Char) : Rule × Bool :=
  match strchr condition ',' with
  | none => (r, false)
  | some comma =>
    if comma = 0 then (r, false)
    else if charAt condition (comma + 1) = NUL ∨ charAt condition (comma + 2) ≠ NUL then (r, false)
    else
      let pinLen := comma
      if pinLen ≤ 0 ∨ pinLen > 2 then (r, false) else
      let pin := atoi (substr condition 0 pinLen)
      if !isPinValid (toByte pin) || !isInputPin (toByte pin) then (r, false) else
      let stateChar := charAt condition (comma + 1)
      if stateChar ≠ '0' ∧ stateChar ≠ '1' then (r, false) else
      ({ r with parsed := { r.parsed with
          trigger1 := nibble pin, tState1 := if stateChar = '1' then 1 else 0 } }, true)

/-- The method `Rule::parseConditionalRule`. -/
def Rule.parseConditionalRule (r : Rule) : Rule :=
  match strchr r.ruleText '!' with
  | none => r
  | some exclamation =>
    if exclamation ≤ 1 then r else
    let actionStart := exclamation + 1
    match strchrFrom r.ruleText actionStart ',' with
    | none => r
    | some actionComma =>
      if actionComma = actionStart then r else
      if charAt r.ruleText (actionComma + 1) = NUL ∨ charAt r.ruleText (actionComma + 2) ≠ NUL
      then r else
      let actionPinLen := actionComma - actionStart
      if actionPinLen ≤ 0 ∨ actionPinLen > 2 then r else
      let actionPin := atoi (substr r.ruleText actionStart actionPinLen)
      if !isPinValid (toByte actionPin) || !isOutputPin (toByte actionPin) then r else
      let actionStateChar := charAt r.ruleText (actionComma + 1)
      if actionStateChar ≠ '0' ∧ actionStateChar ≠ '1' then r else
      let r1 : Rule := { r with parsed := { r.parsed with
        action := nibble actionPin, aState := if actionStateChar = '1' then 1 else 0,
        isContinuous := true } }
      let conditionLen := exclamation - 1
      if conditionLen ≤ 0 ∨ conditionLen > 15 then r1 else
      let condition := substr r.ruleText 1 conditionLen
      let res : Rule × Bool :=
        match strchr condition '&' with
        | some ampersand => r1.parseAndCondition condition ampersand
        | none => r1.parseSimpleCondition condition
      if !res.2 then res.1 else
      { res.1 with parsed := { res.1.parsed with valid := true } }

/-- The method `Rule::parseRule`. -/
def Rule.parseRule (r : Rule) : Rule :=
  let r0 : Rule := { r with parsed := ParsedRule.zero }
  if r0.ruleText = [] then r0 else
  let len := r0.ruleText.length
  if len < 3 then r0 else
  if charAt r0.ruleText 0 = '[' ∧ charAt r0.ruleText (len - 1) = ']' then r0.parseLoop
  else if charAt r0.ruleText 0 = '?' then r0.parseConditionalRule
  else r0.parseSimpleCommand

/-- The method `Rule::setRule`. -/
def Rule.setRule (r : Rule) (text : List Char) : Rule :=
  if text = [] then r else
  Rule.parseRule { r with ruleText := text.take (MAX_RULE_LENGTH - 1) }

/-- The method `Rule::reset`. -/
def Rule.reset (r : Rule) : Rule :=
  { r with done := false, parsed := { r.parsed with inLoop := false } }

/-- Compilation of a rule text: a freshly constructed `Rule` after `setRule`. -/
def compile (text : List Char) : Rule := Rule.new.setRule text

/-! ## Hardware and controller -/

/-- The modes passed to `pinMode`. -/
inductive PinMode where
  | INPUT
  | OUTPUT
  | INPUT_PULLUP
  deriving DecidableEq, Repr

/-- The record of what the program has done to the hardware, oldest entry
first. `requests` lists the calls of `setPinOutput` (pin, state), `modes` the
calls of `pinMode`, `writes` the calls of `digitalWrite`, `changes` the
`CHANGE Pin p -> s` lines; `reads` counts the calls of `digitalRead`. -/
structure Hardware where
  modes : List (Nat × PinMode)
  writes : List (Nat × Nat)
  changes : List (Nat × Nat)
  requests : List (Nat × Nat)
  reads : Nat
  deriving DecidableEq, Repr

/-- The struct `EgLangController::PinState`. -/
structure PinState where
  pin : Nat
  state : Nat
  isOutput : Bool
  deriving DecidableEq, Repr

/-- The data members of `EgLangController`; `rules` has `MAX_RULES` slots and
`pinStates` six. -/
structure EgLangController where
  rules : List Rule
  count : Nat
  currentRule : Nat
  initialized : Bool
  pinStates : List PinState
  deriving DecidableEq, Repr

/-- The global controller `_eglang` together with the hardware record. -/
structure State where
  ctl : EgLangController
  hw : Hardware
  deriving DecidableEq, Repr

/-- The state at program start: `_eglang` is a static object, its rules are
built by `Rule::Rule()` and its other members are zero. -/
def boot : State :=
  { ctl := { rules := List.replicate MAX_RULES Rule.new, count := 0, currentRule := 0,
             initialized := false,
             pinStates := List.replicate 6 { pin := 0, state := 0, isOutput := false } },
    hw := { modes := [], writes := [], changes := [], requests := [], reads := 0 } }

/-- The method `EgLangController::updatePinState`: the first entry for `pin`
takes the state (a 1-bit field) and is marked as output. -/
def updatePinState : List PinState → Nat → Nat → List PinState
  | [], _, _ => []
  | e :: es, pin, state =>
    if e.pin = pin then { e with state := state % 2, isOutput := true } :: es
    else e :: updatePinState es pin state

/-- The method `EgLangController::setPinOutput`. -/
def setPinOutput (s : State) (pin state : Nat) : State :=
  let s : State := { s with hw := { s.hw with requests := s.hw.requests ++ [(pin, state)] } }
  let write : State :=
    { ctl := { s.ctl with pinStates := updatePinState s.ctl.pinStates pin state },
      hw := { s.hw with
        modes := s.hw.modes ++ [(pin, PinMode.OUTPUT)],
        writes := s.hw.writes ++ [(pin, state)],
        changes := s.hw.changes ++ [(pin, state)] } }
  match s.ctl.pinStates.find? (fun e => decide (e.pin = pin)) with
  | some e => if e.isOutput ∧ e.state = state then s else write
  | none => write

/-- The sampling loop of `EgLangController::readPinStable`: `n` more samples
to take, `readings` counted so far. -/
def sampleLoop (env : Nat → Nat → Nat) (pin : Nat) : Nat → Nat → State → Nat × State
  | 0, readings, s => (readings, s)
  | n + 1, readings, s =>
    let level := env s.hw.reads pin
    let s1 : State := { s with hw := { s.hw with reads := s.hw.reads + 1 } }
    sampleLoop env pin n (if level = LOW then readings + 1 else readings) s1

/-- The method `EgLangController::readPinStable`. -/
def readPinStable (env : Nat → Nat → Nat) (s : State) (pin : Nat) : Bool × State :=
  let res := sampleLoop env pin 3 0 s
  (decide (res.1 ≥ 2), res.2)

/-- The method `Rule::executeLoopCommand`. -/
def executeLoopCommand (s : State) (command : List Char) : State × Bool :=
  if command = [] then (s, true) else
  match strchr command ',' with
  | none => (s, false)
  | some comma =>
    if comma = 0 then (s, false) else
    let pinLen := comma
    if pinLen ≤ 0 ∨ pinLen > 2 then (s, false) else
    let pin := atoi (substr command 0 pinLen)
    if !isPinValid (toByte pin) || !isOutputPin (toByte pin) then (s, false) else
    let stateChar := charAt command (comma + 1)
    if stateChar ≠ '0' ∧ stateChar ≠ '1' then (s, false) else
    let state := if stateChar = '1' then 1 else 0
    (setPinOutput s (toByte pin) state, true)

/-- The method `Rule::executeLoopCommandOff`. -/
def executeLoopCommandOff (s : State) (command : List Char) : State :=
  if command = [] then s else
  match strchr command ',' with
  | none => s
  | some comma =>
    if comma = 0 then s else
    let pinLen := comma
    if pinLen ≤ 0 ∨ pinLen > 2 then s else
    let pin := atoi (substr command 0 pinLen)
    if !isPinValid (toByte pin) || !isOutputPin (toByte pin) then s else
    setPinOutput s (toByte pin) 0

/-- The scanning loop shared by `Rule::executeLoopCommands` and
`Rule::executeLoopCommandsOff`, with the handling of the last command: `f` is
run on every command closed by a `;` and on a non-empty last one. -/
def loopScan (f : State → List Char → State) : List Char → List Char → State → State
  | [], seg, s => if seg ≠ [] then f s seg else s
  | c :: rest, seg, s =>
    if c = ';' then loopScan f rest [] (f s seg) else loopScan f rest (seg ++ [c]) s

/-- The method `Rule::executeLoopCommands`. -/
def Rule.executeLoopCommands (r : Rule) (s : State) : State :=
  if r.parsed.loopCommands = [] then s
  else loopScan (fun st cmd => (executeLoopCommand st cmd).1)
    (r.parsed.loopCommands.take (MAX_LOOP_COMMANDS - 1)) [] s

/-- The method `Rule::executeLoopCommandsOff`. -/
def Rule.executeLoopCommandsOff (r : Rule) (s : State) : State :=
  if r.parsed.loopCommands = [] then s
  else loopScan executeLoopCommandOff (r.parsed.loopCommands.take (MAX_LOOP_COMMANDS - 1)) [] s

/-- The splitting loop of `Rule::hasAlternatingCommands` and the handling of
the last command: `cmds` is the array `commands` filled so far. -/
def collectCommands : List Char → List Char → List (List Char) → List (List Char)
  | [], seg, cmds =>
    if seg ≠ [] ∧ cmds.length < 10 then cmds ++ [seg.dropWhile (fun c => decide (c = ' '))]
    else cmds
  | c :: rest, seg, cmds =>
    if cmds.length < 10 then
      if c = ';' then
        let t := seg.dropWhile (fun c => decide (c = ' '))
        collectCommands rest [] (if t ≠ [] then cmds ++ [t] else cmds)
      else collectCommands rest (seg ++ [c]) cmds
    else cmds

/-- The pairwise comparison of `Rule::hasAlternatingCommands`: outer loop over
the earlier command, inner loop over the later ones. -/
def anyPairDiffers : List (List Char) → Bool
  | [] => false
  | x :: xs => xs.any (fun y => decide (x ≠ y)) || anyPairDiffers xs

/-- The method `Rule::hasAlternatingCommands`. -/
def Rule.hasAlternatingCommands (r : Rule) : Bool :=
  if r.parsed.loopCommands = [] then false else
  let commands := collectCommands (r.parsed.loopCommands.take (MAX_LOOP_COMMANDS - 1)) [] []
  if commands.length ≤ 1 then false else anyPairDiffers commands

/-- The method `Rule::check`: the rule after the call, the state of the
controller and hardware after it, and the value returned. -/
def Rule.check (env : Nat → Nat → Nat) (r : Rule) (s : State) : Rule × State × Bool :=
  if !r.parsed.valid then (r, s, false) else
  if r.parsed.isLoop then
    if !r.parsed.inLoop then
      let g := readPinStable env s r.parsed.loopPin
      if g.1 then
        let r1 : Rule := { r with parsed := { r.parsed with inLoop := true } }
        (r1, r1.executeLoopCommands g.2, false)
      else (r, g.2, false)
    else
      let g := readPinStable env s r.parsed.loopPin
      if g.1 then
        if r.hasAlternatingCommands then (r, r.executeLoopCommands g.2, false)
        else (r, g.2, false)
      else
        let r1 : Rule := { r with parsed := { r.parsed with inLoop := false } }
        ({ r1 with done := true }, r1.executeLoopCommandsOff g.2, true)
  else if r.parsed.isSimpleCommand then
    if r.done then (r, s, false)
    else ({ r with done := true }, setPinOutput s r.parsed.action r.parsed.aState, true)
  else if r.parsed.isContinuous then
    let c1 := readPinStable env s r.parsed.trigger1
    let condition1 : Bool := c1.1 == decide (r.parsed.tState1 = 1)
    let c2 : Bool × State :=
      if r.parsed.useAND then
        let g := readPinStable env c1.2 r.parsed.trigger2
        (g.1 == decide (r.parsed.tState2 = 1), g.2)
      else (true, c1.2)
    if condition1 && c2.1 then (r, setPinOutput c2.2 r.parsed.action r.parsed.aState, true)
    else if r.parsed.aState = 1 then (r, setPinOutput c2.2 r.parsed.action 0, false)
    else (r, c2.2, false)
  else (r, s, false)

/-- A loop `for (i = 0; i < n; i++) rules[i] = f(rules[i])`. -/
def mapFirst {α : Type} (f : α → α) : Nat → List α → List α
  | 0, xs => xs
  | _ + 1, [] => []
  | n + 1, x :: xs => f x :: mapFirst f n xs

/-- The first loop of `EgLangController::run`: `rules[i].check()` for the
first `n` rules in order; the Boolean is `anyRuleExecuted`. -/
def checkRules (env : Nat → Nat → Nat) : Nat → List Rule → State → List Rule × State × Bool
  | 0, rs, s => (rs, s, false)
  | _ + 1, [], s => ([], s, false)
  | n + 1, r :: rs, s =>
    let res := r.check env s
    let tail := checkRules env n rs res.2.1
    (res.1 :: tail.1, tail.2.1, res.2.2 || tail.2.2)

/-- The method `EgLangController::init`. -/
def init (s : State) : State :=
  if s.ctl.initialized then s else
  { ctl := { s.ctl with
      pinStates := outputs.map (fun p => { pin := p, state := 0, isOutput := false }),
      count := 0, currentRule := 0, initialized := true },
    hw := { s.hw with
      modes := s.hw.modes ++
        (List.zip inputs outputs).flatMap
          (fun io => [(io.1, PinMode.INPUT_PULLUP), (io.2, PinMode.INPUT)]) } }

/-- The method `EgLangController::add` for a non-null `rule`. -/
def add (s : State) (rule : List Char) : State × Bool :=
  let s := init s
  if s.ctl.count ≥ MAX_RULES then (s, false) else
  let slot := (s.ctl.rules.getD s.ctl.count Rule.new).setRule rule
  let s1 : State := { s with ctl := { s.ctl with rules := s.ctl.rules.set s.ctl.count slot } }
  if slot.parsed.valid then ({ s1 with ctl := { s1.ctl with count := s1.ctl.count + 1 } }, true)
  else (s1, false)

/-- The method `EgLangController::run`. -/
def run (env : Nat → Nat → Nat) (s : State) : State :=
  if !s.ctl.initialized || s.ctl.count = 0 then s else
  let res := checkRules env s.ctl.count s.ctl.rules s
  let s1 : State := { res.2.1 with ctl := { res.2.1.ctl with rules := res.1 } }
  let cur := s1.ctl.rules.getD s1.ctl.currentRule Rule.new
  if s1.ctl.currentRule < s1.ctl.count ∧ cur.parsed.isSimpleCommand ∧ cur.done then
    let next := s1.ctl.currentRule + 1
    if next ≥ s1.ctl.count then
      { s1 with ctl := { s1.ctl with
          currentRule := 0,
          rules := mapFirst (fun r => if r.parsed.isSimpleCommand then r.reset else r)
            s1.ctl.count s1.ctl.rules } }
    else { s1 with ctl := { s1.ctl with currentRule := next } }
  else s1

/-- The method `EgLangController::reset`. -/
def reset (s : State) : State :=
  { s with ctl := { s.ctl with
      currentRule := 0, rules := mapFirst Rule.reset s.ctl.count s.ctl.rules } }

/-- The method `EgLangController::shutdown` (with `resetPinsToHighZ`). -/
def shutdown (s : State) : State :=
  let s1 := reset s
  { ctl := { s1.ctl with
      pinStates := s1.ctl.pinStates.map (fun e => { e with state := 0, isOutput := false }) },
    hw := { s1.hw with modes := s1.hw.modes ++ outputs.map (fun p => (p, PinMode.INPUT)) } }

/-- A call of the controller's public interface. -/
inductive Call where
  | register (text : List Char)
  | tick (env : Nat → Nat → Nat)
  | reset
  | shutdown
  | setOutput (pin state : Nat)

/-- The state after a call. -/
def Call.apply (s : State) : Call → State
  | Call.register text => (add s text).1
  | Call.tick env => run env s
  | Call.reset => EgLang.reset s
  | Call.shutdown => EgLang.shutdown s
  | Call.setOutput pin state => setPinOutput s pin state

/-- The state after a sequence of calls, made in order. -/
def exec (calls : List Call) (s : State) : State := calls.foldl Call.apply s

/-! ## Reachable states -/

/-- What holds of the controller in every state reached from `init boot`. -/
structure Inv (s : State) : Prop where
  initialized : s.ctl.initialized = true
  length : s.ctl.rules.length = MAX_RULES
  count_le : s.ctl.count ≤ MAX_RULES
  valid_below : ∀ i, i < s.ctl.count → (s.ctl.rules.getD i Rule.new).parsed.valid = true
  fresh_above : ∀ i, s.ctl.count ≤ i →
    (s.ctl.rules.getD i Rule.new).parsed.valid = false ∧ (s.ctl.rules.getD i Rule.new).done = false
  cursor : s.ctl.currentRule = 0 ∨ s.ctl.currentRule < s.ctl.count
  pins : s.ctl.pinStates.map PinState.pin = outputs

/-- The state `s'` has the rule table, counters and cached pin numbers of `s`:
only cached output states and the hardware record may differ. -/
def SameTable (s s' : State) : Prop :=
  s'.ctl.rules = s.ctl.rules ∧ s'.ctl.count = s.ctl.count ∧
  s'.ctl.currentRule = s.ctl.currentRule ∧ s'.ctl.initialized = s.ctl.initialized ∧
  s'.ctl.pinStates.map PinState.pin = s.ctl.pinStates.map PinState.pin

/-- The states the controller can be in after `init()`: those reached from
`init boot` by calls of the public interface. -/
def Reachable (s : State) : Prop := ∃ calls : List Call, s = exec calls (init boot)

/-- The cache has no entry for `pin` that is claimed as output. -/
def Unclaimed (s : State) (pin : Nat) : Prop :=
  ∀ e ∈ s.ctl.pinStates, e.pin = pin → e.isOutput = false

/-! ## What the parser checks -/

/-- A pin token the code accepts for a role: `atoi` of it is a valid pin of that role. -/
def PinOK (role : Nat → Bool) (tok : List Char) : Prop :=
  isPinValid (toByte (atoi tok)) = true ∧ role (toByte (atoi tok)) = true

/-- A state character the code accepts. -/
def StateOK (c : Char) : Prop := c = '0' ∨ c = '1'

/-- What the code checks of a text `s` that is to be one `<pin>,<state>` field
with its first comma at index `comma`: a pin token of one or two characters
that `atoi` turns into a pin of the role, one state character, and the end
of the string after it. -/
def FieldOK (role : Nat → Bool) (s : List Char) (comma : Nat) : Prop :=
  strchr s ',' = some comma ∧ 0 < comma ∧ comma ≤ 2 ∧
  charAt s (comma + 1) ≠ NUL ∧ charAt s (comma + 2) = NUL ∧
  PinOK role (substr s 0 comma) ∧ StateOK (charAt s (comma + 1))

/-- What `Rule::parseAndCondition` checks of a condition with its `&` at index
`amp` and the commas of its two fields at `comma1` and `comma2`. -/
def AndCondOK (cond : List Char) (amp comma1 comma2 : Nat) : Prop :=
  strchr cond ',' = some comma1 ∧ strchrFrom cond (amp + 1) ',' = some comma2 ∧
  0 < comma1 ∧ comma1 ≤ 2 ∧ comma1 + 2 = amp ∧
  PinOK isInputPin (substr cond 0 comma1) ∧ StateOK (charAt cond (comma1 + 1)) ∧
  0 < comma2 - (amp + 1) ∧ comma2 - (amp + 1) ≤ 2 ∧
  PinOK isInputPin (substr cond (amp + 1) (comma2 - (amp + 1))) ∧
  charAt cond (comma2 + 2) = NUL ∧ StateOK (charAt cond (comma2 + 1))

/-- What `Rule::parseConditionalRule` checks of the action part of the text
`t`, with `excl` the index of `!` and `ac` that of the comma after it. -/
def ActionOK (t : List Char) (excl ac : Nat) : Prop :=
  strchr t '!' = some excl ∧ 1 < excl ∧ excl - 1 ≤ 15 ∧
  strchrFrom t (excl + 1) ',' = some ac ∧ 0 < ac - (excl + 1) ∧ ac - (excl + 1) ≤ 2 ∧
  charAt t (ac + 1) ≠ NUL ∧ charAt t (ac + 2) = NUL ∧
  PinOK isOutputPin (substr t (excl + 1) (ac - (excl + 1))) ∧ StateOK (charAt t (ac + 1))

/-- What `Rule::parseLoop` checks of the text `t` with its first `:` at index
`colon`. -/
def LoopOK (t : List Char) (colon : Nat) : Prop :=
  strchrFrom t 1 ':' = some colon ∧ 5 ≤ t.length ∧ colon < t.length - 2 ∧
  0 < colon - 1 ∧ colon - 1 ≤ 2 ∧ PinOK isInputPin (substr t 1 (colon - 1)) ∧
  t.length - 1 - (colon + 1) < MAX_LOOP_COMMANDS ∧
  validateLoopCommands (substr t (colon + 1) (t.length - 1 - (colon + 1))) = true

/-- The rule `r'` is `r` but for fields of `parsed` other than `valid`. -/
def Unparsed (r r' : Rule) : Prop :=
  r'.ruleText = r.ruleText ∧ r'.done = r.done ∧ r'.parsed.valid = r.parsed.valid

/-! ## Parsed forms -/

/-- The bit the parser stores for a state character. -/
def stateBit (c : Char) : Nat := if c = '1' then 1 else 0

/-- The parsed form of a valid SimpleCommand. -/
def simpleParsed (pin state : Nat) : ParsedRule :=
  { ParsedRule.zero with action := pin, aState := state, isSimpleCommand := true, valid := true }

/-- The parsed form of a valid conditional rule with one condition. -/
def condParsed (trigger1 tState1 action aState : Nat) : ParsedRule :=
  { ParsedRule.zero with
    trigger1 := trigger1, tState1 := tState1, action := action, aState := aState,
    isContinuous := true, valid := true }

/-- The parsed form of a valid conditional rule with two conditions. -/
def andParsed (trigger1 tState1 trigger2 tState2 action aState : Nat) : ParsedRule :=
  { ParsedRule.zero with
    trigger1 := trigger1, tState1 := tState1, trigger2 := trigger2, tState2 := tState2,
    useAND := true, action := action, aState := aState, isContinuous := true, valid := true }

/-- The parsed form of a valid Loop. -/
def loopParsed (loopPin : Nat) (loopCommands : List Char) : ParsedRule :=
  { ParsedRule.zero with
    loopPin := loopPin, loopCommands := loopCommands, isLoop := true, valid := true }

/-- The text is one the parser takes for a loop: in brackets. -/
def LoopShape (t : List Char) : Prop := charAt t 0 = '[' ∧ charAt t (t.length - 1) = ']'

/-- The command segment of a loop text with its first `:` at `colon`. -/
def loopSegmentAt (t : List Char) (colon : Nat) : List Char :=
  substr t (colon + 1) (t.length - 1 - (colon + 1))

/-- The condition segment of a conditional text with its `!` at `excl`. -/
def conditionAt (t : List Char) (excl : Nat) : List Char := substr t 1 (excl - 1)

/-- The ways in which `Rule::parseRule` reaches `valid`, with what it
has checked on the way and the parsed form it leaves. -/
inductive Parsed (t : List Char) (p : ParsedRule) : Prop where
  | loop (colon : Nat) (shape : LoopShape t) (ok : LoopOK t colon)
      (eq : p = loopParsed (nibble (atoi (substr t 1 (colon - 1)))) (loopSegmentAt t colon))
  | cond (excl ac comma : Nat) (shape : ¬ LoopShape t) (first : charAt t 0 = '?')
      (act : ActionOK t excl ac) (noAmp : strchr (conditionAt t excl) '&' = none)
      (ok : FieldOK isInputPin (conditionAt t excl) comma)
      (eq : p = condParsed (nibble (atoi (substr (conditionAt t excl) 0 comma)))
        (stateBit (charAt (conditionAt t excl) (comma + 1)))
        (nibble (atoi (substr t (excl + 1) (ac - (excl + 1))))) (stateBit (charAt t (ac + 1))))
  | and (excl ac amp comma1 comma2 : Nat) (shape : ¬ LoopShape t) (first : charAt t 0 = '?')
      (act : ActionOK t excl ac) (hamp : strchr (conditionAt t excl) '&' = some amp)
      (ok : AndCondOK (conditionAt t excl) amp comma1 comma2)
      (eq : p = andParsed (nibble (atoi (substr (conditionAt t excl) 0 comma1)))
        (stateBit (charAt (conditionAt t excl) (comma1 + 1)))
        (nibble (atoi (substr (conditionAt t excl) (amp + 1) (comma2 - (amp + 1)))))
        (stateBit (charAt (conditionAt t excl) (comma2 + 1)))
        (nibble (atoi (substr t (excl + 1) (ac - (excl + 1))))) (stateBit (charAt t (ac + 1))))
  | simple (comma : Nat) (shape : ¬ LoopShape t) (first : charAt t 0 ≠ '?')
      (ok : FieldOK isOutputPin t comma)
      (eq : p = simpleParsed (nibble (atoi (substr t 0 comma))) (stateBit (charAt t (comma + 1))))

/-! ## Rule texts -/

/-- The decimal digits of a pin number. -/
def decimal (p : Nat) : List Char := Nat.toDigits 10 p

/-- The character of a state. -/
def stateChar (b : Bool) : Char := if b then '1' else '0'

/-- The text of a loop's command list: `pin,state` for each pair, with `;`
between them. -/
def serialise : List (Nat × Bool) → List Char
  | [] => []
  | [c] => decimal c.1 ++ [',', stateChar c.2]
  | c :: rest => decimal c.1 ++ [',', stateChar c.2] ++ [';'] ++ serialise rest

/-! ## Pin tokens and sub-commands -/

/-- The pin tokens the parser accepts: a digit, alone or followed by any one
character, or one white-space character or `+` followed by a digit. -/
def PinTokenShape : List Char → Prop
  | [a] => isdigit a = true
  | [a, b] => isdigit a = true ∨ ((isspace a = true ∨ a = '+') ∧ isdigit b = true)
  | _ => False

/-- The splitting of a text at every `;`, with `seg` the piece read so far:
the pieces in order, the last one being what follows the last `;`. -/
def splitAcc : List Char → List Char → List (List Char)
  | [], seg => [seg]
  | c :: rest, seg => if c = ';' then seg :: splitAcc rest [] else splitAcc rest (seg ++ [c])

/-- The pieces of a text split at every `;`. -/
def splitSemi (s : List Char) : List (List Char) := splitAcc s []

/-- The pin token of a `<pin>,<state>` field: what stands before its first
comma. -/
def pinToken (s : List Char) : List Char :=
  match strchr s ',' with
  | some comma => s.take comma
  | none => s

/-- The command segment of a loop text (one that starts with `[`): what
stands between the first `:` and the last character. -/
def loopSegment (t : List Char) : List Char :=
  match strchrFrom t 1 ':' with
  | some colon => loopSegmentAt t colon
  | none => []

/-- The pin tokens of a rule text, by the grammar the text is read with: the
gate and the pin of every non-empty sub-command of a loop; the condition pins
and the action pin of a conditional rule; the pin of a simple command. -/
def pinTokens (t : List Char) : List (List Char) :=
  if charAt t 0 = '[' ∧ charAt t (t.length - 1) = ']' then
    match strchrFrom t 1 ':' with
    | some colon =>
      substr t 1 (colon - 1) ::
        ((splitSemi (loopSegmentAt t colon)).filter (fun p => decide (p ≠ []))).map pinToken
    | none => []
  else if charAt t 0 = '?' then
    match strchr t '!' with
    | some excl =>
      (match strchr (conditionAt t excl) '&' with
        | some amp =>
          [pinToken (conditionAt t excl), pinToken ((conditionAt t excl).drop (amp + 1))]
        | none => [pinToken (conditionAt t excl)]) ++ [pinToken (t.drop (excl + 1))]
    | none => []
  else [pinToken t]

/-- The text is accepted by the compiler as a SimpleCommand. -/
def acceptsSimple (s : List Char) : Bool :=
  (compile s).parsed.valid && (compile s).parsed.isSimpleCommand


/-! ## Rules at run time -/

/-- The rule is a compiled rule in some run-time state: it differs from what
`compile` gives for some text in `done` and `inLoop` at most. -/
def Compiled (r : Rule) : Prop := ∃ text : List Char, r.reset = (compile text).reset

/-- The cache holds the six output pins, as after `init()`. -/
def CacheReady (s : State) : Prop := s.ctl.pinStates.map PinState.pin = outputs

/-- The cache holds `pin` as claimed for output in state `state`. -/
def Cached (s : State) (pin state : Nat) : Prop :=
  ∃ e, s.ctl.pinStates.find? (fun e => decide (e.pin = pin)) = some e ∧
    e.isOutput = true ∧ e.state = state

/-- The sub-commands of a command list: the non-empty pieces between `;`. -/
def subCommands (cmds : List Char) : List (List Char) :=
  (splitSemi cmds).filter (fun p => decide (p ≠ []))

/-- The pin a sub-command names: what `atoi` makes of its pin token. -/
def commandPin (p : List Char) : Nat := toByte (atoi (pinToken p))

/-- The state a sub-command names: 1 when the character after its first comma
is `1`. -/
def commandState (p : List Char) : Nat :=
  match strchr p ',' with
  | some comma => stateBit (charAt p (comma + 1))
  | none => 0

/-- The output requests a command list stands for: pin and state of every
sub-command, in order. -/
def commandRequests (cmds : List Char) : List (Nat × Nat) :=
  (subCommands cmds).map (fun p => (commandPin p, commandState p))

/-- The requests that switch off the pins of a command list: the pin of every
sub-command with state 0, in order. -/
def offRequests (cmds : List Char) : List (Nat × Nat) :=
  (subCommands cmds).map (fun p => (commandPin p, 0))

/-- A sub-command without its leading spaces. -/
def trimSpaces (p : List Char) : List Char := p.dropWhile (fun c => decide (c = ' '))

/-- The raw writes made by a tick with readings `env` in state `s`. -/
def tickWrites (env : Nat → Nat → Nat) (s : State) : List (Nat × Nat) :=
  (run env s).hw.writes.drop s.hw.writes.length

/-- The output requests made by a tick with readings `env` in state `s`. -/
def tickRequests (env : Nat → Nat → Nat) (s : State) : List (Nat × Nat) :=
  (run env s).hw.requests.drop s.hw.requests.length

/-- The ticks with readings `envs`, made in order from state `s`, each start
with `pin` reading stable-active. -/
def GatedTicks (pin : Nat) : List (Nat → Nat → Nat) → State → Prop
  | [], _ => True
  | env :: envs, s => (readPinStable env s pin).1 = true ∧ GatedTicks pin envs (run env s)

/-- One step of the loop `for (i = 0; i < count; i++) rules[i].check()`: the
rule at index `i` is checked in the state reached so far and stored back. -/
def evalAt (env : Nat → Nat → Nat) (st : List Rule × State) (i : Nat) : List Rule × State :=
  ((st.1.set i ((st.1.getD i Rule.new).check env st.2).1),
    ((st.1.getD i Rule.new).check env st.2).2.1)

/-- The evaluation pass of a tick: the indices `0, 1, ..., count - 1`, each
once and in this order. -/
def evalPass (env : Nat → Nat → Nat) (s : State) : List Rule × State :=
  (List.range s.ctl.count).foldl (evalAt env) (s.ctl.rules, s)

/-- The condition of a conditional rule as a `check` in state `s` reads it:
the first trigger reads its state and, with `useAND`, the second trigger, read
after the first, reads its state. -/
def conditionHolds (env : Nat → Nat → Nat) (r : Rule) (s : State) : Bool :=
  ((readPinStable env s r.parsed.trigger1).1 == decide (r.parsed.tState1 = 1)) &&
    (if r.parsed.useAND then
      (readPinStable env (readPinStable env s r.parsed.trigger1).2 r.parsed.trigger2).1 ==
        decide (r.parsed.tState2 = 1)
    else true)

/-- The state after the reads of the condition of a conditional rule. -/
def afterConditionReads (env : Nat → Nat → Nat) (r : Rule) (s : State) : State :=
  if r.parsed.useAND then
    (readPinStable env (readPinStable env s r.parsed.trigger1).2 r.parsed.trigger2).2
  else (readPinStable env s r.parsed.trigger1).2

/-- The calls `setPinOutput(pin, state)` for the pairs of `reqs`, in order. -/
def requestAll (reqs : List (Nat × Nat)) (s : State) : State :=
  reqs.foldl (fun st q => setPinOutput st q.1 q.2) s

/-- The controller is initialised and holds `r` as its only rule, with the
cursor on it. -/
def OnlyRule (r : Rule) (s : State) : Prop :=
  s.ctl.initialized = true ∧ s.ctl.count = 1 ∧ s.ctl.currentRule = 0 ∧
    s.ctl.rules.head? = some r

/-- The index loop of `run` stopped before rule `k`: the table and the state
after `rules[0].check()`, ..., `rules[k-1].check()`. -/
def evalUpTo (env : Nat → Nat → Nat) (s : State) (k : Nat) : List Rule × State :=
  (List.range k).foldl (evalAt env) (s.ctl.rules, s)

/-- Every registered rule is a compiled one. -/
def Registered (s : State) : Prop :=
  ∀ i, i < s.ctl.count → Compiled (s.ctl.rules.getD i Rule.new)

/-- The output side of a state: the output cache and the hardware record
without the read counter. -/
def outView (s : State) :
    List PinState × List (Nat × PinMode) × List (Nat × Nat) × List (Nat × Nat) ×
      List (Nat × Nat) :=
  (s.ctl.pinStates, s.hw.modes, s.hw.writes, s.hw.changes, s.hw.requests)

/-- The output side of `s'` is that of `s` after the calls
`setPinOutput(pin, state)` for the pairs of `reqs`, in order. -/
def Issued (reqs : List (Nat × Nat)) (s s' : State) : Prop :=
  outView s' = outView (requestAll reqs s)

/-- The calls of `pinMode` made by a tick with readings `env` in state `s`. -/
def tickModes (env : Nat → Nat → Nat) (s : State) : List (Nat × PinMode) :=
  (run env s).hw.modes.drop s.hw.modes.length

/-- The call passes a state of 0 or 1 where it passes a state. -/
def Call.booleanState : Call → Prop
  | Call.setOutput _ state => state ≤ 1
  | _ => True

/-- The states of the entries of a trace that are for pin `p`, in order. -/
def statesFor (p : Nat) (l : List (Nat × Nat)) : List Nat :=
  (l.filter (fun q => decide (q.1 = p))).map Prod.snd

/-- A list without its consecutive repetitions: of each run of equal values
one is kept. -/
def dropRepeats : List Nat → List Nat
  | [] => []
  | [a] => [a]
  | a :: b :: l => if a = b then dropRepeats (b :: l) else a :: dropRepeats (b :: l)

/-- The lengths of the write trace and of the request trace at the last
`shutdown()` among `calls`, made in order from state `s`; `e` when there is
none. -/
def epoch : List Call → State → Nat × Nat → Nat × Nat
  | [], _, e => e
  | Call.shutdown :: cs, s, _ =>
    epoch cs (shutdown s) ((shutdown s).hw.writes.length, (shutdown s).hw.requests.length)
  | Call.register text :: cs, s, e => epoch cs (add s text).1 e
  | Call.tick env :: cs, s, e => epoch cs (run env s) e
  | Call.reset :: cs, s, e => epoch cs (EgLang.reset s) e
  | Call.setOutput pin state :: cs, s, e => epoch cs (setPinOutput s pin state) e

/-- The output cache agrees with the traces from position `e` on: for every
output pin, the entry of the pin is claimed exactly when the pin was written,
a claimed entry holds the state written last, and the writes to the pin are the
requests for it without their consecutive repetitions. -/
def CacheAgrees (e : Nat × Nat) (s : State) : Prop :=
  e.1 ≤ s.hw.writes.length ∧ e.2 ≤ s.hw.requests.length ∧
  s.ctl.pinStates.map PinState.pin = outputs ∧
  ∀ p ∈ outputs, ∃ x, s.ctl.pinStates.find? (fun y => decide (y.pin = p)) = some x ∧
    (x.isOutput = true ↔ statesFor p (s.hw.writes.drop e.1) ≠ []) ∧
    (x.isOutput = true → (statesFor p (s.hw.writes.drop e.1)).getLast? = some x.state) ∧
    statesFor p (s.hw.writes.drop e.1) = dropRepeats (statesFor p (s.hw.requests.drop e.2))

/-- The call is a registration or a tick. -/
def Call.isRegTick : Call → Prop
  | Call.register _ => True
  | Call.tick _ => True
  | _ => False

/-- In the tick with readings `env` from state `s` the `check` of the rule at
index `i` is made and returns true. -/
def firedAt (env : Nat → Nat → Nat) (s : State) (i : Nat) : Bool :=
  s.ctl.initialized && decide (i < s.ctl.count) &&
    ((s.ctl.rules.getD i Rule.new).check env (evalUpTo env s i).2).2.2

/-- The number of ticks among `calls`, made in order from state `s`, in which
the `check` of the rule at index `i` returns true. -/
def fires (i : Nat) : List Call → State → Nat
  | [], _ => 0
  | Call.tick env :: cs, s => (if firedAt env s i then 1 else 0) + fires i cs (run env s)
  | Call.register text :: cs, s => fires i cs (add s text).1
  | Call.reset :: cs, s => fires i cs (EgLang.reset s)
  | Call.shutdown :: cs, s => fires i cs (EgLang.shutdown s)
  | Call.setOutput pin state :: cs, s => fires i cs (setPinOutput s pin state)

/-- The cursor is not beyond any registered rule that is not a
SimpleCommand. -/
def CursorBound (s : State) : Prop :=
  ∀ k, k < s.ctl.count → (s.ctl.rules.getD k Rule.new).parsed.isSimpleCommand = false →
    s.ctl.currentRule ≤ k
/-! ## Frame lemmas -/

theorem sameTable_refl (s : State) : SameTable s s := ⟨rfl, rfl, rfl, rfl, rfl⟩

theorem SameTable.trans {a b c : State} (h1 : SameTable a b) (h2 : SameTable b c) :
    SameTable a c := by
  obtain ⟨h11, h12, h13, h14, h15⟩ := h1
  obtain ⟨h21, h22, h23, h24, h25⟩ := h2
  exact ⟨h21.trans h11, h22.trans h12, h23.trans h13, h24.trans h14, h25.trans h15⟩

theorem updatePinState_pins (ps : List PinState) (pin state : Nat) :
    (updatePinState ps pin state).map PinState.pin = ps.map PinState.pin := by
  induction ps with
  | nil => rfl
  | cons e es ih =>
    unfold updatePinState
    split
    · simp
    · simp [ih]

theorem setPinOutput_sameTable (s : State) (pin state : Nat) :
    SameTable s (setPinOutput s pin state) := by
  unfold setPinOutput
  simp only
  split
  · split
    · exact ⟨rfl, rfl, rfl, rfl, rfl⟩
    · exact ⟨rfl, rfl, rfl, rfl, updatePinState_pins _ _ _⟩
  · exact ⟨rfl, rfl, rfl, rfl, updatePinState_pins _ _ _⟩

theorem sampleLoop_sameTable (env : Nat → Nat → Nat) (pin n readings : Nat) (s : State) :
    SameTable s (sampleLoop env pin n readings s).2 := by
  induction n generalizing readings s with
  | zero => exact sameTable_refl s
  | succ n ih =>
    unfold sampleLoop
    exact SameTable.trans ⟨rfl, rfl, rfl, rfl, rfl⟩ (ih _ _)

theorem readPinStable_sameTable (env : Nat → Nat → Nat) (s : State) (pin : Nat) :
    SameTable s (readPinStable env s pin).2 :=
  sampleLoop_sameTable env pin 3 0 s

theorem executeLoopCommand_sameTable (s : State) (command : List Char) :
    SameTable s (executeLoopCommand s command).1 := by
  unfold executeLoopCommand
  dsimp only
  repeat' split
  all_goals first | exact sameTable_refl s | exact setPinOutput_sameTable _ _ _

theorem executeLoopCommandOff_sameTable (s : State) (command : List Char) :
    SameTable s (executeLoopCommandOff s command) := by
  unfold executeLoopCommandOff
  dsimp only
  repeat' split
  all_goals first | exact sameTable_refl s | exact setPinOutput_sameTable _ _ _

theorem loopScan_sameTable (f : State → List Char → State)
    (hf : ∀ s cmd, SameTable s (f s cmd)) (rest seg : List Char) (s : State) :
    SameTable s (loopScan f rest seg s) := by
  induction rest generalizing seg s with
  | nil =>
    unfold loopScan
    split
    · exact hf _ _
    · exact sameTable_refl s
  | cons c rest ih =>
    unfold loopScan
    split
    · exact SameTable.trans (hf _ _) (ih _ _)
    · exact ih _ _

theorem executeLoopCommands_sameTable (r : Rule) (s : State) :
    SameTable s (r.executeLoopCommands s) := by
  unfold Rule.executeLoopCommands
  split
  · exact sameTable_refl s
  · exact loopScan_sameTable _ (fun s cmd => executeLoopCommand_sameTable s cmd) _ _ _

theorem executeLoopCommandsOff_sameTable (r : Rule) (s : State) :
    SameTable s (r.executeLoopCommandsOff s) := by
  unfold Rule.executeLoopCommandsOff
  split
  · exact sameTable_refl s
  · exact loopScan_sameTable _ executeLoopCommandOff_sameTable _ _ _

theorem check_sameTable (env : Nat → Nat → Nat) (r : Rule) (s : State) :
    SameTable s (r.check env s).2.1 := by
  unfold Rule.check
  dsimp only
  split_ifs <;>
    first
    | exact sameTable_refl s
    | exact readPinStable_sameTable _ _ _
    | exact setPinOutput_sameTable _ _ _
    | exact SameTable.trans (readPinStable_sameTable _ _ _) (executeLoopCommands_sameTable _ _)
    | exact SameTable.trans (readPinStable_sameTable _ _ _) (executeLoopCommandsOff_sameTable _ _)

/-- A call of `check` changes nothing of a rule but `done` and `inLoop`. -/
theorem check_reset (env : Nat → Nat → Nat) (r : Rule) (s : State) :
    (r.check env s).1.reset = r.reset := by
  unfold Rule.check
  dsimp only
  split_ifs <;> rfl

theorem reset_valid {r r' : Rule} (h : r'.reset = r.reset) :
    r'.parsed.valid = r.parsed.valid :=
  congrArg (fun x => x.parsed.valid) h

theorem checkRules_sameTable (env : Nat → Nat → Nat) (n : Nat) (rs : List Rule) (s : State) :
    SameTable s (checkRules env n rs s).2.1 := by
  induction n generalizing rs s with
  | zero => exact sameTable_refl s
  | succ n ih =>
    cases rs with
    | nil => exact sameTable_refl s
    | cons r rs =>
      unfold checkRules
      exact SameTable.trans (check_sameTable env r s) (ih _ _)

theorem checkRules_length (env : Nat → Nat → Nat) (n : Nat) (rs : List Rule) (s : State) :
    (checkRules env n rs s).1.length = rs.length := by
  induction n generalizing rs s with
  | zero => rfl
  | succ n ih =>
    cases rs with
    | nil => rfl
    | cons r rs =>
      unfold checkRules
      simp [ih]

theorem checkRules_getD_reset (env : Nat → Nat → Nat) (n : Nat) (rs : List Rule) (s : State)
    (i : Nat) (d : Rule) :
    ((checkRules env n rs s).1.getD i d).reset = (rs.getD i d).reset := by
  induction n generalizing rs s i with
  | zero => rfl
  | succ n ih =>
    cases rs with
    | nil => rfl
    | cons r rs =>
      unfold checkRules
      cases i with
      | zero => simpa using check_reset env r s
      | succ j => simpa using ih rs _ j

theorem checkRules_getD_ge (env : Nat → Nat → Nat) (n : Nat) (rs : List Rule) (s : State)
    (i : Nat) (d : Rule) (h : n ≤ i) :
    (checkRules env n rs s).1.getD i d = rs.getD i d := by
  induction n generalizing rs s i with
  | zero => rfl
  | succ n ih =>
    cases rs with
    | nil => rfl
    | cons r rs =>
      unfold checkRules
      cases i with
      | zero => omega
      | succ j => simpa using ih rs _ j (by omega)

theorem mapFirst_length {α : Type} (f : α → α) (n : Nat) (xs : List α) :
    (mapFirst f n xs).length = xs.length := by
  induction n generalizing xs with
  | zero => rfl
  | succ n ih =>
    cases xs with
    | nil => rfl
    | cons x xs => simp [mapFirst, ih]

theorem mapFirst_getD_ge {α : Type} (f : α → α) (n : Nat) (xs : List α) (i : Nat) (d : α)
    (h : n ≤ i) : (mapFirst f n xs).getD i d = xs.getD i d := by
  induction n generalizing xs i with
  | zero => rfl
  | succ n ih =>
    cases xs with
    | nil => rfl
    | cons x xs =>
      cases i with
      | zero => omega
      | succ j => simpa [mapFirst] using ih xs j (by omega)

theorem mapFirst_getD_lt {α : Type} (f : α → α) (n : Nat) (xs : List α) (i : Nat) (d : α)
    (h : i < n) (hi : i < xs.length) : (mapFirst f n xs).getD i d = f (xs.getD i d) := by
  induction n generalizing xs i with
  | zero => omega
  | succ n ih =>
    cases xs with
    | nil => simp at hi
    | cons x xs =>
      cases i with
      | zero => simp [mapFirst]
      | succ j =>
        simp only [List.length_cons] at hi
        simpa [mapFirst] using ih xs j (by omega) (by omega)

theorem mapFirst_getD_reset (f : Rule → Rule) (hf : ∀ r, (f r).reset = r.reset) (n : Nat)
    (rs : List Rule) (i : Nat) (d : Rule) :
    ((mapFirst f n rs).getD i d).reset = (rs.getD i d).reset := by
  induction n generalizing rs i with
  | zero => rfl
  | succ n ih =>
    cases rs with
    | nil => rfl
    | cons r rs =>
      cases i with
      | zero => simpa [mapFirst] using hf r
      | succ j => simpa [mapFirst] using ih rs j

/-! ## The invariant holds in every reachable state -/

theorem Inv.transfer {s s' : State} (h : Inv s)
    (hc : s'.ctl.count = s.ctl.count) (hi : s'.ctl.initialized = s.ctl.initialized)
    (hp : s'.ctl.pinStates.map PinState.pin = s.ctl.pinStates.map PinState.pin)
    (hl : s'.ctl.rules.length = s.ctl.rules.length)
    (hr : ∀ i, (s'.ctl.rules.getD i Rule.new).reset = (s.ctl.rules.getD i Rule.new).reset)
    (hg : ∀ i, s.ctl.count ≤ i → s'.ctl.rules.getD i Rule.new = s.ctl.rules.getD i Rule.new)
    (hcur : s'.ctl.currentRule = 0 ∨ s'.ctl.currentRule < s.ctl.count) : Inv s' where
  initialized := hi.trans h.initialized
  length := hl.trans h.length
  count_le := hc ▸ h.count_le
  valid_below := fun i hlt => (reset_valid (hr i)).trans (h.valid_below i (hc ▸ hlt))
  fresh_above := fun i hle => by
    rw [hg i (hc ▸ hle)]
    exact h.fresh_above i (hc ▸ hle)
  cursor := by rw [hc]; exact hcur
  pins := hp.trans h.pins

theorem Inv.sameTable {s s' : State} (h : Inv s) (hs : SameTable s s') : Inv s' := by
  obtain ⟨h1, h2, h3, h4, h5⟩ := hs
  refine h.transfer h2 h4 h5 (by rw [h1]) (fun i => by rw [h1]) (fun i _ => by rw [h1]) ?_
  rw [h3]
  exact h.cursor

theorem inv_init_boot : Inv (init boot) where
  initialized := rfl
  length := rfl
  count_le := by decide
  valid_below := fun i hlt => absurd hlt (Nat.not_lt_zero i)
  fresh_above := fun i _ => by
    show ((List.replicate MAX_RULES Rule.new).getD i Rule.new).parsed.valid = false ∧
      ((List.replicate MAX_RULES Rule.new).getD i Rule.new).done = false
    have : (List.replicate MAX_RULES Rule.new).getD i Rule.new = Rule.new := by
      rw [List.getD_eq_getElem?_getD]
      by_cases hi : i < MAX_RULES
      · simp [List.getElem?_replicate, hi]
      · simp [List.getElem?_replicate, hi]
    rw [this]
    exact ⟨rfl, rfl⟩
  cursor := Or.inl rfl
  pins := rfl

theorem init_of_initialized {s : State} (h : s.ctl.initialized = true) : init s = s := by
  unfold init
  simp [h]

theorem Inv.reset {s : State} (h : Inv s) : Inv (EgLang.reset s) :=
  h.transfer rfl rfl rfl (mapFirst_length _ _ _)
    (fun i => mapFirst_getD_reset Rule.reset (fun _ => rfl) s.ctl.count s.ctl.rules i Rule.new)
    (fun _ hle => mapFirst_getD_ge _ _ _ _ _ hle) (Or.inl rfl)

theorem Inv.shutdown {s : State} (h : Inv s) : Inv (EgLang.shutdown s) := by
  refine h.reset.transfer rfl rfl ?_ rfl (fun _ => rfl) (fun _ _ => rfl) (Or.inl rfl)
  show ((EgLang.reset s).ctl.pinStates.map _).map PinState.pin = _
  rw [List.map_map]
  rfl

theorem Inv.run {s : State} (h : Inv s) (env : Nat → Nat → Nat) : Inv (run env s) := by
  have hst := checkRules_sameTable env s.ctl.count s.ctl.rules s
  obtain ⟨-, h2, h3, h4, h5⟩ := hst
  unfold EgLang.run
  dsimp only
  split_ifs with hexit hadv hwrap
  · exact h
  · refine h.transfer h2 h4 h5 ?_ ?_ ?_ (Or.inl rfl)
    · exact (mapFirst_length _ _ _).trans (checkRules_length _ _ _ _)
    · intro i
      refine (mapFirst_getD_reset _ ?_ _ _ _ _).trans (checkRules_getD_reset _ _ _ _ _ _)
      intro r
      split <;> rfl
    · intro i hle
      refine (mapFirst_getD_ge _ _ _ _ _ (by rw [h2]; exact hle)).trans
        (checkRules_getD_ge _ _ _ _ _ _ hle)
  · refine h.transfer h2 h4 h5 (checkRules_length _ _ _ _)
      (fun i => checkRules_getD_reset _ _ _ _ _ _)
      (fun i hle => checkRules_getD_ge _ _ _ _ _ _ hle) (Or.inr ?_)
    simp only [h2] at hwrap ⊢
    omega
  · refine h.transfer h2 h4 h5 (checkRules_length _ _ _ _)
      (fun i => checkRules_getD_reset _ _ _ _ _ _)
      (fun i hle => checkRules_getD_ge _ _ _ _ _ _ hle) ?_
    show (checkRules env s.ctl.count s.ctl.rules s).2.1.ctl.currentRule = 0 ∨ _
    rw [h3]
    exact h.cursor

/-! ## Case analysis of the parser -/

theorem unparsed_refl (r : Rule) : Unparsed r r := ⟨rfl, rfl, rfl⟩

theorem stateOK_of_not {c : Char} (h : ¬ (c ≠ '0' ∧ c ≠ '1')) : StateOK c := by
  by_contra hc
  exact h ⟨fun a => hc (Or.inl a), fun b => hc (Or.inr b)⟩

theorem pinOK_of_not {role : Nat → Bool} {tok : List Char}
    (h : ¬ ((!isPinValid (toByte (atoi tok)) || !role (toByte (atoi tok))) = true)) :
    PinOK role tok := by
  unfold PinOK
  cases h1 : isPinValid (toByte (atoi tok)) <;> cases h2 : role (toByte (atoi tok)) <;>
    simp [h1, h2] at h ⊢

theorem parseSimpleCommand_cases (r : Rule) :
    r.parseSimpleCommand = r ∨
    ∃ comma, FieldOK isOutputPin r.ruleText comma ∧
      r.parseSimpleCommand = { r with parsed := { r.parsed with
        action := nibble (atoi (substr r.ruleText 0 comma)),
        aState := if charAt r.ruleText (comma + 1) = '1' then 1 else 0,
        isSimpleCommand := true, valid := true } } := by
  unfold Rule.parseSimpleCommand
  cases hs : strchr r.ruleText ',' with
  | none => exact Or.inl rfl
  | some comma =>
    dsimp only
    by_cases h1 : comma = 0
    · rw [if_pos h1]; exact Or.inl rfl
    rw [if_neg h1]
    by_cases h2 : charAt r.ruleText (comma + 1) = NUL ∨ charAt r.ruleText (comma + 2) ≠ NUL
    · rw [if_pos h2]; exact Or.inl rfl
    rw [if_neg h2]
    by_cases h3 : comma ≤ 0 ∨ comma > 2
    · rw [if_pos h3]; exact Or.inl rfl
    rw [if_neg h3]
    cases h4 : isPinValid (toByte (atoi (substr r.ruleText 0 comma)))
    · exact Or.inl rfl
    cases h5 : isOutputPin (toByte (atoi (substr r.ruleText 0 comma)))
    · exact Or.inl rfl
    by_cases h6 : charAt r.ruleText (comma + 1) ≠ '0' ∧ charAt r.ruleText (comma + 1) ≠ '1'
    · rw [if_pos h6]; exact Or.inl rfl
    rw [if_neg h6]
    refine Or.inr ⟨comma, ⟨hs, by omega, by omega, ?_, ?_, ⟨h4, h5⟩, stateOK_of_not h6⟩, rfl⟩
    · exact fun h => h2 (Or.inl h)
    · by_contra h; exact h2 (Or.inr h)

theorem validateSingleLoopCommand_cases (command : List Char)
    (h : validateSingleLoopCommand command = true) :
    ∃ comma, FieldOK isOutputPin command comma := by
  unfold validateSingleLoopCommand at h
  by_cases h0 : command = []
  · rw [if_pos h0] at h; exact (Bool.false_ne_true h).elim
  rw [if_neg h0] at h
  cases hs : strchr command ',' with
  | none => rw [hs] at h; exact (Bool.false_ne_true h).elim
  | some comma =>
    rw [hs] at h
    dsimp only at h
    by_cases h1 : comma = 0
    · rw [if_pos h1] at h; exact (Bool.false_ne_true h).elim
    rw [if_neg h1] at h
    by_cases h2 : charAt command (comma + 1) = NUL ∨ charAt command (comma + 2) ≠ NUL
    · rw [if_pos h2] at h; exact (Bool.false_ne_true h).elim
    rw [if_neg h2] at h
    by_cases h3 : comma ≤ 0 ∨ comma > 2
    · rw [if_pos h3] at h; exact (Bool.false_ne_true h).elim
    rw [if_neg h3] at h
    by_cases h4 : (!isPinValid (toByte (atoi (substr command 0 comma))) ||
        !isOutputPin (toByte (atoi (substr command 0 comma)))) = true
    · rw [if_pos h4] at h; exact (Bool.false_ne_true h).elim
    rw [if_neg h4] at h
    by_cases h6 : charAt command (comma + 1) ≠ '0' ∧ charAt command (comma + 1) ≠ '1'
    · rw [if_pos h6] at h; exact (Bool.false_ne_true h).elim
    refine ⟨comma, hs, by omega, by omega, ?_, ?_, pinOK_of_not h4, stateOK_of_not h6⟩
    · exact fun h => h2 (Or.inl h)
    · by_contra h; exact h2 (Or.inr h)

theorem validateSingleLoopCommand_intro (command : List Char) (comma : Nat)
    (h : FieldOK isOutputPin command comma) : validateSingleLoopCommand command = true := by
  obtain ⟨hs, h0, h2, hc1, hc2, hp, hst⟩ := h
  have hne : command ≠ [] := by
    intro h; rw [h] at hs; exact absurd hs (by simp [strchr])
  unfold validateSingleLoopCommand
  rw [if_neg hne, hs]
  dsimp only
  rw [if_neg (by omega), if_neg (by simp [hc1, hc2]), if_neg (by omega)]
  obtain ⟨hp1, hp2⟩ := hp
  rw [hp1, hp2]
  rcases hst with h | h <;> simp [h]

theorem parseLoop_cases (r : Rule) :
    Unparsed r r.parseLoop ∨
    ∃ colon, LoopOK r.ruleText colon ∧
      r.parseLoop = { r with parsed := { r.parsed with
        loopCommands := substr r.ruleText (colon + 1) (r.ruleText.length - 1 - (colon + 1)),
        loopPin := nibble (atoi (substr r.ruleText 1 (colon - 1))),
        isLoop := true, valid := true } } := by
  unfold Rule.parseLoop
  dsimp only
  by_cases h0 : r.ruleText.length < 5
  · rw [if_pos h0]; exact Or.inl (unparsed_refl r)
  rw [if_neg h0]
  cases hs : strchrFrom r.ruleText 1 ':' with
  | none => exact Or.inl (unparsed_refl r)
  | some colon =>
    dsimp only
    by_cases h1 : colon ≥ r.ruleText.length - 2
    · rw [if_pos h1]; exact Or.inl (unparsed_refl r)
    rw [if_neg h1]
    by_cases h2 : colon - 1 ≤ 0 ∨ colon - 1 > 2
    · rw [if_pos h2]; exact Or.inl (unparsed_refl r)
    rw [if_neg h2]
    cases h3 : isPinValid (toByte (atoi (substr r.ruleText 1 (colon - 1))))
    · exact Or.inl (unparsed_refl r)
    cases h4 : isInputPin (toByte (atoi (substr r.ruleText 1 (colon - 1))))
    · exact Or.inl (unparsed_refl r)
    by_cases h5 : r.ruleText.length - 1 - (colon + 1) ≤ 0 ∨
        r.ruleText.length - 1 - (colon + 1) ≥ MAX_LOOP_COMMANDS
    · simp only [Bool.not_true, Bool.false_eq_true, if_false]
      rw [if_pos h5]; exact Or.inl (unparsed_refl r)
    simp only [Bool.not_true, Bool.false_eq_true, if_false]
    rw [if_neg h5]
    cases h6 : validateLoopCommands
        (substr r.ruleText (colon + 1) (r.ruleText.length - 1 - (colon + 1)))
    · exact Or.inl ⟨rfl, rfl, rfl⟩
    exact Or.inr ⟨colon, ⟨hs, by omega, by omega, by omega, by omega, ⟨h3, h4⟩, by omega, h6⟩,
      rfl⟩

theorem parseSimpleCondition_cases (r : Rule) (condition : List Char) :
    r.parseSimpleCondition condition = (r, false) ∨
    ∃ comma, FieldOK isInputPin condition comma ∧
      r.parseSimpleCondition condition = ({ r with parsed := { r.parsed with
        trigger1 := nibble (atoi (substr condition 0 comma)),
        tState1 := if charAt condition (comma + 1) = '1' then 1 else 0 } }, true) := by
  unfold Rule.parseSimpleCondition
  cases hs : strchr condition ',' with
  | none => exact Or.inl rfl
  | some comma =>
    dsimp only
    by_cases h1 : comma = 0
    · rw [if_pos h1]; exact Or.inl rfl
    rw [if_neg h1]
    by_cases h2 : charAt condition (comma + 1) = NUL ∨ charAt condition (comma + 2) ≠ NUL
    · rw [if_pos h2]; exact Or.inl rfl
    rw [if_neg h2]
    by_cases h3 : comma ≤ 0 ∨ comma > 2
    · rw [if_pos h3]; exact Or.inl rfl
    rw [if_neg h3]
    by_cases h4 : (!isPinValid (toByte (atoi (substr condition 0 comma))) ||
        !isInputPin (toByte (atoi (substr condition 0 comma)))) = true
    · rw [if_pos h4]; exact Or.inl rfl
    rw [if_neg h4]
    by_cases h6 : charAt condition (comma + 1) ≠ '0' ∧ charAt condition (comma + 1) ≠ '1'
    · rw [if_pos h6]; exact Or.inl rfl
    rw [if_neg h6]
    refine Or.inr ⟨comma, ⟨hs, by omega, by omega, ?_, ?_, pinOK_of_not h4, stateOK_of_not h6⟩,
      rfl⟩
    · exact fun h => h2 (Or.inl h)
    · by_contra h; exact h2 (Or.inr h)

theorem parseAndCondition_cases (r : Rule) (condition : List Char) (ampersand : Nat) :
    r.parseAndCondition condition ampersand = (r, false) ∨
    ∃ comma1 comma2, AndCondOK condition ampersand comma1 comma2 ∧
      r.parseAndCondition condition ampersand = ({ r with parsed := { r.parsed with
        trigger1 := nibble (atoi (substr condition 0 comma1)),
        tState1 := if charAt condition (comma1 + 1) = '1' then 1 else 0,
        trigger2 := nibble (atoi (substr condition (ampersand + 1) (comma2 - (ampersand + 1)))),
        tState2 := if charAt condition (comma2 + 1) = '1' then 1 else 0,
        useAND := true } }, true) := by
  unfold Rule.parseAndCondition
  cases hs1 : strchr condition ',' with
  | none => exact Or.inl rfl
  | some comma1 =>
    cases hs2 : strchrFrom condition (ampersand + 1) ',' with
    | none => exact Or.inl rfl
    | some comma2 =>
      dsimp only
      by_cases h1 : comma1 ≥ ampersand
      · rw [if_pos h1]; exact Or.inl rfl
      rw [if_neg h1]
      by_cases h2 : comma1 ≤ 0 ∨ comma1 > 2
      · rw [if_pos h2]; exact Or.inl rfl
      rw [if_neg h2]
      by_cases h3 : (!isPinValid (toByte (atoi (substr condition 0 comma1))) ||
          !isInputPin (toByte (atoi (substr condition 0 comma1)))) = true
      · rw [if_pos h3]; exact Or.inl rfl
      rw [if_neg h3]
      by_cases h4 : comma1 + 2 ≠ ampersand
      · rw [if_pos h4]; exact Or.inl rfl
      rw [if_neg h4]
      by_cases h5 : charAt condition (comma1 + 1) ≠ '0' ∧ charAt condition (comma1 + 1) ≠ '1'
      · rw [if_pos h5]; exact Or.inl rfl
      rw [if_neg h5]
      by_cases h6 : comma2 - (ampersand + 1) ≤ 0 ∨ comma2 - (ampersand + 1) > 2
      · rw [if_pos h6]; exact Or.inl rfl
      rw [if_neg h6]
      by_cases h7 : (!isPinValid (toByte (atoi (substr condition (ampersand + 1)
            (comma2 - (ampersand + 1))))) ||
          !isInputPin (toByte (atoi (substr condition (ampersand + 1)
            (comma2 - (ampersand + 1)))))) = true
      · rw [if_pos h7]; exact Or.inl rfl
      rw [if_neg h7]
      by_cases h8 : charAt condition (comma2 + 2) ≠ NUL
      · rw [if_pos h8]; exact Or.inl rfl
      rw [if_neg h8]
      by_cases h9 : charAt condition (comma2 + 1) ≠ '0' ∧ charAt condition (comma2 + 1) ≠ '1'
      · rw [if_pos h9]; exact Or.inl rfl
      rw [if_neg h9]
      refine Or.inr ⟨comma1, comma2, ⟨hs1, hs2, by omega, by omega, by omega, pinOK_of_not h3,
        stateOK_of_not h5, by omega, by omega, pinOK_of_not h7, ?_, stateOK_of_not h9⟩, rfl⟩
      by_contra h; exact h8 h

theorem parseConditionalRule_cases (r : Rule) :
    Unparsed r r.parseConditionalRule ∨
    ∃ excl ac, ActionOK r.ruleText excl ac ∧
      ((strchr (substr r.ruleText 1 (excl - 1)) '&' = none ∧
        ∃ comma, FieldOK isInputPin (substr r.ruleText 1 (excl - 1)) comma ∧
          r.parseConditionalRule = { r with parsed := { r.parsed with
            action := nibble (atoi (substr r.ruleText (excl + 1) (ac - (excl + 1)))),
            aState := if charAt r.ruleText (ac + 1) = '1' then 1 else 0,
            isContinuous := true,
            trigger1 := nibble (atoi (substr (substr r.ruleText 1 (excl - 1)) 0 comma)),
            tState1 := if charAt (substr r.ruleText 1 (excl - 1)) (comma + 1) = '1' then 1 else 0,
            valid := true } }) ∨
       (∃ amp comma1 comma2, strchr (substr r.ruleText 1 (excl - 1)) '&' = some amp ∧
          AndCondOK (substr r.ruleText 1 (excl - 1)) amp comma1 comma2 ∧
          r.parseConditionalRule = { r with parsed := { r.parsed with
            action := nibble (atoi (substr r.ruleText (excl + 1) (ac - (excl + 1)))),
            aState := if charAt r.ruleText (ac + 1) = '1' then 1 else 0,
            isContinuous := true,
            trigger1 := nibble (atoi (substr (substr r.ruleText 1 (excl - 1)) 0 comma1)),
            tState1 :=
              if charAt (substr r.ruleText 1 (excl - 1)) (comma1 + 1) = '1' then 1 else 0,
            trigger2 := nibble (atoi (substr (substr r.ruleText 1 (excl - 1)) (amp + 1)
              (comma2 - (amp + 1)))),
            tState2 :=
              if charAt (substr r.ruleText 1 (excl - 1)) (comma2 + 1) = '1' then 1 else 0,
            useAND := true, valid := true } })) := by
  unfold Rule.parseConditionalRule
  cases hs : strchr r.ruleText '!' with
  | none => exact Or.inl (unparsed_refl r)
  | some excl =>
    dsimp only
    by_cases h1 : excl ≤ 1
    · rw [if_pos h1]; exact Or.inl (unparsed_refl r)
    rw [if_neg h1]
    cases hs2 : strchrFrom r.ruleText (excl + 1) ',' with
    | none => exact Or.inl (unparsed_refl r)
    | some ac =>
      dsimp only
      by_cases h2 : ac = excl + 1
      · rw [if_pos h2]; exact Or.inl (unparsed_refl r)
      rw [if_neg h2]
      by_cases h3 : charAt r.ruleText (ac + 1) = NUL ∨ charAt r.ruleText (ac + 2) ≠ NUL
      · rw [if_pos h3]; exact Or.inl (unparsed_refl r)
      rw [if_neg h3]
      by_cases h4 : ac - (excl + 1) ≤ 0 ∨ ac - (excl + 1) > 2
      · rw [if_pos h4]; exact Or.inl (unparsed_refl r)
      rw [if_neg h4]
      by_cases h5 : (!isPinValid (toByte (atoi (substr r.ruleText (excl + 1) (ac - (excl + 1))))) ||
          !isOutputPin (toByte (atoi (substr r.ruleText (excl + 1) (ac - (excl + 1)))))) = true
      · rw [if_pos h5]; exact Or.inl (unparsed_refl r)
      rw [if_neg h5]
      by_cases h6 : charAt r.ruleText (ac + 1) ≠ '0' ∧ charAt r.ruleText (ac + 1) ≠ '1'
      · rw [if_pos h6]; exact Or.inl (unparsed_refl r)
      rw [if_neg h6]
      by_cases h7 : excl - 1 ≤ 0 ∨ excl - 1 > 15
      · rw [if_pos h7]; exact Or.inl ⟨rfl, rfl, rfl⟩
      rw [if_neg h7]
      have hact : ActionOK r.ruleText excl ac :=
        ⟨hs, by omega, by omega, hs2, by omega, by omega, fun h => h3 (Or.inl h),
          by by_contra h; exact h3 (Or.inr h), pinOK_of_not h5, stateOK_of_not h6⟩
      cases hamp : strchr (substr r.ruleText 1 (excl - 1)) '&' with
      | none =>
        dsimp only
        rcases parseSimpleCondition_cases
          { r with parsed := { r.parsed with
            action := nibble (atoi (substr r.ruleText (excl + 1) (ac - (excl + 1)))),
            aState := if charAt r.ruleText (ac + 1) = '1' then 1 else 0,
            isContinuous := true } } (substr r.ruleText 1 (excl - 1)) with hf | ⟨comma, hok, heq⟩
        · rw [hf]
          exact Or.inl ⟨rfl, rfl, rfl⟩
        · rw [heq]
          exact Or.inr ⟨excl, ac, hact, Or.inl ⟨hamp, comma, hok, rfl⟩⟩
      | some amp =>
        dsimp only
        rcases parseAndCondition_cases
          { r with parsed := { r.parsed with
            action := nibble (atoi (substr r.ruleText (excl + 1) (ac - (excl + 1)))),
            aState := if charAt r.ruleText (ac + 1) = '1' then 1 else 0,
            isContinuous := true } } (substr r.ruleText 1 (excl - 1)) amp
          with hf | ⟨comma1, comma2, hok, heq⟩
        · rw [hf]
          exact Or.inl ⟨rfl, rfl, rfl⟩
        · rw [heq]
          exact Or.inr ⟨excl, ac, hact, Or.inr ⟨amp, comma1, comma2, hamp, hok, rfl⟩⟩

/-! ## Parsing does not touch `done` -/

theorem parseRule_done (r : Rule) : r.parseRule.done = r.done := by
  unfold Rule.parseRule
  dsimp only
  by_cases h0 : r.ruleText = []
  · rw [if_pos h0]
  rw [if_neg h0]
  by_cases h1 : r.ruleText.length < 3
  · rw [if_pos h1]
  rw [if_neg h1]
  by_cases h2 : charAt r.ruleText 0 = '[' ∧ charAt r.ruleText (r.ruleText.length - 1) = ']'
  · rw [if_pos h2]
    rcases parseLoop_cases { r with parsed := ParsedRule.zero } with h | ⟨_, _, h⟩
    · exact h.2.1
    · rw [h]
  rw [if_neg h2]
  by_cases h3 : charAt r.ruleText 0 = '?'
  · rw [if_pos h3]
    rcases parseConditionalRule_cases { r with parsed := ParsedRule.zero } with
      h | ⟨_, _, _, ⟨_, _, _, h⟩ | ⟨_, _, _, _, _, h⟩⟩
    · exact h.2.1
    · rw [h]
    · rw [h]
  rw [if_neg h3]
  rcases parseSimpleCommand_cases { r with parsed := ParsedRule.zero } with h | ⟨_, _, h⟩
  · rw [h]
  · rw [h]

theorem setRule_done (r : Rule) (text : List Char) : (r.setRule text).done = r.done := by
  unfold Rule.setRule
  split
  · rfl
  · exact parseRule_done _

/-- On a slot whose `done` flag is clear, `setRule` with a non-empty text
leaves exactly the rule that compiling the text gives. -/
theorem setRule_eq_compile (r : Rule) (h : r.done = false) (text : List Char) (ht : text ≠ []) :
    r.setRule text = compile text := by
  unfold compile Rule.setRule
  rw [if_neg ht, if_neg ht]
  unfold Rule.parseRule
  simp only [h, Rule.new]

theorem compile_nil : compile [] = Rule.new := rfl

/-! ## Registration -/

theorem add_full {s : State} (h : s.ctl.initialized = true) (hc : MAX_RULES ≤ s.ctl.count)
    (text : List Char) : add s text = (s, false) := by
  unfold add
  rw [init_of_initialized h]
  simp [hc]

theorem add_valid {s : State} (h : s.ctl.initialized = true) (hc : s.ctl.count < MAX_RULES)
    (text : List Char)
    (hv : ((s.ctl.rules.getD s.ctl.count Rule.new).setRule text).parsed.valid = true) :
    add s text =
      ({ s with ctl := { s.ctl with
          rules := s.ctl.rules.set s.ctl.count
            ((s.ctl.rules.getD s.ctl.count Rule.new).setRule text),
          count := s.ctl.count + 1 } }, true) := by
  unfold add
  rw [init_of_initialized h]
  simp only [ge_iff_le, Nat.not_le.mpr hc, if_false, hv, if_true]

theorem add_invalid {s : State} (h : s.ctl.initialized = true) (hc : s.ctl.count < MAX_RULES)
    (text : List Char)
    (hv : ((s.ctl.rules.getD s.ctl.count Rule.new).setRule text).parsed.valid = false) :
    add s text =
      ({ s with ctl := { s.ctl with
          rules := s.ctl.rules.set s.ctl.count
            ((s.ctl.rules.getD s.ctl.count Rule.new).setRule text) } }, false) := by
  unfold add
  rw [init_of_initialized h]
  simp only [ge_iff_le, Nat.not_le.mpr hc, if_false, hv, Bool.false_eq_true]

theorem getD_set_ne (rs : List Rule) (i j : Nat) (r d : Rule) (h : i ≠ j) :
    (rs.set i r).getD j d = rs.getD j d := by
  simp [List.getElem?_set_ne h]

theorem getD_set_self (rs : List Rule) (i : Nat) (r d : Rule) (h : i < rs.length) :
    (rs.set i r).getD i d = r := by
  simp [List.getElem?_set_self h]

theorem Inv.add {s : State} (h : Inv s) (text : List Char) : Inv (add s text).1 := by
  by_cases hc : MAX_RULES ≤ s.ctl.count
  · rw [add_full h.initialized hc]
    exact h
  · have hc' : s.ctl.count < MAX_RULES := Nat.lt_of_not_le hc
    have hlen : s.ctl.count < s.ctl.rules.length := by rw [h.length]; exact hc'
    have hd : ((s.ctl.rules.getD s.ctl.count Rule.new).setRule text).done = false := by
      rw [setRule_done]
      exact (h.fresh_above _ (Nat.le_refl _)).2
    cases hv : ((s.ctl.rules.getD s.ctl.count Rule.new).setRule text).parsed.valid with
    | true =>
      rw [add_valid h.initialized hc' text hv]
      refine ⟨h.initialized, ?_, hc', ?_, ?_, ?_, h.pins⟩
      · show (s.ctl.rules.set _ _).length = MAX_RULES
        rw [List.length_set]
        exact h.length
      · intro i hi
        show ((s.ctl.rules.set _ _).getD i Rule.new).parsed.valid = true
        by_cases hic : s.ctl.count = i
        · subst hic
          rw [getD_set_self _ _ _ _ hlen]
          exact hv
        · rw [getD_set_ne _ _ _ _ _ hic]
          exact h.valid_below i (by
            have : i < s.ctl.count + 1 := hi
            omega)
      · intro i hi
        have hi' : s.ctl.count + 1 ≤ i := hi
        show ((s.ctl.rules.set _ _).getD i Rule.new).parsed.valid = false ∧
          ((s.ctl.rules.set _ _).getD i Rule.new).done = false
        rw [getD_set_ne _ _ _ _ _ (by omega)]
        exact h.fresh_above i (by omega)
      · rcases h.cursor with h0 | hlt
        · exact Or.inl h0
        · exact Or.inr (Nat.lt_succ_of_lt hlt)
    | false =>
      rw [add_invalid h.initialized hc' text hv]
      refine ⟨h.initialized, ?_, h.count_le, ?_, ?_, h.cursor, h.pins⟩
      · show (s.ctl.rules.set _ _).length = MAX_RULES
        rw [List.length_set]
        exact h.length
      · intro i hi
        have hi' : i < s.ctl.count := hi
        show ((s.ctl.rules.set _ _).getD i Rule.new).parsed.valid = true
        rw [getD_set_ne _ _ _ _ _ (by omega)]
        exact h.valid_below i hi'
      · intro i hi
        have hi' : s.ctl.count ≤ i := hi
        show ((s.ctl.rules.set _ _).getD i Rule.new).parsed.valid = false ∧
          ((s.ctl.rules.set _ _).getD i Rule.new).done = false
        by_cases hic : s.ctl.count = i
        · subst hic
          rw [getD_set_self _ _ _ _ hlen]
          exact ⟨hv, hd⟩
        · rw [getD_set_ne _ _ _ _ _ hic]
          exact h.fresh_above i hi'

theorem Inv.apply {s : State} (h : Inv s) (c : Call) : Inv (c.apply s) := by
  cases c with
  | register text => exact h.add text
  | tick env => exact h.run env
  | reset => exact h.reset
  | shutdown => exact h.shutdown
  | setOutput pin state => exact h.sameTable (setPinOutput_sameTable s pin state)

theorem Inv.exec {s : State} (h : Inv s) (calls : List Call) : Inv (exec calls s) := by
  induction calls generalizing s with
  | nil => exact h
  | cons c cs ih => exact ih (h.apply c)

/-- The invariant holds in every state reached from initialisation. -/
theorem inv_reachable (calls : List Call) : Inv (exec calls (init boot)) :=
  inv_init_boot.exec calls

/-! ## Registration contract -/

theorem Reachable.inv {s : State} (h : Reachable s) : Inv s := by
  obtain ⟨calls, rfl⟩ := h
  exact inv_reachable calls

theorem add_contract {s : State} (h : Inv s) (text : List Char) :
    ((add s text).2 = true ↔ s.ctl.count < MAX_RULES ∧ (compile text).parsed.valid = true) ∧
    ((add s text).2 = true →
      (add s text).1.ctl.count = s.ctl.count + 1 ∧
      (add s text).1.ctl.rules[s.ctl.count]? = some (compile text) ∧
      ∀ i, i < s.ctl.count → (add s text).1.ctl.rules[i]? = s.ctl.rules[i]?) ∧
    ((add s text).2 = false →
      (add s text).1.ctl.count = s.ctl.count ∧
      (∀ i, i < s.ctl.count → (add s text).1.ctl.rules[i]? = s.ctl.rules[i]?) ∧
      (add s text).1.ctl.currentRule = s.ctl.currentRule ∧
      (add s text).1.ctl.pinStates = s.ctl.pinStates) := by
  by_cases hc : MAX_RULES ≤ s.ctl.count
  · rw [add_full h.initialized hc]
    refine ⟨⟨fun hf => (Bool.false_ne_true hf).elim, fun hf => absurd hf.1 (Nat.not_lt.mpr hc)⟩,
      fun hf => (Bool.false_ne_true hf).elim, fun _ => ⟨rfl, fun _ _ => rfl, rfl, rfl⟩⟩
  · have hc' : s.ctl.count < MAX_RULES := Nat.lt_of_not_le hc
    have hlen : s.ctl.count < s.ctl.rules.length := by rw [h.length]; exact hc'
    have hfresh := h.fresh_above _ (Nat.le_refl s.ctl.count)
    have hval : ((s.ctl.rules.getD s.ctl.count Rule.new).setRule text).parsed.valid =
        (compile text).parsed.valid := by
      by_cases ht : text = []
      · subst ht
        exact hfresh.1
      · rw [setRule_eq_compile _ hfresh.2 text ht]
    have hstore : ((s.ctl.rules.getD s.ctl.count Rule.new).setRule text).parsed.valid = true →
        (s.ctl.rules.getD s.ctl.count Rule.new).setRule text = compile text := by
      intro hv
      by_cases ht : text = []
      · subst ht
        exact absurd (hfresh.1.symm.trans hv) (by decide)
      · exact setRule_eq_compile _ hfresh.2 text ht
    have hbelow : ∀ (r : Rule) (i : Nat), i < s.ctl.count →
        (s.ctl.rules.set s.ctl.count r)[i]? = s.ctl.rules[i]? := by
      intro r i hi
      exact List.getElem?_set_ne (by omega)
    cases hv : ((s.ctl.rules.getD s.ctl.count Rule.new).setRule text).parsed.valid with
    | true =>
      rw [add_valid h.initialized hc' text hv]
      refine ⟨⟨fun _ => ⟨hc', hval ▸ hv⟩, fun _ => rfl⟩, fun _ => ⟨rfl, ?_, hbelow _⟩,
        fun hf => (Bool.false_ne_true hf.symm).elim⟩
      show (s.ctl.rules.set s.ctl.count _)[s.ctl.count]? = some (compile text)
      rw [List.getElem?_set_self hlen, hstore hv]
    | false =>
      rw [add_invalid h.initialized hc' text hv]
      refine ⟨⟨fun hf => (Bool.false_ne_true hf).elim, fun hf => ?_⟩,
        fun hf => (Bool.false_ne_true hf).elim, fun _ => ⟨rfl, hbelow _, rfl, rfl⟩⟩
      rw [← hval, hv] at hf
      exact (Bool.false_ne_true hf.2).elim

/-- Claim C1. In every state reached from initialisation, `add` (register)
returns true exactly when the table holds fewer than `MAX_RULES` rules and
the text compiles to a valid rule. When it returns true the count grows by
one, the compiled rule stands at the old end of the table and the rules
registered before are unchanged; when it returns false the count, the
registered rules, the cursor and the output cache are unchanged. -/
theorem C1_register_contract (s : State) (text : List Char) (hs : Reachable s) :
    ((add s text).2 = true ↔ s.ctl.count < MAX_RULES ∧ (compile text).parsed.valid = true) ∧
    ((add s text).2 = true →
      (add s text).1.ctl.count = s.ctl.count + 1 ∧
      (add s text).1.ctl.rules[s.ctl.count]? = some (compile text) ∧
      ∀ i, i < s.ctl.count → (add s text).1.ctl.rules[i]? = s.ctl.rules[i]?) ∧
    ((add s text).2 = false →
      (add s text).1.ctl.count = s.ctl.count ∧
      (∀ i, i < s.ctl.count → (add s text).1.ctl.rules[i]? = s.ctl.rules[i]?) ∧
      (add s text).1.ctl.currentRule = s.ctl.currentRule ∧
      (add s text).1.ctl.pinStates = s.ctl.pinStates) :=
  add_contract hs.inv text

/-- After `2,1` is registered, registering `?5,1!4,0` returns true and the count is 2. -/
theorem C1_register_contract_witness :
    (add (exec [Call.register "2,1".toList] (init boot)) "?5,1!4,0".toList).2 = true ∧
    (add (exec [Call.register "2,1".toList] (init boot)) "?5,1!4,0".toList).1.ctl.count = 2 :=
  have h := C1_register_contract (exec [Call.register "2,1".toList] (init boot))
    "?5,1!4,0".toList ⟨_, rfl⟩
  have ht := h.1.2 ⟨by decide, by decide⟩
  ⟨ht, (h.2.1 ht).1⟩

/-- Claim C9. In every state reached from initialisation, registering the
empty text returns false and leaves the rule count and the registered rules
unchanged. -/
theorem C9_register_empty (s : State) (hs : Reachable s) :
    (add s []).2 = false ∧ (add s []).1.ctl.count = s.ctl.count ∧
    ∀ i, i < s.ctl.count → (add s []).1.ctl.rules[i]? = s.ctl.rules[i]? := by
  have h := add_contract hs.inv []
  have hf : (add s []).2 = false := by
    cases hr : (add s []).2 with
    | false => rfl
    | true => exact absurd (h.1.1 hr).2 (by decide)
  exact ⟨hf, (h.2.2 hf).1, (h.2.2 hf).2.1⟩

/-- After a rejected `99,1` and a tick, registering the empty text returns false. -/
theorem C9_register_empty_witness :
    (add (exec [Call.register "99,1".toList, Call.tick (fun _ _ => LOW)] (init boot)) []).2 =
      false :=
  (C9_register_empty _ ⟨_, rfl⟩).1

/-! ## Output cache -/

theorem find_updatePinState (ps : List PinState) (pin state : Nat)
    (h : pin ∈ ps.map PinState.pin) :
    (updatePinState ps pin state).find? (fun e => decide (e.pin = pin)) =
      some { pin := pin, state := state % 2, isOutput := true } := by
  induction ps with
  | nil => simp at h
  | cons e es ih =>
    unfold updatePinState
    by_cases he : e.pin = pin
    · rw [if_pos he]
      simp [List.find?, he]
    · rw [if_neg he]
      have h' : pin ∈ es.map PinState.pin := by
        simp only [List.map_cons, List.mem_cons] at h
        rcases h with h | h
        · exact absurd h.symm he
        · exact h
      simp [List.find?, he, ih h']

/-- The state after the write branch of `setPinOutput`. -/
theorem setPinOutput_write (s : State) (pin state : Nat)
    (h : ∀ e, s.ctl.pinStates.find? (fun e => decide (e.pin = pin)) = some e →
      ¬ (e.isOutput = true ∧ e.state = state)) :
    setPinOutput s pin state =
      { ctl := { s.ctl with pinStates := updatePinState s.ctl.pinStates pin state },
        hw := { s.hw with
          requests := s.hw.requests ++ [(pin, state)],
          modes := s.hw.modes ++ [(pin, PinMode.OUTPUT)],
          writes := s.hw.writes ++ [(pin, state)],
          changes := s.hw.changes ++ [(pin, state)] } } := by
  unfold setPinOutput
  dsimp only
  cases hf : s.ctl.pinStates.find? (fun e => decide (e.pin = pin)) with
  | none => rfl
  | some e =>
    dsimp only
    rw [if_neg (h e hf)]

/-- The state after the suppressed branch of `setPinOutput`. -/
theorem setPinOutput_same (s : State) (pin state : Nat) (e : PinState)
    (hf : s.ctl.pinStates.find? (fun e => decide (e.pin = pin)) = some e)
    (ho : e.isOutput = true) (hst : e.state = state) :
    setPinOutput s pin state =
      { s with hw := { s.hw with requests := s.hw.requests ++ [(pin, state)] } } := by
  unfold setPinOutput
  dsimp only
  rw [hf]
  dsimp only
  rw [if_pos ⟨ho, hst⟩]

/-- After `setPinOutput` the cache holds the pin as claimed in the state
asked for, when the cache has an entry for the pin. -/
theorem setPinOutput_cached (s : State) (pin state : Nat) (hst : state < 2)
    (h : pin ∈ s.ctl.pinStates.map PinState.pin) :
    ∃ e, (setPinOutput s pin state).ctl.pinStates.find? (fun e => decide (e.pin = pin)) = some e ∧
      e.isOutput = true ∧ e.state = state := by
  cases hf : s.ctl.pinStates.find? (fun e => decide (e.pin = pin)) with
  | none =>
    rw [setPinOutput_write s pin state (by intro e he; rw [hf] at he; cases he)]
    exact ⟨_, find_updatePinState _ _ _ h, rfl, Nat.mod_eq_of_lt hst⟩
  | some e =>
    by_cases hc : e.isOutput = true ∧ e.state = state
    · rw [setPinOutput_same s pin state e hf hc.1 hc.2]
      exact ⟨e, hf, hc.1, hc.2⟩
    · rw [setPinOutput_write s pin state (by
        intro e' he'
        rw [hf] at he'
        cases he'
        exact hc)]
      exact ⟨_, find_updatePinState _ _ _ h, rfl, Nat.mod_eq_of_lt hst⟩

theorem mem_pins_of_inv {s : State} (h : Inv s) {p : Nat} (hp : p ∈ outputs) :
    p ∈ s.ctl.pinStates.map PinState.pin := by
  rw [h.pins]
  exact hp

/-- Claim C10. For an output pin `p` and a state `st`, in every state reached
from initialisation: if `p` is not yet claimed as output, two calls
`setPinOutput p st` in succession make one raw write and one change-log entry
in total, and a third call with the other state makes one more of each; and
in any case the second of two identical calls in succession makes no raw
write, no `pinMode` call and no log entry and leaves the cache as it is. -/
theorem C10_output_cache_idempotent (s : State) (p st : Nat) (hs : Reachable s)
    (hp : p ∈ outputs) (hst : st < 2) :
    (Unclaimed s p →
      (setPinOutput (setPinOutput s p st) p st).hw.writes = s.hw.writes ++ [(p, st)] ∧
      (setPinOutput (setPinOutput s p st) p st).hw.changes = s.hw.changes ++ [(p, st)] ∧
      (setPinOutput (setPinOutput (setPinOutput s p st) p st) p (1 - st)).hw.writes =
        s.hw.writes ++ [(p, st)] ++ [(p, 1 - st)] ∧
      (setPinOutput (setPinOutput (setPinOutput s p st) p st) p (1 - st)).hw.changes =
        s.hw.changes ++ [(p, st)] ++ [(p, 1 - st)]) ∧
    ((setPinOutput (setPinOutput s p st) p st).hw.writes = (setPinOutput s p st).hw.writes ∧
      (setPinOutput (setPinOutput s p st) p st).hw.changes = (setPinOutput s p st).hw.changes ∧
      (setPinOutput (setPinOutput s p st) p st).hw.modes = (setPinOutput s p st).hw.modes ∧
      (setPinOutput (setPinOutput s p st) p st).ctl = (setPinOutput s p st).ctl) := by
  have hin := mem_pins_of_inv hs.inv hp
  obtain ⟨e, hf, ho, hes⟩ := setPinOutput_cached s p st hst hin
  have h2 := setPinOutput_same (setPinOutput s p st) p st e hf ho hes
  refine ⟨fun hu => ?_, by rw [h2], by rw [h2], by rw [h2], by rw [h2]⟩
  have h1 : setPinOutput s p st = _ := setPinOutput_write s p st (by
    intro e' he' hc
    have hmem := List.mem_of_find?_eq_some he'
    have hpin : e'.pin = p := by simpa using List.find?_some he'
    rw [hu e' hmem hpin] at hc
    exact Bool.false_ne_true hc.1)
  have h3 : setPinOutput (setPinOutput (setPinOutput s p st) p st) p (1 - st) = _ :=
    setPinOutput_write _ p (1 - st) (by
      intro e' he' hc
      rw [h2] at he'
      rw [hf] at he'
      cases he'
      omega)
  rw [h3, h2, h1]
  exact ⟨rfl, rfl, rfl, rfl⟩

/-- On the initialised controller, `setPinOutput 2 1` twice writes once, and `setPinOutput 2 0` after them once more. -/
theorem C10_output_cache_idempotent_witness :
    (setPinOutput (setPinOutput (init boot) 2 1) 2 1).hw.writes = [(2, 1)] ∧
    (setPinOutput (setPinOutput (setPinOutput (init boot) 2 1) 2 1) 2 0).hw.writes =
      [(2, 1), (2, 0)] :=
  have h := (C10_output_cache_idempotent (init boot) 2 1 ⟨[], rfl⟩ (by decide) (by decide)).1
    (by unfold Unclaimed; decide)
  ⟨h.1, h.2.2.1⟩

/-! ## Facts on strings and numbers -/

theorem strchr_lt {s : List Char} {c : Char} {i : Nat} (h : strchr s c = some i) :
    i < s.length := by
  induction s generalizing i with
  | nil => simp [strchr] at h
  | cons x xs ih =>
    unfold strchr at h
    by_cases hx : x = c
    · rw [if_pos hx] at h
      cases h
      simp
    · rw [if_neg hx] at h
      cases hr : strchr xs c with
      | none => rw [hr] at h; simp at h
      | some j =>
        rw [hr] at h
        simp only [Option.map_some', Option.some.injEq] at h
        have := ih hr
        simp only [List.length_cons]
        omega

theorem strchrFrom_bounds {s : List Char} {off : Nat} {c : Char} {i : Nat}
    (h : strchrFrom s off c = some i) : off ≤ i ∧ i < s.length := by
  unfold strchrFrom at h
  cases hr : strchr (s.drop off) c with
  | none => rw [hr] at h; simp at h
  | some j =>
    rw [hr] at h
    simp only [Option.map_some', Option.some.injEq] at h
    have := strchr_lt hr
    simp only [List.length_drop] at this
    omega

/-- In a string without NUL, the terminator is read only at the end. -/
theorem length_le_of_charAt_NUL {s : List Char} {i : Nat} (hn : NUL ∉ s)
    (h : charAt s i = NUL) : s.length ≤ i := by
  by_contra hlt
  have hi : i < s.length := Nat.lt_of_not_le hlt
  apply hn
  unfold charAt at h
  rw [List.getD_eq_getElem _ _ hi] at h
  rw [← h]
  exact List.getElem_mem hi

theorem nibble_eq_toByte {n : Int} (h : isPinValid (toByte n) = true) :
    nibble n = toByte n := by
  unfold isPinValid at h
  unfold toByte at h ⊢
  unfold nibble
  simp only [decide_eq_true_eq] at h
  omega

theorem PinOK.nibble_mem_outputs {tok : List Char} (h : PinOK isOutputPin tok) :
    nibble (atoi tok) ∈ outputs := by
  rw [nibble_eq_toByte h.1]
  have := h.2
  unfold isOutputPin at this
  simpa using this

theorem PinOK.nibble_mem_inputs {tok : List Char} (h : PinOK isInputPin tok) :
    nibble (atoi tok) ∈ inputs := by
  rw [nibble_eq_toByte h.1]
  have := h.2
  unfold isInputPin at this
  simpa using this

/-! ## How a rule gets valid -/

theorem parseRule_ruleText (r : Rule) : r.parseRule.ruleText = r.ruleText := by
  unfold Rule.parseRule
  dsimp only
  by_cases h0 : r.ruleText = []
  · rw [if_pos h0]
  rw [if_neg h0]
  by_cases h1 : r.ruleText.length < 3
  · rw [if_pos h1]
  rw [if_neg h1]
  by_cases h2 : charAt r.ruleText 0 = '[' ∧ charAt r.ruleText (r.ruleText.length - 1) = ']'
  · rw [if_pos h2]
    rcases parseLoop_cases { r with parsed := ParsedRule.zero } with h | ⟨_, _, h⟩
    · exact h.1
    · rw [h]
  rw [if_neg h2]
  by_cases h3 : charAt r.ruleText 0 = '?'
  · rw [if_pos h3]
    rcases parseConditionalRule_cases { r with parsed := ParsedRule.zero } with
      h | ⟨_, _, _, ⟨_, _, _, h⟩ | ⟨_, _, _, _, _, h⟩⟩
    · exact h.1
    · rw [h]
    · rw [h]
  rw [if_neg h3]
  rcases parseSimpleCommand_cases { r with parsed := ParsedRule.zero } with h | ⟨_, _, h⟩
  · rw [h]
  · rw [h]

theorem parseRule_cases (r : Rule) (hv : r.parseRule.parsed.valid = true) :
    3 ≤ r.ruleText.length ∧ Parsed r.ruleText r.parseRule.parsed := by
  unfold Rule.parseRule at hv ⊢
  dsimp only at hv ⊢
  by_cases h0 : r.ruleText = []
  · rw [if_pos h0] at hv; exact (Bool.false_ne_true hv).elim
  rw [if_neg h0] at hv ⊢
  by_cases h1 : r.ruleText.length < 3
  · rw [if_pos h1] at hv; exact (Bool.false_ne_true hv).elim
  rw [if_neg h1] at hv ⊢
  refine ⟨Nat.le_of_not_lt h1, ?_⟩
  by_cases h2 : charAt r.ruleText 0 = '[' ∧ charAt r.ruleText (r.ruleText.length - 1) = ']'
  · rw [if_pos h2] at hv ⊢
    rcases parseLoop_cases { r with parsed := ParsedRule.zero } with h | ⟨colon, hok, h⟩
    · rw [h.2.2] at hv; exact (Bool.false_ne_true hv).elim
    · rw [h]
      exact Parsed.loop colon h2 hok rfl
  rw [if_neg h2] at hv ⊢
  by_cases h3 : charAt r.ruleText 0 = '?'
  · rw [if_pos h3] at hv ⊢
    rcases parseConditionalRule_cases { r with parsed := ParsedRule.zero } with
      h | ⟨excl, ac, hact, ⟨hamp, comma, hok, h⟩ | ⟨amp, comma1, comma2, hamp, hok, h⟩⟩
    · rw [h.2.2] at hv; exact (Bool.false_ne_true hv).elim
    · rw [h]
      exact Parsed.cond excl ac comma h2 h3 hact hamp hok rfl
    · rw [h]
      exact Parsed.and excl ac amp comma1 comma2 h2 h3 hact hamp hok rfl
  rw [if_neg h3] at hv ⊢
  rcases parseSimpleCommand_cases { r with parsed := ParsedRule.zero } with h | ⟨comma, hok, h⟩
  · rw [h] at hv; exact (Bool.false_ne_true hv).elim
  · rw [h]
    exact Parsed.simple comma h2 h3 hok rfl

theorem compile_ruleText (text : List Char) :
    (compile text).ruleText = text.take (MAX_RULE_LENGTH - 1) := by
  unfold compile Rule.setRule
  by_cases ht : text = []
  · subst ht; rfl
  · rw [if_neg ht, parseRule_ruleText]

theorem compile_cases (text : List Char) (hv : (compile text).parsed.valid = true) :
    3 ≤ (text.take (MAX_RULE_LENGTH - 1)).length ∧
      Parsed (text.take (MAX_RULE_LENGTH - 1)) (compile text).parsed := by
  unfold compile Rule.setRule at hv ⊢
  by_cases ht : text = []
  · rw [if_pos ht] at hv; exact (Bool.false_ne_true hv).elim
  · rw [if_neg ht] at hv ⊢
    exact parseRule_cases _ hv

/-- A valid rule text stored in a rule has at most 28 characters. -/
theorem parsed_length_le {t : List Char} {p : ParsedRule} (h : Parsed t p) (hn : NUL ∉ t) :
    t.length ≤ 28 := by
  cases h with
  | loop colon shape ok eq =>
    obtain ⟨_, h5, hc, h0, h2, _, hcmd, _⟩ := ok
    unfold MAX_LOOP_COMMANDS at hcmd
    omega
  | cond excl ac comma shape first act noAmp ok eq =>
    obtain ⟨_, h1, h15, _, h0, h2, _, hend, _, _⟩ := act
    have := length_le_of_charAt_NUL hn hend
    omega
  | and excl ac amp comma1 comma2 shape first act hamp ok eq =>
    obtain ⟨_, h1, h15, _, h0, h2, _, hend, _, _⟩ := act
    have := length_le_of_charAt_NUL hn hend
    omega
  | simple comma shape first ok eq =>
    obtain ⟨_, h0, h2, _, hend, _, _⟩ := ok
    have := length_le_of_charAt_NUL hn hend
    omega

/-- A loop text stored in a rule has at most 28 characters. -/
theorem loopOK_length_le {t : List Char} {colon : Nat} (ok : LoopOK t colon) :
    t.length ≤ 28 := by
  obtain ⟨_, h5, hc, h0, h2, _, hcmd, _⟩ := ok
  unfold MAX_LOOP_COMMANDS at hcmd
  omega

theorem take_eq_of_take_length_lt {α : Type} (l : List α) (n m : Nat) (h : (l.take n).length ≤ m)
    (hm : m < n) : l.take n = l := by
  apply List.take_of_length_le
  rw [List.length_take] at h
  omega

/-- A text without NUL that compiles to a valid rule is stored whole. -/
theorem compile_valid_take (text : List Char) (hn : NUL ∉ text)
    (hv : (compile text).parsed.valid = true) : text.take (MAX_RULE_LENGTH - 1) = text := by
  have h := (compile_cases text hv).2
  have hn' : NUL ∉ text.take (MAX_RULE_LENGTH - 1) := fun hm => hn (List.mem_of_mem_take hm)
  exact take_eq_of_take_length_lt text _ 28 (parsed_length_le h hn') (by decide)

theorem setRule_invalid_of_long (r : Rule) (text : List Char) (hn : NUL ∉ text)
    (hlen : 31 < text.length) : (r.setRule text).parsed.valid = false := by
  cases hv : (r.setRule text).parsed.valid with
  | false => rfl
  | true =>
    have ht : text ≠ [] := by
      intro h; rw [h] at hlen; simp at hlen
    unfold Rule.setRule at hv
    rw [if_neg ht] at hv
    have h := (parseRule_cases _ hv).2
    have hn' : NUL ∉ text.take (MAX_RULE_LENGTH - 1) := fun hm => hn (List.mem_of_mem_take hm)
    have h28 := parsed_length_le h hn'
    have h31 : (text.take (MAX_RULE_LENGTH - 1)).length = 31 := by
      rw [List.length_take]
      unfold MAX_RULE_LENGTH
      omega
    change (text.take (MAX_RULE_LENGTH - 1)).length ≤ 28 at h28
    omega

/-- Claim C8. A rule text of more than 31 characters does not compile:
`setRule` leaves any rule invalid, and `add` on an initialised controller
returns false with the rule count and the registered rules unchanged. -/
theorem C8_overlong_rejected (s : State) (text : List Char)
    (hinit : s.ctl.initialized = true) (hn : NUL ∉ text) (hlen : 31 < text.length) :
    (∀ r : Rule, (r.setRule text).parsed.valid = false) ∧
    (compile text).parsed.valid = false ∧
    (add s text).2 = false ∧
    (add s text).1.ctl.count = s.ctl.count ∧
    ∀ i, i < s.ctl.count → (add s text).1.ctl.rules[i]? = s.ctl.rules[i]? := by
  refine ⟨fun r => setRule_invalid_of_long r text hn hlen,
    setRule_invalid_of_long _ text hn hlen, ?_⟩
  by_cases hc : MAX_RULES ≤ s.ctl.count
  · rw [add_full hinit hc]
    exact ⟨rfl, rfl, fun _ _ => rfl⟩
  · rw [add_invalid hinit (Nat.lt_of_not_le hc) text (setRule_invalid_of_long _ text hn hlen)]
    exact ⟨rfl, rfl, fun i hi => List.getElem?_set_ne (by omega)⟩

/-- A text of 32 characters starting with `2,1` is not registered. -/
theorem C8_overlong_rejected_witness :
    (add (init boot) ("2,1" ++ "                             ").toList).2 = false :=
  (C8_overlong_rejected (init boot) ("2,1" ++ "                             ").toList rfl
    (by decide) (by decide)).2.2.1

/-- Claim C3. Every pin stored in a valid parsed rule has the right role: the
target of a SimpleCommand is an output pin; the triggers of a conditional
rule are input pins (the second one when `useAND` is set) and its target an
output pin; the gate of a loop is an input pin. The texts `3,1` and `99,1`
do not compile. -/
theorem C3_pin_roles :
    (∀ text : List Char, (compile text).parsed.valid = true →
      ((compile text).parsed.isSimpleCommand = true → (compile text).parsed.action ∈ outputs) ∧
      ((compile text).parsed.isContinuous = true →
        (compile text).parsed.trigger1 ∈ inputs ∧
        ((compile text).parsed.useAND = true → (compile text).parsed.trigger2 ∈ inputs) ∧
        (compile text).parsed.action ∈ outputs) ∧
      ((compile text).parsed.isLoop = true → (compile text).parsed.loopPin ∈ inputs)) ∧
    (compile "3,1".toList).parsed.valid = false ∧
    (compile "99,1".toList).parsed.valid = false := by
  refine ⟨fun text hv => ?_, by decide, by decide⟩
  have h := (compile_cases text hv).2
  refine ⟨?_, ?_, ?_⟩
  · intro hk
    cases h with
    | loop colon shape ok eq => rw [eq] at hk; exact (Bool.false_ne_true hk).elim
    | cond excl ac comma shape first act noAmp ok eq =>
      rw [eq] at hk; exact (Bool.false_ne_true hk).elim
    | and excl ac amp comma1 comma2 shape first act hamp ok eq =>
      rw [eq] at hk; exact (Bool.false_ne_true hk).elim
    | simple comma shape first ok eq =>
      rw [eq]
      exact ok.2.2.2.2.2.1.nibble_mem_outputs
  · intro hk
    cases h with
    | loop colon shape ok eq => rw [eq] at hk; exact (Bool.false_ne_true hk).elim
    | cond excl ac comma shape first act noAmp ok eq =>
      rw [eq]
      exact ⟨ok.2.2.2.2.2.1.nibble_mem_inputs, fun hu => (Bool.false_ne_true hu).elim,
        act.2.2.2.2.2.2.2.2.1.nibble_mem_outputs⟩
    | and excl ac amp comma1 comma2 shape first act hamp ok eq =>
      rw [eq]
      exact ⟨ok.2.2.2.2.2.1.nibble_mem_inputs, fun _ => ok.2.2.2.2.2.2.2.2.2.1.nibble_mem_inputs,
        act.2.2.2.2.2.2.2.2.1.nibble_mem_outputs⟩
    | simple comma shape first ok eq => rw [eq] at hk; exact (Bool.false_ne_true hk).elim
  · intro hk
    cases h with
    | loop colon shape ok eq =>
      rw [eq]
      exact ok.2.2.2.2.2.1.nibble_mem_inputs
    | cond excl ac comma shape first act noAmp ok eq =>
      rw [eq] at hk; exact (Bool.false_ne_true hk).elim
    | and excl ac amp comma1 comma2 shape first act hamp ok eq =>
      rw [eq] at hk; exact (Bool.false_ne_true hk).elim
    | simple comma shape first ok eq => rw [eq] at hk; exact (Bool.false_ne_true hk).elim

/-- The pins stored for `?5,1&7,0!2,1` have the right roles. -/
theorem C3_pin_roles_witness :
    (compile "?5,1&7,0!2,1".toList).parsed.trigger1 ∈ inputs ∧
    (compile "?5,1&7,0!2,1".toList).parsed.trigger2 ∈ inputs ∧
    (compile "?5,1&7,0!2,1".toList).parsed.action ∈ outputs :=
  have h := (C3_pin_roles.1 "?5,1&7,0!2,1".toList (by decide)).2.1 (by decide)
  ⟨h.1, h.2.1 (by decide), h.2.2⟩

/-! ## Compiling a loop text -/

theorem validateLoopScan_nil (seg : List Char) :
    validateLoopScan [] seg =
      if seg ≠ [] then (if !validateSingleLoopCommand seg then false else true) else true := by
  rw [validateLoopScan]

theorem validateLoopScan_cons (c : Char) (rest seg : List Char) :
    validateLoopScan (c :: rest) seg =
      if c = ';' then
        if !validateSingleLoopCommand seg then false else validateLoopScan rest []
      else validateLoopScan rest (seg ++ [c]) := by
  rw [validateLoopScan]

theorem validateLoopScan_append (tok rest seg : List Char) (h : ';' ∉ tok) :
    validateLoopScan (tok ++ rest) seg = validateLoopScan rest (seg ++ tok) := by
  induction tok generalizing seg with
  | nil => simp
  | cons c cs ih =>
    have hc : c ≠ ';' := fun he => h (by simp [he])
    have hcs : ';' ∉ cs := fun hm => h (List.mem_cons_of_mem _ hm)
    rw [List.cons_append, validateLoopScan_cons, if_neg hc, ih _ hcs]
    simp

/-- The text of one command with an output pin is a command the validator
accepts, and holds no `;`. -/
theorem command_ok (c : Nat × Bool) (h : c.1 ∈ outputs) :
    ';' ∉ decimal c.1 ++ [',', stateChar c.2] ∧
    decimal c.1 ++ [',', stateChar c.2] ≠ [] ∧
    validateSingleLoopCommand (decimal c.1 ++ [',', stateChar c.2]) = true := by
  obtain ⟨p, b⟩ := c
  have hp : p = 2 ∨ p = 4 ∨ p = 6 ∨ p = 8 ∨ p = 10 ∨ p = 12 := by
    simpa [outputs] using h
  rcases hp with rfl | rfl | rfl | rfl | rfl | rfl <;> cases b <;> decide

theorem validateLoopScan_serialise (cmds : List (Nat × Bool)) (hne : cmds ≠ [])
    (hout : ∀ c ∈ cmds, c.1 ∈ outputs) : validateLoopScan (serialise cmds) [] = true := by
  induction cmds with
  | nil => exact absurd rfl hne
  | cons c rest ih =>
    obtain ⟨h1, h2, h3⟩ := command_ok c (hout c (List.mem_cons_self _ _))
    cases rest with
    | nil =>
      have : serialise [c] = (decimal c.1 ++ [',', stateChar c.2]) ++ [] := by
        simp [serialise]
      rw [this, validateLoopScan_append _ _ _ h1, validateLoopScan_nil]
      simp [h3]
    | cons d rest' =>
      have : serialise (c :: d :: rest') =
          (decimal c.1 ++ [',', stateChar c.2]) ++ (';' :: serialise (d :: rest')) := by
        simp [serialise]
      rw [this, validateLoopScan_append _ _ _ h1, validateLoopScan_cons]
      simp only [List.nil_append, if_true, h3, Bool.not_true, Bool.false_eq_true, if_false]
      exact ih (by simp) (fun x hx => hout x (List.mem_cons_of_mem _ hx))

theorem serialise_ne_nil (cmds : List (Nat × Bool)) (hne : cmds ≠ []) : serialise cmds ≠ [] := by
  cases cmds with
  | nil => exact absurd rfl hne
  | cons c rest =>
    cases rest with
    | nil => simp [serialise]
    | cons d rest' => simp [serialise]

theorem validateLoopCommands_serialise (cmds : List (Nat × Bool)) (hne : cmds ≠ [])
    (hout : ∀ c ∈ cmds, c.1 ∈ outputs) (hlen : (serialise cmds).length ≤ 23) :
    validateLoopCommands (serialise cmds) = true := by
  unfold validateLoopCommands
  rw [if_neg (serialise_ne_nil cmds hne), List.take_of_length_le (by simpa [MAX_LOOP_COMMANDS] using hlen)]
  exact validateLoopScan_serialise cmds hne hout

theorem parseLoop_intro (r : Rule) (colon : Nat) (h : LoopOK r.ruleText colon) :
    r.parseLoop = { r with parsed := { r.parsed with
      loopCommands := loopSegmentAt r.ruleText colon,
      loopPin := nibble (atoi (substr r.ruleText 1 (colon - 1))),
      isLoop := true, valid := true } } := by
  obtain ⟨hs, h5, hc, h0, h2, hp, hcmd, hval⟩ := h
  unfold Rule.parseLoop
  dsimp only
  rw [if_neg (by omega), hs]
  dsimp only
  rw [if_neg (by omega), if_neg (by omega), hp.1, hp.2]
  simp only [Bool.not_true, Bool.false_eq_true, if_false]
  rw [if_neg (by omega), hval]
  rfl

theorem compile_loop (t : List Char) (colon : Nat) (hshape : LoopShape t)
    (hok : LoopOK t colon) :
    compile t =
      { ruleText := t, done := false,
        parsed := loopParsed (nibble (atoi (substr t 1 (colon - 1)))) (loopSegmentAt t colon) } := by
  have h28 := loopOK_length_le hok
  have h5 : 5 ≤ t.length := hok.2.1
  have hne : t ≠ [] := by
    intro h; rw [h] at h5; simp at h5
  have htake : t.take (MAX_RULE_LENGTH - 1) = t :=
    List.take_of_length_le (by unfold MAX_RULE_LENGTH; omega)
  unfold compile Rule.setRule
  rw [if_neg hne, htake]
  unfold Rule.parseRule
  dsimp only [Rule.new]
  have hshape' : charAt t 0 = '[' ∧ charAt t (t.length - 1) = ']' := hshape
  rw [if_neg hne, if_neg (by omega), if_pos hshape', parseLoop_intro _ colon hok]
  rfl

theorem strchr_append_cons (a b : List Char) (c : Char) (h : c ∉ a) :
    strchr (a ++ c :: b) c = some a.length := by
  induction a with
  | nil => simp [strchr]
  | cons x xs ih =>
    have hx : x ≠ c := fun he => h (by simp [he])
    have hxs : c ∉ xs := fun hm => h (List.mem_cons_of_mem _ hm)
    rw [List.cons_append]
    unfold strchr
    rw [if_neg hx, ih hxs]
    rfl

/-- The text `[gate:commands]` compiles to a loop when the gate token is
accepted as an input pin and the commands are accepted. -/
theorem compile_loop_text (gtok ser : List Char) (hg1 : 0 < gtok.length) (hg2 : gtok.length ≤ 2)
    (hcolon : ':' ∉ gtok) (hpin : PinOK isInputPin gtok) (hlen : ser.length ≤ 23)
    (hval : validateLoopCommands ser = true) :
    compile (['['] ++ gtok ++ [':'] ++ ser ++ [']']) =
      { ruleText := ['['] ++ gtok ++ [':'] ++ ser ++ [']'], done := false,
        parsed := loopParsed (nibble (atoi gtok)) ser } := by
  have hser : 0 < ser.length := by
    cases ser with
    | nil => exact absurd hval (by decide)
    | cons _ _ => simp
  have ht : ['['] ++ gtok ++ [':'] ++ ser ++ [']'] = '[' :: (gtok ++ ':' :: (ser ++ [']'])) := by
    simp
  have hl : (['['] ++ gtok ++ [':'] ++ ser ++ [']']).length = gtok.length + ser.length + 3 := by
    simp; omega
  have hsub1 : substr (['['] ++ gtok ++ [':'] ++ ser ++ [']']) 1 (gtok.length + 1 - 1) = gtok := by
    rw [ht]
    unfold substr
    simp
  have hseg : loopSegmentAt (['['] ++ gtok ++ [':'] ++ ser ++ [']']) (gtok.length + 1) = ser := by
    unfold loopSegmentAt
    rw [hl]
    have e : gtok.length + ser.length + 3 - 1 - (gtok.length + 1 + 1) = ser.length := by omega
    rw [e, ht]
    unfold substr
    simp [List.drop_append]
  have hshape : LoopShape (['['] ++ gtok ++ [':'] ++ ser ++ [']']) := by
    refine ⟨by rw [ht]; rfl, ?_⟩
    rw [hl]
    unfold charAt
    have e : gtok.length + ser.length + 3 - 1 = (['['] ++ gtok ++ [':'] ++ ser).length := by
      simp; omega
    rw [e, List.getD_eq_getElem?_getD, List.getElem?_append_right (Nat.le_refl _)]
    simp
  have hok : LoopOK (['['] ++ gtok ++ [':'] ++ ser ++ [']']) (gtok.length + 1) := by
    refine ⟨?_, by omega, by omega, by omega, by omega, by rw [hsub1]; exact hpin, ?_, ?_⟩
    · rw [ht]
      unfold strchrFrom
      simp only [List.drop_succ_cons, List.drop_zero]
      rw [strchr_append_cons _ _ _ hcolon]
      rfl
    · rw [hl]; unfold MAX_LOOP_COMMANDS; omega
    · have := hseg
      unfold loopSegmentAt at this
      rw [this]
      exact hval
  rw [compile_loop _ _ hshape hok, hsub1, hseg]

/-! ## Running the commands of a compiled loop text -/

theorem setPinOutput_requests (s : State) (pin state : Nat) :
    (setPinOutput s pin state).hw.requests = s.hw.requests ++ [(pin, state)] := by
  unfold setPinOutput
  dsimp only
  split
  · split <;> rfl
  · rfl

theorem loopScan_nil (f : State → List Char → State) (seg : List Char) (s : State) :
    loopScan f [] seg s = if seg ≠ [] then f s seg else s := by
  rw [loopScan]

theorem loopScan_cons (f : State → List Char → State) (c : Char) (rest seg : List Char)
    (s : State) :
    loopScan f (c :: rest) seg s =
      if c = ';' then loopScan f rest [] (f s seg) else loopScan f rest (seg ++ [c]) s := by
  rw [loopScan]

theorem loopScan_append (f : State → List Char → State) (tok rest seg : List Char) (s : State)
    (h : ';' ∉ tok) : loopScan f (tok ++ rest) seg s = loopScan f rest (seg ++ tok) s := by
  induction tok generalizing seg with
  | nil => simp
  | cons c cs ih =>
    have hc : c ≠ ';' := fun he => h (by simp [he])
    have hcs : ';' ∉ cs := fun hm => h (List.mem_cons_of_mem _ hm)
    rw [List.cons_append, loopScan_cons, if_neg hc, ih _ hcs]
    simp

/-- Running the text of one command asks for its pin and state. -/
theorem executeLoopCommand_command (c : Nat × Bool) (h : c.1 ∈ outputs) (s : State) :
    (executeLoopCommand s (decimal c.1 ++ [',', stateChar c.2])).1 =
      setPinOutput s c.1 (if c.2 then 1 else 0) := by
  obtain ⟨p, b⟩ := c
  have hp : p = 2 ∨ p = 4 ∨ p = 6 ∨ p = 8 ∨ p = 10 ∨ p = 12 := by
    simpa [outputs] using h
  rcases hp with rfl | rfl | rfl | rfl | rfl | rfl <;> cases b <;> rfl

theorem loopScan_serialise (cmds : List (Nat × Bool)) (hne : cmds ≠ [])
    (hout : ∀ c ∈ cmds, c.1 ∈ outputs) (s : State) :
    (loopScan (fun st cmd => (executeLoopCommand st cmd).1) (serialise cmds) [] s).hw.requests =
      s.hw.requests ++ cmds.map (fun c => (c.1, if c.2 then 1 else 0)) := by
  induction cmds generalizing s with
  | nil => exact absurd rfl hne
  | cons c rest ih =>
    obtain ⟨h1, h2, _⟩ := command_ok c (hout c (List.mem_cons_self _ _))
    have hc := executeLoopCommand_command c (hout c (List.mem_cons_self _ _))
    cases rest with
    | nil =>
      have : serialise [c] = (decimal c.1 ++ [',', stateChar c.2]) ++ [] := by
        simp [serialise]
      rw [this, loopScan_append _ _ _ _ _ h1, loopScan_nil]
      simp only [List.nil_append]
      rw [if_pos h2, hc, setPinOutput_requests]
      rfl
    | cons d rest' =>
      have : serialise (c :: d :: rest') =
          (decimal c.1 ++ [',', stateChar c.2]) ++ (';' :: serialise (d :: rest')) := by
        simp [serialise]
      rw [this, loopScan_append _ _ _ _ _ h1, loopScan_cons]
      simp only [List.nil_append, if_true]
      rw [hc, ih (by simp) (fun x hx => hout x (List.mem_cons_of_mem _ hx)),
        setPinOutput_requests]
      simp

/-- A rule whose command list is the text of `cmds` asks, when its commands
are run, for the pairs of `cmds` in order. -/
theorem executeLoopCommands_serialise (r : Rule) (cmds : List (Nat × Bool))
    (hr : r.parsed.loopCommands = serialise cmds) (hne : cmds ≠ [])
    (hout : ∀ c ∈ cmds, c.1 ∈ outputs) (hlen : (serialise cmds).length ≤ 23) (s : State) :
    (r.executeLoopCommands s).hw.requests =
      s.hw.requests ++ cmds.map (fun c => (c.1, if c.2 then 1 else 0)) := by
  unfold Rule.executeLoopCommands
  rw [hr, if_neg (serialise_ne_nil cmds hne),
    List.take_of_length_le (by simpa [MAX_LOOP_COMMANDS] using hlen)]
  exact loopScan_serialise cmds hne hout s

/-- Claim C6. For an input pin `g` and a non-empty list of (output pin,
state) pairs whose text `p,s;p,s;...` has at most 23 characters, the text
`[g:` followed by it and `]` compiles to a valid rule of kind Loop only,
with gate `g`, `inLoop` clear and the text of the pairs stored character for
character as its command list; and running the stored command list asks for
exactly these pairs, in order. -/
theorem C6_loop_compiles (g : Nat) (cmds : List (Nat × Bool)) (hg : g ∈ inputs)
    (hne : cmds ≠ []) (hout : ∀ c ∈ cmds, c.1 ∈ outputs)
    (hlen : (serialise cmds).length ≤ 23) :
    compile (['['] ++ decimal g ++ [':'] ++ serialise cmds ++ [']']) =
      { ruleText := ['['] ++ decimal g ++ [':'] ++ serialise cmds ++ [']'], done := false,
        parsed := { ParsedRule.zero with
          valid := true, isLoop := true, loopPin := g, inLoop := false,
          loopCommands := serialise cmds } } ∧
    ∀ s : State,
      ((compile (['['] ++ decimal g ++ [':'] ++ serialise cmds ++ [']'])).executeLoopCommands
        s).hw.requests = s.hw.requests ++ cmds.map (fun c => (c.1, if c.2 then 1 else 0)) := by
  have hval := validateLoopCommands_serialise cmds hne hout hlen
  have hg' : g = 3 ∨ g = 5 ∨ g = 7 ∨ g = 9 ∨ g = 11 ∨ g = 13 := by
    simpa [inputs] using hg
  have key : 0 < (decimal g).length ∧ (decimal g).length ≤ 2 ∧ ':' ∉ decimal g ∧
      PinOK isInputPin (decimal g) ∧ nibble (atoi (decimal g)) = g := by
    unfold PinOK
    rcases hg' with rfl | rfl | rfl | rfl | rfl | rfl <;> decide
  obtain ⟨k1, k2, k3, k4, k5⟩ := key
  have hc := compile_loop_text (decimal g) (serialise cmds) k1 k2 k3 k4 hlen hval
  rw [k5] at hc
  refine ⟨by rw [hc]; rfl, fun s => ?_⟩
  exact executeLoopCommands_serialise _ cmds (by rw [hc]; rfl) hne hout hlen s

/-- The text `[5:2,1;2,0]` compiles to the loop with gate 5 and commands `2,1;2,0`. -/
theorem C6_loop_compiles_witness :
    (compile "[5:2,1;2,0]".toList).parsed =
      { ParsedRule.zero with
        valid := true, isLoop := true, loopPin := 5, inLoop := false,
        loopCommands := "2,1;2,0".toList } :=
  congrArg Rule.parsed
    (C6_loop_compiles 5 [(2, true), (2, false)] (by decide) (by decide) (by decide)
      (by decide)).1

/-! ## What `atoi` accepts as a pin token -/

theorem atoiDigits_nil (acc : Nat) : atoiDigits [] acc = acc := by rw [atoiDigits]

theorem atoiDigits_cons (c : Char) (cs : List Char) (acc : Nat) :
    atoiDigits (c :: cs) acc =
      if isdigit c then atoiDigits cs (acc * 10 + (c.toNat - '0'.toNat)) else acc := by
  rw [atoiDigits]

theorem toByte_zero_invalid : isPinValid (toByte 0) = false := by decide

theorem isdigit_val {c : Char} (h : isdigit c = true) : c.toNat - '0'.toNat ≤ 9 := by
  unfold isdigit at h
  simp only [decide_eq_true_eq] at h
  have h0 : '0'.toNat = 48 := by decide
  have h9 : '9'.toNat = 57 := by decide
  omega

theorem neg_digit_invalid (v : Nat) (h : v ≤ 9) : isPinValid (toByte (-(v : Int))) = false := by
  unfold isPinValid toByte
  simp only [decide_eq_false_iff_not]
  omega

theorem atoi_nil : atoi [] = 0 := by
  unfold atoi
  simp [List.dropWhile, atoiDigits_nil]

theorem atoi_cons_space (c : Char) (cs : List Char) (h : isspace c = true) :
    atoi (c :: cs) = atoi cs := by
  unfold atoi
  simp only [List.dropWhile, h]

theorem atoi_cons (c : Char) (cs : List Char) (h : isspace c = false) :
    atoi (c :: cs) =
      if c = '-' then -(atoiDigits cs 0 : Int)
      else if c = '+' then (atoiDigits cs 0 : Int) else (atoiDigits (c :: cs) 0 : Int) := by
  unfold atoi
  simp only [List.dropWhile, h]
  split
  · rename_i r heq
    cases heq
    simp
  · rename_i r heq
    cases heq
    simp
  · rename_i hm hp
    have h1 : c ≠ '-' := fun e => hm cs (by rw [e])
    have h2 : c ≠ '+' := fun e => hp cs (by rw [e])
    rw [if_neg h1, if_neg h2]

/-- What `atoi` makes of a pin token of at most one character that is not a digit. -/
theorem atoi_single_nondigit (a : Char) (hd : isdigit a = false) : atoi [a] = 0 := by
  cases hsp : isspace a with
  | true => rw [atoi_cons_space a [] hsp, atoi_nil]
  | false =>
    rw [atoi_cons a [] hsp]
    split
    · simp [atoiDigits_nil]
    · split
      · simp [atoiDigits_nil]
      · simp [atoiDigits_cons, hd]

theorem pinTokenShape_of_valid (tok : List Char) (hlen : tok.length ≤ 2)
    (h : isPinValid (toByte (atoi tok)) = true) : PinTokenShape tok := by
  have hz : ∀ {n : Int}, n = 0 → isPinValid (toByte n) = true → False := by
    intro n hn hv
    rw [hn, toByte_zero_invalid] at hv
    exact Bool.false_ne_true hv
  match tok, hlen, h with
  | [], _, h => exact hz atoi_nil h
  | [a], _, h =>
    show isdigit a = true
    cases hd : isdigit a with
    | true => rfl
    | false => exact (hz (atoi_single_nondigit a hd) h).elim
  | [a, b], _, h =>
    show isdigit a = true ∨ ((isspace a = true ∨ a = '+') ∧ isdigit b = true)
    cases hda : isdigit a with
    | true => exact Or.inl rfl
    | false =>
      right
      cases hsp : isspace a with
      | true =>
        rw [atoi_cons_space a [b] hsp] at h
        cases hdb : isdigit b with
        | true => exact ⟨Or.inl rfl, rfl⟩
        | false => exact (hz (atoi_single_nondigit b hdb) h).elim
      | false =>
        rw [atoi_cons a [b] hsp] at h
        by_cases hm : a = '-'
        · rw [if_pos hm] at h
          exfalso
          cases hdb : isdigit b with
          | true =>
            rw [atoiDigits_cons, hdb, if_pos rfl, atoiDigits_nil] at h
            have := neg_digit_invalid (0 * 10 + (b.toNat - '0'.toNat)) (by
              have := isdigit_val hdb
              omega)
            rw [this] at h
            exact Bool.false_ne_true h
          | false =>
            rw [atoiDigits_cons, hdb] at h
            exact hz (by simp) h
        · rw [if_neg hm] at h
          by_cases hp : a = '+'
          · rw [if_pos hp] at h
            cases hdb : isdigit b with
            | true => exact ⟨Or.inr hp, rfl⟩
            | false =>
              rw [atoiDigits_cons, hdb] at h
              exact (hz (by simp) h).elim
          · rw [if_neg hp, atoiDigits_cons, hda] at h
            exact (hz (by simp) h).elim
  | _ :: _ :: _ :: _, hlen, _ => simp at hlen

/-! ## Sub-commands of a loop -/

theorem splitAcc_nil (seg : List Char) : splitAcc [] seg = [seg] := by rw [splitAcc]

theorem splitAcc_cons (c : Char) (rest seg : List Char) :
    splitAcc (c :: rest) seg =
      if c = ';' then seg :: splitAcc rest [] else splitAcc rest (seg ++ [c]) := by
  rw [splitAcc]

theorem splitAcc_ne_nil (rest seg : List Char) : splitAcc rest seg ≠ [] := by
  induction rest generalizing seg with
  | nil => rw [splitAcc_nil]; simp
  | cons c rest ih =>
    rw [splitAcc_cons]
    split
    · simp
    · exact ih _

theorem getLast?_cons_of_ne_nil {α : Type} (a : α) {l : List α} (h : l ≠ []) :
    (a :: l).getLast? = l.getLast? := by
  cases l with
  | nil => exact absurd rfl h
  | cons b l => exact List.getLast?_cons_cons

/-- No piece is longer than the text it is cut from. -/
theorem splitAcc_length (rest seg p : List Char) (h : p ∈ splitAcc rest seg) :
    p.length ≤ seg.length + rest.length := by
  induction rest generalizing seg with
  | nil =>
    rw [splitAcc_nil] at h
    simp only [List.mem_singleton] at h
    rw [h]
    simp
  | cons c rest ih =>
    rw [splitAcc_cons] at h
    by_cases hc : c = ';'
    · rw [if_pos hc] at h
      simp only [List.mem_cons] at h
      rcases h with h | h
      · rw [h]; simp
      · have := ih _ h
        simp only [List.length_nil, List.length_cons] at this ⊢
        omega
    · rw [if_neg hc] at h
      have := ih _ h
      simp only [List.length_append, List.length_cons, List.length_nil] at this ⊢
      omega

/-- What the validator's scan accepts: every piece before the last `;` is an
accepted command, and what follows the last `;` is empty or an accepted
command. -/
theorem validateLoopScan_pieces (rest seg : List Char)
    (h : validateLoopScan rest seg = true) :
    (∀ p ∈ (splitAcc rest seg).dropLast, validateSingleLoopCommand p = true) ∧
    (∀ p, (splitAcc rest seg).getLast? = some p → p = [] ∨ validateSingleLoopCommand p = true) := by
  induction rest generalizing seg with
  | nil =>
    rw [validateLoopScan_nil] at h
    rw [splitAcc_nil]
    refine ⟨by simp, ?_⟩
    intro p hp
    simp only [List.getLast?_singleton, Option.some.injEq] at hp
    subst hp
    by_cases hs : seg = []
    · exact Or.inl hs
    · right
      rw [if_pos hs] at h
      cases hv : validateSingleLoopCommand seg with
      | true => rfl
      | false => rw [hv] at h; simp at h
  | cons c rest ih =>
    rw [validateLoopScan_cons] at h
    rw [splitAcc_cons]
    by_cases hc : c = ';'
    · rw [if_pos hc] at h ⊢
      cases hv : validateSingleLoopCommand seg with
      | false => rw [hv] at h; simp at h
      | true =>
        rw [hv] at h
        simp only [Bool.not_true, Bool.false_eq_true, if_false] at h
        obtain ⟨ih1, ih2⟩ := ih [] h
        refine ⟨?_, ?_⟩
        · intro p hp
          rw [List.dropLast_cons_of_ne_nil (splitAcc_ne_nil _ _)] at hp
          simp only [List.mem_cons] at hp
          rcases hp with hp | hp
          · rw [hp]; exact hv
          · exact ih1 p hp
        · intro p hp
          rw [getLast?_cons_of_ne_nil _ (splitAcc_ne_nil _ _)] at hp
          exact ih2 p hp
    · rw [if_neg hc] at h ⊢
      exact ih _ h

theorem mem_dropLast_or_getLast {α : Type} (l : List α) (x : α) (h : x ∈ l) :
    x ∈ l.dropLast ∨ l.getLast? = some x := by
  induction l with
  | nil => simp at h
  | cons a l ih =>
    cases l with
    | nil =>
      simp only [List.mem_singleton] at h
      right
      rw [h]
      rfl
    | cons b l =>
      simp only [List.mem_cons] at h
      rw [List.dropLast_cons_of_ne_nil (by simp), List.getLast?_cons_cons]
      rcases h with h | h
      · left; rw [h]; simp
      · rcases ih (by simpa using h) with h' | h'
        · left; exact List.mem_cons_of_mem _ h'
        · right; exact h'

theorem validateLoopScan_nonempty (rest seg : List Char)
    (h : validateLoopScan rest seg = true) (p : List Char) (hp : p ∈ splitAcc rest seg)
    (hne : p ≠ []) : validateSingleLoopCommand p = true := by
  obtain ⟨h1, h2⟩ := validateLoopScan_pieces rest seg h
  rcases mem_dropLast_or_getLast _ p hp with hd | hl
  · exact h1 p hd
  · rcases h2 p hl with he | hv
    · exact absurd he hne
    · exact hv

theorem validateLoopCommands_scan (cmds : List Char) (hlen : cmds.length < MAX_LOOP_COMMANDS)
    (h : validateLoopCommands cmds = true) : validateLoopScan cmds [] = true := by
  unfold validateLoopCommands at h
  by_cases hc : cmds = []
  · rw [if_pos hc] at h; exact (Bool.false_ne_true h).elim
  · rw [if_neg hc, List.take_of_length_le (by omega)] at h
    exact h

/-! ## A command the validator accepts compiles as a SimpleCommand -/

theorem parseSimpleCommand_intro (r : Rule) (comma : Nat)
    (h : FieldOK isOutputPin r.ruleText comma) :
    r.parseSimpleCommand = { r with parsed := { r.parsed with
      action := nibble (atoi (substr r.ruleText 0 comma)),
      aState := if charAt r.ruleText (comma + 1) = '1' then 1 else 0,
      isSimpleCommand := true, valid := true } } := by
  obtain ⟨hs, h0, h2, hc1, hc2, hp, hst⟩ := h
  unfold Rule.parseSimpleCommand
  rw [hs]
  dsimp only
  rw [if_neg (by omega), if_neg (by simp [hc1, hc2]), if_neg (by omega), hp.1, hp.2]
  simp only [Bool.not_true, Bool.false_eq_true, if_false]
  rw [if_neg (by rcases hst with h | h <;> simp [h])]

theorem charAt_lt_of_ne_NUL {s : List Char} {i : Nat} (h : charAt s i ≠ NUL) : i < s.length := by
  by_contra hlt
  apply h
  unfold charAt
  exact List.getD_eq_default _ _ (Nat.le_of_not_lt hlt)

/-- The first character of an accepted pin token is a digit, white space or `+`. -/
theorem PinTokenShape.head {tok : List Char} (h : PinTokenShape tok) :
    ∃ x rest, tok = x :: rest ∧ (isdigit x = true ∨ isspace x = true ∨ x = '+') := by
  match tok, h with
  | [a], h => exact ⟨a, [], rfl, Or.inl h⟩
  | [a, b], h =>
    refine ⟨a, [b], rfl, ?_⟩
    rcases h with h | ⟨h | h, _⟩
    · exact Or.inl h
    · exact Or.inr (Or.inl h)
    · exact Or.inr (Or.inr h)

theorem FieldOK.first {role : Nat → Bool} {s : List Char} {comma : Nat}
    (h : FieldOK role s comma) :
    isdigit (charAt s 0) = true ∨ isspace (charAt s 0) = true ∨ charAt s 0 = '+' := by
  obtain ⟨hs, h0, h2, hc1, hc2, hp, hst⟩ := h
  have hshape := pinTokenShape_of_valid (substr s 0 comma)
    ((List.length_take_le _ _).trans h2) hp.1
  obtain ⟨x, rest, hx, hfirst⟩ := hshape.head
  have : charAt s 0 = x := by
    unfold substr at hx
    cases s with
    | nil => simp at hx
    | cons y ys =>
      cases comma with
      | zero => omega
      | succ k =>
        simp only [List.drop_zero, List.take_succ_cons, List.cons.injEq] at hx
        rw [← hx.1]
        rfl
  rw [this]
  exact hfirst

theorem first_not_bracket {c : Char}
    (h : isdigit c = true ∨ isspace c = true ∨ c = '+') : c ≠ '[' ∧ c ≠ '?' := by
  refine ⟨?_, ?_⟩ <;> intro hc <;> subst hc <;> revert h <;> decide

theorem validateSingle_acceptsSimple (p : List Char) (hlen : p.length ≤ 31)
    (h : validateSingleLoopCommand p = true) : acceptsSimple p = true := by
  obtain ⟨comma, hok⟩ := validateSingleLoopCommand_cases p h
  have hfirst := first_not_bracket hok.first
  have hl : comma + 1 < p.length := charAt_lt_of_ne_NUL hok.2.2.2.1
  have hne : p ≠ [] := by
    intro he; rw [he] at hl; simp at hl
  have htake : p.take (MAX_RULE_LENGTH - 1) = p :=
    List.take_of_length_le (by unfold MAX_RULE_LENGTH; omega)
  have hc : compile p =
      { ruleText := p, done := false,
        parsed := simpleParsed (nibble (atoi (substr p 0 comma)))
          (stateBit (charAt p (comma + 1))) } := by
    unfold compile Rule.setRule
    rw [if_neg hne, htake]
    unfold Rule.parseRule
    dsimp only [Rule.new]
    rw [if_neg hne, if_neg (by have := hok.2.1; omega), if_neg (fun hs => hfirst.1 hs.1),
      if_neg hfirst.2, parseSimpleCommand_intro _ comma hok]
    rfl
  unfold acceptsSimple
  rw [hc]
  rfl

theorem charAt_take_zero (s : List Char) (n : Nat) (hn : 0 < n) :
    charAt (s.take n) 0 = charAt s 0 := by
  cases s with
  | nil => simp
  | cons x xs =>
    cases n with
    | zero => omega
    | succ k => rfl

/-- A valid rule whose text starts with `[` is a loop, stored whole. -/
theorem compile_bracket_loop (text : List Char) (hb : charAt text 0 = '[')
    (hv : (compile text).parsed.valid = true) :
    ∃ colon, LoopOK text colon ∧
      (compile text).parsed =
        loopParsed (nibble (atoi (substr text 1 (colon - 1)))) (loopSegmentAt text colon) := by
  have h := (compile_cases text hv).2
  have hb' : charAt (text.take (MAX_RULE_LENGTH - 1)) 0 = '[' := by
    rw [charAt_take_zero _ _ (by decide)]
    exact hb
  cases h with
  | loop colon shape ok eq =>
    have htake := take_eq_of_take_length_lt text _ 28 (loopOK_length_le ok) (by decide)
    rw [htake] at ok eq
    exact ⟨colon, ok, eq⟩
  | cond excl ac comma shape first act noAmp ok eq =>
    rw [hb'] at first
    exact absurd first (by decide)
  | and excl ac amp comma1 comma2 shape first act hamp ok eq =>
    rw [hb'] at first
    exact absurd first (by decide)
  | simple comma shape first ok eq =>
    exact absurd hb' (first_not_bracket ok.first).1

theorem compile_loop_first (text : List Char) (hv : (compile text).parsed.valid = true)
    (hl : (compile text).parsed.isLoop = true) : charAt text 0 = '[' := by
  have h := (compile_cases text hv).2
  cases h with
  | loop colon shape ok eq =>
    rw [← charAt_take_zero text (MAX_RULE_LENGTH - 1) (by decide)]
    exact shape.1
  | cond excl ac comma shape first act noAmp ok eq =>
    rw [eq] at hl; exact (Bool.false_ne_true hl).elim
  | and excl ac amp comma1 comma2 shape first act hamp ok eq =>
    rw [eq] at hl; exact (Bool.false_ne_true hl).elim
  | simple comma shape first ok eq =>
    rw [eq] at hl; exact (Bool.false_ne_true hl).elim

theorem loop_pieces (text : List Char) (hb : charAt text 0 = '[')
    (hv : (compile text).parsed.valid = true) :
    (∀ p ∈ (splitSemi (loopSegment text)).dropLast, acceptsSimple p = true) ∧
    (∀ p, (splitSemi (loopSegment text)).getLast? = some p → p = [] ∨ acceptsSimple p = true) := by
  obtain ⟨colon, ok, _⟩ := compile_bracket_loop text hb hv
  have hseg : loopSegment text = loopSegmentAt text colon := by
    unfold loopSegment
    rw [ok.1]
  obtain ⟨_, _, _, _, _, _, hlen, hval⟩ := ok
  have hlen' : (loopSegmentAt text colon).length < MAX_LOOP_COMMANDS := by
    unfold loopSegmentAt substr
    exact Nat.lt_of_le_of_lt (List.length_take_le _ _) hlen
  have hscan := validateLoopCommands_scan _ hlen' hval
  obtain ⟨h1, h2⟩ := validateLoopScan_pieces _ _ hscan
  have hp31 : ∀ p ∈ splitSemi (loopSegmentAt text colon), p.length ≤ 31 := by
    intro p hp
    have := splitAcc_length _ _ p hp
    unfold MAX_LOOP_COMMANDS at hlen'
    simp only [List.length_nil] at this
    omega
  rw [hseg]
  refine ⟨fun p hp => ?_, fun p hp => ?_⟩
  · exact validateSingle_acceptsSimple p (hp31 p (List.mem_of_mem_dropLast hp)) (h1 p hp)
  · rcases h2 p hp with he | hv
    · exact Or.inl he
    · exact Or.inr (validateSingle_acceptsSimple p
        (hp31 p (List.mem_of_getLast?_eq_some hp)) hv)

/-- Claim C7 as stated fails. The text `[5:2,1;]` compiles to a valid Loop, yet
splitting its command segment `2,1;` at every `;` yields an empty
sub-command, which is not an accepted SimpleCommand. -/
theorem C7_counterexample :
    (compile "[5:2,1;]".toList).parsed.valid = true ∧
    (compile "[5:2,1;]".toList).parsed.isLoop = true ∧
    splitSemi (loopSegment "[5:2,1;]".toList) = ["2,1".toList, []] ∧
    ¬ (∀ p ∈ splitSemi (loopSegment "[5:2,1;]".toList), acceptsSimple p = true) := by
  decide

/-- Claim C7, amended. For every text that compiles to a valid Loop, the
sub-commands obtained by splitting the segment between the first `:` and the
closing `]` at every `;` are each accepted as a SimpleCommand, except that
what follows the last `;` may be empty. And a text starting with `[` whose
segment has a sub-command before a `;` that is not accepted (an empty one
included) does not compile. -/
theorem C7_loop_subcommands (text : List Char) :
    ((compile text).parsed.valid = true → (compile text).parsed.isLoop = true →
      (∀ p ∈ (splitSemi (loopSegment text)).dropLast, acceptsSimple p = true) ∧
      (∀ p, (splitSemi (loopSegment text)).getLast? = some p →
        p = [] ∨ acceptsSimple p = true)) ∧
    (charAt text 0 = '[' →
      (∃ p ∈ (splitSemi (loopSegment text)).dropLast, acceptsSimple p = false) →
      (compile text).parsed.valid = false) := by
  refine ⟨fun hv hl => loop_pieces text (compile_loop_first text hv hl) hv, ?_⟩
  intro hb ⟨p, hp, hbad⟩
  cases hv : (compile text).parsed.valid with
  | false => rfl
  | true =>
    have := (loop_pieces text hb hv).1 p hp
    rw [this] at hbad
    exact (Bool.false_ne_true hbad.symm).elim

/-- The sub-commands of `[5:2,1;4,0]` before the last `;` are accepted, and `[5:2,1;;4,0]` does not compile. -/
theorem C7_loop_subcommands_witness :
    (∀ p ∈ (splitSemi (loopSegment "[5:2,1;4,0]".toList)).dropLast, acceptsSimple p = true) ∧
    (compile "[5:2,1;;4,0]".toList).parsed.valid = false :=
  ⟨((C7_loop_subcommands "[5:2,1;4,0]".toList).1 (by decide) (by decide)).1,
    (C7_loop_subcommands "[5:2,1;;4,0]".toList).2 (by decide) ⟨[], by decide, by decide⟩⟩

/-! ## Pin tokens -/

theorem strchrFrom_drop {s : List Char} {off i : Nat} {c : Char}
    (h : strchrFrom s off c = some i) : strchr (s.drop off) c = some (i - off) := by
  unfold strchrFrom at h
  cases hr : strchr (s.drop off) c with
  | none => rw [hr] at h; simp at h
  | some j =>
    rw [hr] at h
    simp only [Option.map_some', Option.some.injEq] at h
    rw [← h]
    simp

theorem pinToken_of_strchr {s : List Char} {comma : Nat} (h : strchr s ',' = some comma) :
    pinToken s = substr s 0 comma := by
  unfold pinToken substr
  rw [h]
  rfl

theorem pinToken_drop {s : List Char} {off i : Nat} (h : strchrFrom s off ',' = some i) :
    pinToken (s.drop off) = substr s off (i - off) := by
  unfold pinToken substr
  rw [strchrFrom_drop h]

theorem pinOK_shape {role : Nat → Bool} {s : List Char} {off n : Nat}
    (h : PinOK role (substr s off n)) (hn : n ≤ 2) : PinTokenShape (substr s off n) :=
  pinTokenShape_of_valid _ ((List.length_take_le _ _).trans hn) h.1

theorem fieldOK_shape {role : Nat → Bool} {s : List Char} {comma : Nat}
    (h : FieldOK role s comma) : PinTokenShape (pinToken s) := by
  rw [pinToken_of_strchr h.1]
  exact pinOK_shape h.2.2.2.2.2.1 h.2.2.1

theorem Parsed.tokens {t : List Char} {p : ParsedRule} (h : Parsed t p) :
    ∀ tok ∈ pinTokens t, PinTokenShape tok := by
  intro tok htok
  unfold pinTokens at htok
  cases h with
  | loop colon shape ok eq =>
    have shape' : charAt t 0 = '[' ∧ charAt t (t.length - 1) = ']' := shape
    rw [if_pos shape', ok.1] at htok
    simp only [List.mem_cons, List.mem_map, List.mem_filter, decide_eq_true_eq] at htok
    obtain ⟨hs, h5, hc, h0, h2, hp, hlen, hval⟩ := ok
    rcases htok with htok | ⟨q, ⟨hq, hqne⟩, htok⟩
    · rw [htok]
      exact pinOK_shape hp h2
    · have hlen' : (loopSegmentAt t colon).length < MAX_LOOP_COMMANDS := by
        unfold loopSegmentAt substr
        exact Nat.lt_of_le_of_lt (List.length_take_le _ _) hlen
      have hscan := validateLoopCommands_scan _ hlen' hval
      have hv := validateLoopScan_nonempty _ _ hscan q hq hqne
      obtain ⟨comma, hok⟩ := validateSingleLoopCommand_cases q hv
      rw [← htok]
      exact fieldOK_shape hok
  | cond excl ac comma shape first act noAmp ok eq =>
    have shape' : ¬ (charAt t 0 = '[' ∧ charAt t (t.length - 1) = ']') := shape
    rw [if_neg shape', if_pos first, act.1] at htok
    dsimp only at htok
    rw [noAmp] at htok
    simp only [List.singleton_append, List.mem_cons, List.mem_singleton, List.not_mem_nil,
      or_false] at htok
    rcases htok with htok | htok
    · rw [htok]; exact fieldOK_shape ok
    · rw [htok, pinToken_drop act.2.2.2.1]
      exact pinOK_shape act.2.2.2.2.2.2.2.2.1 act.2.2.2.2.2.1
  | and excl ac amp comma1 comma2 shape first act hamp ok eq =>
    have shape' : ¬ (charAt t 0 = '[' ∧ charAt t (t.length - 1) = ']') := shape
    rw [if_neg shape', if_pos first, act.1] at htok
    dsimp only at htok
    rw [hamp] at htok
    simp only [List.cons_append, List.nil_append, List.mem_cons, List.mem_singleton,
      List.not_mem_nil, or_false] at htok
    rcases htok with htok | htok | htok
    · rw [htok, pinToken_of_strchr ok.1]
      exact pinOK_shape ok.2.2.2.2.2.1 ok.2.2.2.1
    · rw [htok, pinToken_drop ok.2.1]
      exact pinOK_shape ok.2.2.2.2.2.2.2.2.2.1 ok.2.2.2.2.2.2.2.2.1
    · rw [htok, pinToken_drop act.2.2.2.1]
      exact pinOK_shape act.2.2.2.2.2.2.2.2.1 act.2.2.2.2.2.1
  | simple comma shape first ok eq =>
    have shape' : ¬ (charAt t 0 = '[' ∧ charAt t (t.length - 1) = ']') := shape
    rw [if_neg shape', if_neg first] at htok
    simp only [List.mem_singleton] at htok
    rw [htok]
    exact fieldOK_shape ok

/-- Claim C4 as stated fails. The text ` 2,1` (a space before the pin) compiles
to a valid rule, although its pin token ` 2` is not made of digits only. -/
theorem C4_counterexample :
    (compile " 2,1".toList).parsed.valid = true ∧
    pinTokens " 2,1".toList = [" 2".toList] ∧
    ¬ (∀ tok ∈ pinTokens " 2,1".toList, ∀ c ∈ tok, isdigit c = true) := by
  decide

/-- Claim C4, amended. For every text (a C string, so without NUL) on which
compilation succeeds, every pin token in it has one or two characters and is
a digit, alone or followed by any one character, or one white-space character
or `+` followed by a digit. -/
theorem C4_pin_tokens (text : List Char) (hn : NUL ∉ text)
    (hv : (compile text).parsed.valid = true) :
    ∀ tok ∈ pinTokens text, PinTokenShape tok := by
  have h := (compile_cases text hv).2
  rw [compile_valid_take text hn hv] at h
  exact h.tokens

/-- The pin tokens `11`, `2` and `+4` of the valid text `[11:2,1;+4,0]` have the accepted shape. -/
theorem C4_pin_tokens_witness :
    PinTokenShape "11".toList ∧ PinTokenShape "2".toList ∧ PinTokenShape "+4".toList :=
  have h := C4_pin_tokens "[11:2,1;+4,0]".toList (by decide) (by decide)
  ⟨h _ (by decide), h _ (by decide), h _ (by decide)⟩

/-! ## Texts of the grammar compile -/

/-- Claim C2. For an output pin `p` and a state character `s`, `0` or `1`, the
text made of the decimal digits of `p`, a comma and `s` compiles to a valid
rule of kind SimpleCommand and no other kind, with target pin `p` and target
state 1 exactly when `s` is `1`. -/
theorem C2_simple_compiles (p : Nat) (s : Char) (hp : p ∈ outputs) (hs : s = '0' ∨ s = '1') :
    (compile (decimal p ++ [',', s])).parsed.valid = true ∧
    (compile (decimal p ++ [',', s])).parsed.isSimpleCommand = true ∧
    (compile (decimal p ++ [',', s])).parsed.isLoop = false ∧
    (compile (decimal p ++ [',', s])).parsed.isContinuous = false ∧
    (compile (decimal p ++ [',', s])).parsed.action = p ∧
    (compile (decimal p ++ [',', s])).parsed.aState = (if s = '1' then 1 else 0) := by
  have hp' : p = 2 ∨ p = 4 ∨ p = 6 ∨ p = 8 ∨ p = 10 ∨ p = 12 := by
    simpa [outputs] using hp
  rcases hp' with rfl | rfl | rfl | rfl | rfl | rfl <;> rcases hs with rfl | rfl <;> decide

/-- The text `2,1` compiles to a SimpleCommand with target pin 2 and state 1. -/
theorem C2_simple_compiles_witness :
    (compile "2,1".toList).parsed.valid = true ∧
    (compile "2,1".toList).parsed.action = 2 ∧
    (compile "2,1".toList).parsed.aState = 1 :=
  have h := C2_simple_compiles 2 '1' (by decide) (Or.inr rfl)
  ⟨h.1, h.2.2.2.2.1, h.2.2.2.2.2⟩

theorem compile_condition (a p : Nat) (s u : Char) (ha : a ∈ inputs) (hp : p ∈ outputs)
    (hs : s = '0' ∨ s = '1') (hu : u = '0' ∨ u = '1') :
    (compile (['?'] ++ decimal a ++ [',', s, '!'] ++ decimal p ++ [',', u])).parsed =
      { ParsedRule.zero with
        valid := true, isContinuous := true, useAND := false,
        trigger1 := a, tState1 := if s = '1' then 1 else 0,
        action := p, aState := if u = '1' then 1 else 0 } := by
  have ha' : a = 3 ∨ a = 5 ∨ a = 7 ∨ a = 9 ∨ a = 11 ∨ a = 13 := by
    simpa [inputs] using ha
  have hp' : p = 2 ∨ p = 4 ∨ p = 6 ∨ p = 8 ∨ p = 10 ∨ p = 12 := by
    simpa [outputs] using hp
  rcases ha' with rfl | rfl | rfl | rfl | rfl | rfl <;>
  rcases hp' with rfl | rfl | rfl | rfl | rfl | rfl <;>
  rcases hs with rfl | rfl <;> rcases hu with rfl | rfl <;> decide

set_option maxHeartbeats 8000000 in
theorem compile_and_condition (a b p : Nat) (s t u : Char) (ha : a ∈ inputs) (hb : b ∈ inputs)
    (hp : p ∈ outputs) (hs : s = '0' ∨ s = '1') (ht : t = '0' ∨ t = '1')
    (hu : u = '0' ∨ u = '1') :
    (compile (['?'] ++ decimal a ++ [',', s, '&'] ++ decimal b ++ [',', t, '!'] ++ decimal p ++
        [',', u])).parsed =
      { ParsedRule.zero with
        valid := true, isContinuous := true, useAND := true,
        trigger1 := a, tState1 := if s = '1' then 1 else 0,
        trigger2 := b, tState2 := if t = '1' then 1 else 0,
        action := p, aState := if u = '1' then 1 else 0 } := by
  have ha' : a = 3 ∨ a = 5 ∨ a = 7 ∨ a = 9 ∨ a = 11 ∨ a = 13 := by
    simpa [inputs] using ha
  have hb' : b = 3 ∨ b = 5 ∨ b = 7 ∨ b = 9 ∨ b = 11 ∨ b = 13 := by
    simpa [inputs] using hb
  have hp' : p = 2 ∨ p = 4 ∨ p = 6 ∨ p = 8 ∨ p = 10 ∨ p = 12 := by
    simpa [outputs] using hp
  rcases ha' with rfl | rfl | rfl | rfl | rfl | rfl <;>
  rcases hb' with rfl | rfl | rfl | rfl | rfl | rfl <;>
  rcases hp' with rfl | rfl | rfl | rfl | rfl | rfl <;>
  rcases hs with rfl | rfl <;> rcases ht with rfl | rfl <;> rcases hu with rfl | rfl <;> decide

/-- Claim C5. For input pins `a`, `b`, an output pin `p` and state characters
`s`, `t`, `u`, each `0` or `1`: the text `?a,s!p,u` compiles to a valid rule
of kind ConditionalContinuous only, without `useAND`, with trigger `a` in
state `s` and target `p` in state `u`; and the text `?a,s&b,t!p,u` compiles
to a valid ConditionalContinuous rule with `useAND`, first trigger `a` in
state `s`, second trigger `b` in state `t` and target `p` in state `u` (pins
in decimal, a state being 1 exactly when its character is `1`). -/
theorem C5_conditional_compiles (a b p : Nat) (s t u : Char) (ha : a ∈ inputs)
    (hb : b ∈ inputs) (hp : p ∈ outputs) (hs : s = '0' ∨ s = '1') (ht : t = '0' ∨ t = '1')
    (hu : u = '0' ∨ u = '1') :
    (compile (['?'] ++ decimal a ++ [',', s, '!'] ++ decimal p ++ [',', u])).parsed =
      { ParsedRule.zero with
        valid := true, isContinuous := true, useAND := false,
        trigger1 := a, tState1 := if s = '1' then 1 else 0,
        action := p, aState := if u = '1' then 1 else 0 } ∧
    (compile (['?'] ++ decimal a ++ [',', s, '&'] ++ decimal b ++ [',', t, '!'] ++ decimal p ++
        [',', u])).parsed =
      { ParsedRule.zero with
        valid := true, isContinuous := true, useAND := true,
        trigger1 := a, tState1 := if s = '1' then 1 else 0,
        trigger2 := b, tState2 := if t = '1' then 1 else 0,
        action := p, aState := if u = '1' then 1 else 0 } :=
  ⟨compile_condition a p s u ha hp hs hu, compile_and_condition a b p s t u ha hb hp hs ht hu⟩

/-- The texts `?5,1!2,1` and `?5,1&7,0!2,1` compile as stated. -/
theorem C5_conditional_compiles_witness :
    (compile "?5,1!2,1".toList).parsed =
      { ParsedRule.zero with
        valid := true, isContinuous := true, trigger1 := 5, tState1 := 1,
        action := 2, aState := 1 } ∧
    (compile "?5,1&7,0!2,1".toList).parsed =
      { ParsedRule.zero with
        valid := true, isContinuous := true, useAND := true, trigger1 := 5, tState1 := 1,
        trigger2 := 7, tState2 := 0, action := 2, aState := 1 } :=
  C5_conditional_compiles 5 7 2 '1' '0' '1' (by decide) (by decide) (by decide)
    (Or.inr rfl) (Or.inl rfl) (Or.inr rfl)

/-! ## Debounced reading -/

/-- A call of `readPinStable` answers three reads and changes nothing else. -/
theorem readPinStable_state (env : Nat → Nat → Nat) (s : State) (pin : Nat) :
    (readPinStable env s pin).2 = { s with hw := { s.hw with reads := s.hw.reads + 3 } } := rfl

theorem readPinStable_value (env : Nat → Nat → Nat) (s : State) (pin : Nat) :
    (readPinStable env s pin).1 =
      decide (2 ≤ (if env s.hw.reads pin = LOW then 1 else 0) +
        (if env (s.hw.reads + 1) pin = LOW then 1 else 0) +
        (if env (s.hw.reads + 2) pin = LOW then 1 else 0)) := by
  unfold readPinStable
  simp only [sampleLoop]
  by_cases h0 : env s.hw.reads pin = LOW <;> by_cases h1 : env (s.hw.reads + 1) pin = LOW <;>
    by_cases h2 : env (s.hw.reads + 2) pin = LOW <;> simp [h0, h1, h2]

/-- Claim C16. For every pin, `readPinStable` takes exactly three samples (the
next three reads of the pin) and changes nothing else; it returns true exactly
when at least two of the three samples are LOW; and two calls that see the
same three samples return the same, whatever was read or done before. -/
theorem C16_read_stable_majority (env : Nat → Nat → Nat) (s : State) (pin : Nat) :
    (readPinStable env s pin).2 = { s with hw := { s.hw with reads := s.hw.reads + 3 } } ∧
    ((readPinStable env s pin).1 = true ↔
      2 ≤ (if env s.hw.reads pin = LOW then 1 else 0) +
        (if env (s.hw.reads + 1) pin = LOW then 1 else 0) +
        (if env (s.hw.reads + 2) pin = LOW then 1 else 0)) ∧
    (∀ (env' : Nat → Nat → Nat) (s' : State),
      env' s'.hw.reads pin = env s.hw.reads pin →
      env' (s'.hw.reads + 1) pin = env (s.hw.reads + 1) pin →
      env' (s'.hw.reads + 2) pin = env (s.hw.reads + 2) pin →
      (readPinStable env' s' pin).1 = (readPinStable env s pin).1) := by
  refine ⟨rfl, ?_, ?_⟩
  · rw [readPinStable_value]
    simp
  · intro env' s' h0 h1 h2
    rw [readPinStable_value, readPinStable_value, h0, h1, h2]

/-- With samples LOW, HIGH, LOW on pin 5 the reading is active, and a later
call with the same samples gives the same. -/
theorem C16_read_stable_majority_witness :
    (readPinStable (fun t _ => if t = 1 then HIGH else LOW) (init boot) 5).1 = true ∧
    (readPinStable (fun t _ => if t = 4 then HIGH else LOW)
      (readPinStable (fun _ _ => HIGH) (init boot) 5).2 5).1 = true :=
  have h := C16_read_stable_majority (fun t _ => if t = 1 then HIGH else LOW) (init boot) 5
  have ht : (readPinStable (fun t _ => if t = 1 then HIGH else LOW) (init boot) 5).1 = true :=
    h.2.1.2 (by decide)
  ⟨ht, (h.2.2 (fun t _ => if t = 4 then HIGH else LOW)
    (readPinStable (fun _ _ => HIGH) (init boot) 5).2 (by decide) (by decide) (by decide)).trans
    ht⟩

/-! ## Registered rules -/

/-- Claim C17. In every state reached from initialisation the rule count is at
most `MAX_RULES`, every rule at an index below the count is valid, the slot at
index count is invalid when the count is below `MAX_RULES`, and the cursor is 0
or less than the count. -/
theorem C17_table_invariant (s : State) (hs : Reachable s) :
    s.ctl.count ≤ MAX_RULES ∧
    (∀ i, i < s.ctl.count → ∃ r, s.ctl.rules[i]? = some r ∧ r.parsed.valid = true) ∧
    (s.ctl.count < MAX_RULES →
      ∃ r, s.ctl.rules[s.ctl.count]? = some r ∧ r.parsed.valid = false) ∧
    (s.ctl.currentRule = 0 ∨ s.ctl.currentRule < s.ctl.count) := by
  have h := hs.inv
  have hget : ∀ i, i < MAX_RULES → s.ctl.rules[i]? = some (s.ctl.rules.getD i Rule.new) := by
    intro i hi
    have hl : i < s.ctl.rules.length := by rw [h.length]; exact hi
    rw [List.getD_eq_getElem _ _ hl, List.getElem?_eq_getElem hl]
  refine ⟨h.count_le, ?_, ?_, h.cursor⟩
  · intro i hi
    exact ⟨_, hget i (Nat.lt_of_lt_of_le hi h.count_le), h.valid_below i hi⟩
  · intro hc
    exact ⟨_, hget _ hc, (h.fresh_above _ (Nat.le_refl _)).1⟩

/-- After `2,1` and the rejected `3,1`, and a tick, the table holds one rule and
the slot after it is invalid. -/
theorem C17_table_invariant_witness :
    (exec [Call.register "2,1".toList, Call.register "3,1".toList, Call.tick (fun _ _ => LOW)]
      (init boot)).ctl.count ≤ MAX_RULES :=
  (C17_table_invariant _ ⟨[Call.register "2,1".toList, Call.register "3,1".toList,
    Call.tick (fun _ _ => LOW)], rfl⟩).1

/-! ## Shutdown -/

theorem mapFirst_idem {α : Type} (f : α → α) (hf : ∀ x, f (f x) = f x) (n : Nat) (xs : List α) :
    mapFirst f n (mapFirst f n xs) = mapFirst f n xs := by
  induction n generalizing xs with
  | zero => rfl
  | succ n ih =>
    cases xs with
    | nil => rfl
    | cons x xs => simp [mapFirst, hf, ih]

theorem mapFirst_getElem? {α : Type} (f : α → α) (n : Nat) (xs : List α) (i : Nat)
    (h : i < n) : (mapFirst f n xs)[i]? = (xs[i]?).map f := by
  induction n generalizing xs i with
  | zero => omega
  | succ n ih =>
    cases xs with
    | nil => simp [mapFirst]
    | cons x xs =>
      cases i with
      | zero => simp [mapFirst]
      | succ j => simpa [mapFirst] using ih xs j (by omega)

/-- Claim C15. After `shutdown()` every registered rule has `done` and `inLoop`
clear, the cursor is 0 and every cache entry is unclaimed with state 0, while
the rule count, the number of slots, the cached pin numbers and all fields of
every rule other than `done` and `inLoop` are as before; and a second
`shutdown()` leaves the controller as the first one did. -/
theorem C15_shutdown (s : State) :
    (∀ i r, i < s.ctl.count → (shutdown s).ctl.rules[i]? = some r →
      r.done = false ∧ r.parsed.inLoop = false) ∧
    (shutdown s).ctl.currentRule = 0 ∧
    (∀ e ∈ (shutdown s).ctl.pinStates, e.isOutput = false ∧ e.state = 0) ∧
    (shutdown s).ctl.pinStates.map PinState.pin = s.ctl.pinStates.map PinState.pin ∧
    (shutdown s).ctl.count = s.ctl.count ∧
    (shutdown s).ctl.rules.length = s.ctl.rules.length ∧
    (∀ i, ((shutdown s).ctl.rules.getD i Rule.new).reset =
      (s.ctl.rules.getD i Rule.new).reset) ∧
    (shutdown (shutdown s)).ctl = (shutdown s).ctl := by
  refine ⟨?_, rfl, ?_, ?_, rfl, mapFirst_length _ _ _, ?_, ?_⟩
  · intro i r hi hr
    have h : (mapFirst Rule.reset s.ctl.count s.ctl.rules)[i]? = some r := hr
    rw [mapFirst_getElem? _ _ _ _ hi] at h
    cases hx : s.ctl.rules[i]? with
    | none => rw [hx] at h; simp at h
    | some x =>
      rw [hx] at h
      simp only [Option.map_some', Option.some.injEq] at h
      rw [← h]
      exact ⟨rfl, rfl⟩
  · intro e he
    have h : e ∈ s.ctl.pinStates.map (fun e => { e with state := 0, isOutput := false }) := he
    simp only [List.mem_map] at h
    obtain ⟨x, _, hx⟩ := h
    rw [← hx]
    exact ⟨rfl, rfl⟩
  · show (s.ctl.pinStates.map _).map PinState.pin = _
    rw [List.map_map]
    rfl
  · intro i
    exact mapFirst_getD_reset Rule.reset (fun _ => rfl) s.ctl.count s.ctl.rules i Rule.new
  · show ({ rules := mapFirst Rule.reset s.ctl.count (mapFirst Rule.reset s.ctl.count s.ctl.rules),
            count := s.ctl.count, currentRule := 0, initialized := s.ctl.initialized,
            pinStates := (s.ctl.pinStates.map _).map _ } : EgLangController) = _
    rw [mapFirst_idem Rule.reset (fun _ => rfl), List.map_map]
    rfl

/-- After `2,1` has fired, a second `shutdown()` changes nothing of the
controller, and the first leaves the cursor at 0. -/
theorem C15_shutdown_witness :
    (shutdown (shutdown (exec [Call.register "2,1".toList, Call.tick (fun _ _ => LOW)]
      (init boot)))).ctl =
      (shutdown (exec [Call.register "2,1".toList, Call.tick (fun _ _ => LOW)]
        (init boot))).ctl ∧
    (shutdown (exec [Call.register "2,1".toList, Call.tick (fun _ _ => LOW)]
      (init boot))).ctl.currentRule = 0 :=
  have h := C15_shutdown (exec [Call.register "2,1".toList, Call.tick (fun _ _ => LOW)]
    (init boot))
  ⟨h.2.2.2.2.2.2.2, h.2.1⟩

/-! ## Compiled rules at run time -/

theorem stateBit_le (c : Char) : stateBit c ≤ 1 := by
  unfold stateBit
  split <;> omega

theorem parsed_inLoop {t : List Char} {p : ParsedRule} (h : Parsed t p) : p.inLoop = false := by
  cases h with
  | loop colon shape ok eq => rw [eq]; rfl
  | cond excl ac comma shape first act noAmp ok eq => rw [eq]; rfl
  | and excl ac amp comma1 comma2 shape first act hamp ok eq => rw [eq]; rfl
  | simple comma shape first ok eq => rw [eq]; rfl

/-- A valid compiled rule has, but for `inLoop`, a parsed form the parser
reaches. -/
theorem compiled_parsed {r : Rule} (hc : Compiled r) (hv : r.parsed.valid = true) :
    ∃ t, Parsed t { r.parsed with inLoop := false } := by
  obtain ⟨text, ht⟩ := hc
  have hp : ({ r.parsed with inLoop := false } : ParsedRule) =
      { (compile text).parsed with inLoop := false } := congrArg (fun x => x.parsed) ht
  have hv' : (compile text).parsed.valid = true := by
    have := congrArg (fun x => x.valid) hp
    exact this.symm.trans hv
  have h := (compile_cases text hv').2
  have hin := parsed_inLoop h
  have he : ({ (compile text).parsed with inLoop := false } : ParsedRule) =
      (compile text).parsed := by
    cases hcp : (compile text).parsed
    rw [hcp] at hin
    simp only at hin
    subst hin
    rfl
  rw [hp, he]
  exact ⟨_, h⟩

/-- A valid compiled SimpleCommand is of no other kind; its target is an output
pin and its target state 0 or 1. -/
theorem compiled_simple {r : Rule} (hc : Compiled r) (hv : r.parsed.valid = true)
    (hs : r.parsed.isSimpleCommand = true) :
    r.parsed.isLoop = false ∧ r.parsed.isContinuous = false ∧ r.parsed.action ∈ outputs ∧
      r.parsed.aState ≤ 1 := by
  obtain ⟨t, h⟩ := compiled_parsed hc hv
  cases h with
  | loop colon shape ok eq =>
    have hf : r.parsed.isSimpleCommand = false := congrArg (fun x => x.isSimpleCommand) eq
    rw [hf] at hs
    exact (Bool.false_ne_true hs).elim
  | cond excl ac comma shape first act noAmp ok eq =>
    have hf : r.parsed.isSimpleCommand = false := congrArg (fun x => x.isSimpleCommand) eq
    rw [hf] at hs
    exact (Bool.false_ne_true hs).elim
  | and excl ac amp comma1 comma2 shape first act hamp ok eq =>
    have hf : r.parsed.isSimpleCommand = false := congrArg (fun x => x.isSimpleCommand) eq
    rw [hf] at hs
    exact (Bool.false_ne_true hs).elim
  | simple comma shape first ok eq =>
    have h1 : r.parsed.isLoop = false := congrArg (fun x => x.isLoop) eq
    have h2 : r.parsed.isContinuous = false := congrArg (fun x => x.isContinuous) eq
    have h3 : r.parsed.action = _ := congrArg (fun x => x.action) eq
    have h4 : r.parsed.aState = _ := congrArg (fun x => x.aState) eq
    refine ⟨h1, h2, ?_, ?_⟩
    · rw [h3]; exact ok.2.2.2.2.2.1.nibble_mem_outputs
    · rw [h4]; exact stateBit_le _

/-- A valid compiled conditional rule is of no other kind; its target is an
output pin and its target state 0 or 1. -/
theorem compiled_continuous {r : Rule} (hc : Compiled r) (hv : r.parsed.valid = true)
    (hk : r.parsed.isContinuous = true) :
    r.parsed.isLoop = false ∧ r.parsed.isSimpleCommand = false ∧ r.parsed.action ∈ outputs ∧
      r.parsed.aState ≤ 1 := by
  obtain ⟨t, h⟩ := compiled_parsed hc hv
  cases h with
  | loop colon shape ok eq =>
    have hf : r.parsed.isContinuous = false := congrArg (fun x => x.isContinuous) eq
    rw [hf] at hk
    exact (Bool.false_ne_true hk).elim
  | cond excl ac comma shape first act noAmp ok eq =>
    have h1 : r.parsed.isLoop = false := congrArg (fun x => x.isLoop) eq
    have h2 : r.parsed.isSimpleCommand = false := congrArg (fun x => x.isSimpleCommand) eq
    have h3 : r.parsed.action = _ := congrArg (fun x => x.action) eq
    have h4 : r.parsed.aState = _ := congrArg (fun x => x.aState) eq
    refine ⟨h1, h2, ?_, ?_⟩
    · rw [h3]; exact act.2.2.2.2.2.2.2.2.1.nibble_mem_outputs
    · rw [h4]; exact stateBit_le _
  | and excl ac amp comma1 comma2 shape first act hamp ok eq =>
    have h1 : r.parsed.isLoop = false := congrArg (fun x => x.isLoop) eq
    have h2 : r.parsed.isSimpleCommand = false := congrArg (fun x => x.isSimpleCommand) eq
    have h3 : r.parsed.action = _ := congrArg (fun x => x.action) eq
    have h4 : r.parsed.aState = _ := congrArg (fun x => x.aState) eq
    refine ⟨h1, h2, ?_, ?_⟩
    · rw [h3]; exact act.2.2.2.2.2.2.2.2.1.nibble_mem_outputs
    · rw [h4]; exact stateBit_le _
  | simple comma shape first ok eq =>
    have hf : r.parsed.isContinuous = false := congrArg (fun x => x.isContinuous) eq
    rw [hf] at hk
    exact (Bool.false_ne_true hk).elim

/-- A valid compiled Loop has a command list the validator accepted, of less
than `MAX_LOOP_COMMANDS` characters, and an input pin as gate. -/
theorem compiled_loop {r : Rule} (hc : Compiled r) (hv : r.parsed.valid = true)
    (hl : r.parsed.isLoop = true) :
    validateLoopScan r.parsed.loopCommands [] = true ∧
      r.parsed.loopCommands.length < MAX_LOOP_COMMANDS ∧ r.parsed.loopCommands ≠ [] ∧
      r.parsed.loopPin ∈ inputs := by
  obtain ⟨t, h⟩ := compiled_parsed hc hv
  cases h with
  | loop colon shape ok eq =>
    have h3 : r.parsed.loopCommands = loopSegmentAt t colon :=
      congrArg (fun x => x.loopCommands) eq
    have h4 : r.parsed.loopPin = _ := congrArg (fun x => x.loopPin) eq
    obtain ⟨_, _, _, _, _, hp, hlen, hval⟩ := ok
    have hlen' : (loopSegmentAt t colon).length < MAX_LOOP_COMMANDS := by
      unfold loopSegmentAt substr
      exact Nat.lt_of_le_of_lt (List.length_take_le _ _) hlen
    have hval' : validateLoopCommands (loopSegmentAt t colon) = true := hval
    refine ⟨?_, ?_, ?_, ?_⟩
    · rw [h3]; exact validateLoopCommands_scan _ hlen' hval'
    · rw [h3]; exact hlen'
    · rw [h3]
      intro he
      rw [he] at hval'
      exact absurd hval' (by decide)
    · rw [h4]; exact hp.nibble_mem_inputs
  | cond excl ac comma shape first act noAmp ok eq =>
    have hf : r.parsed.isLoop = false := congrArg (fun x => x.isLoop) eq
    rw [hf] at hl
    exact (Bool.false_ne_true hl).elim
  | and excl ac amp comma1 comma2 shape first act hamp ok eq =>
    have hf : r.parsed.isLoop = false := congrArg (fun x => x.isLoop) eq
    rw [hf] at hl
    exact (Bool.false_ne_true hl).elim
  | simple comma shape first ok eq =>
    have hf : r.parsed.isLoop = false := congrArg (fun x => x.isLoop) eq
    rw [hf] at hl
    exact (Bool.false_ne_true hl).elim

theorem compiled_compile (text : List Char) : Compiled (compile text) := ⟨text, rfl⟩

theorem compiled_reset {r : Rule} (h : Compiled r) : Compiled r.reset := by
  obtain ⟨text, ht⟩ := h
  exact ⟨text, by rw [← ht]; rfl⟩

/-! ## Evaluation of a SimpleCommand -/

theorem check_simple_pending (env : Nat → Nat → Nat) (r : Rule) (s : State)
    (hv : r.parsed.valid = true) (hl : r.parsed.isLoop = false)
    (hs : r.parsed.isSimpleCommand = true) (hd : r.done = false) :
    r.check env s =
      ({ r with done := true }, setPinOutput s r.parsed.action r.parsed.aState, true) := by
  unfold Rule.check
  simp [hv, hl, hs, hd]

theorem check_simple_done (env : Nat → Nat → Nat) (r : Rule) (s : State)
    (hv : r.parsed.valid = true) (hl : r.parsed.isLoop = false)
    (hs : r.parsed.isSimpleCommand = true) (hd : r.done = true) :
    r.check env s = (r, s, false) := by
  unfold Rule.check
  simp [hv, hl, hs, hd]

/-- Claim C11. For a valid compiled SimpleCommand rule: a `check` while `done`
is clear requests `setPinOutput(action, aState)` (and does nothing else to
the state), sets `done` and returns true; a `check` while `done` is set returns
false and leaves rule and state as they are, so that every further `check`
does the same; and after `reset()` the rule is pending and its `check` requests
the same output, sets `done` and returns true again. -/
theorem C11_simple_command_once (env : Nat → Nat → Nat) (r : Rule) (s : State)
    (hc : Compiled r) (hv : r.parsed.valid = true) (hs : r.parsed.isSimpleCommand = true) :
    (r.done = false →
      r.check env s =
        ({ r with done := true }, setPinOutput s r.parsed.action r.parsed.aState, true)) ∧
    (r.done = true → r.check env s = (r, s, false)) ∧
    (∀ (env' : Nat → Nat → Nat) (s' : State),
      (r.check env s).1.check env' s' = ((r.check env s).1, s', false)) ∧
    (∀ (env' : Nat → Nat → Nat) (s' : State),
      (r.check env s).1.reset.done = false ∧
      ((r.check env s).1.reset.check env' s').1.done = true ∧
      ((r.check env s).1.reset.check env' s').2.1 =
        setPinOutput s' r.parsed.action r.parsed.aState ∧
      ((r.check env s).1.reset.check env' s').2.2 = true) := by
  have hl := (compiled_simple hc hv hs).1
  have hdone : (r.check env s).1.done = true ∧ (r.check env s).1.parsed = r.parsed := by
    cases hd : r.done with
    | false => rw [check_simple_pending env r s hv hl hs hd]; exact ⟨rfl, rfl⟩
    | true => rw [check_simple_done env r s hv hl hs hd]; exact ⟨hd, rfl⟩
  refine ⟨check_simple_pending env r s hv hl hs, check_simple_done env r s hv hl hs, ?_, ?_⟩
  · intro env' s'
    exact check_simple_done env' _ s' (by rw [hdone.2]; exact hv) (by rw [hdone.2]; exact hl)
      (by rw [hdone.2]; exact hs) hdone.1
  · intro env' s'
    have hp : (r.check env s).1.reset.parsed = { r.parsed with inLoop := false } := by
      show ({ (r.check env s).1.parsed with inLoop := false } : ParsedRule) = _
      rw [hdone.2]
    rw [check_simple_pending env' _ s' (by rw [hp]; exact hv) (by rw [hp]; exact hl)
      (by rw [hp]; exact hs) rfl, hp]
    exact ⟨rfl, rfl, rfl, rfl⟩

/-- The rule compiled from `2,1` fires on its first `check` and not on the second. -/
theorem C11_simple_command_once_witness :
    (compile "2,1".toList).check (fun _ _ => LOW) (init boot) =
      ({ compile "2,1".toList with done := true }, setPinOutput (init boot) 2 1, true) ∧
    (((compile "2,1".toList).check (fun _ _ => LOW) (init boot)).1.check (fun _ _ => LOW)
      (init boot)).2.2 = false :=
  have h := C11_simple_command_once (fun _ _ => LOW) (compile "2,1".toList) (init boot)
    (compiled_compile _) (by decide) (by decide)
  ⟨h.1 (by decide), congrArg (fun x => x.2.2) (h.2.2.1 (fun _ _ => LOW) (init boot))⟩

/-! ## Evaluation of a conditional rule -/

theorem afterConditionReads_eq (env : Nat → Nat → Nat) (r : Rule) (s : State) :
    afterConditionReads env r s =
      { s with hw := { s.hw with reads := s.hw.reads + (if r.parsed.useAND then 6 else 3) } } := by
  unfold afterConditionReads
  cases r.parsed.useAND <;> rfl

theorem check_continuous (env : Nat → Nat → Nat) (r : Rule) (s : State)
    (hv : r.parsed.valid = true) (hl : r.parsed.isLoop = false)
    (hs : r.parsed.isSimpleCommand = false) (hk : r.parsed.isContinuous = true) :
    r.check env s =
      if conditionHolds env r s then
        (r, setPinOutput (afterConditionReads env r s) r.parsed.action r.parsed.aState, true)
      else if r.parsed.aState = 1 then
        (r, setPinOutput (afterConditionReads env r s) r.parsed.action 0, false)
      else (r, afterConditionReads env r s, false) := by
  unfold Rule.check conditionHolds afterConditionReads
  simp only [hv, hl, hs, hk, Bool.not_true, Bool.false_eq_true, if_false, if_true]
  cases r.parsed.useAND <;> rfl

/-- Claim C12. For a valid compiled conditional rule, checked in a state whose
cache holds the output pins: with `cond` the value of the condition as read
(first trigger against its state and, with `useAND`, second trigger against
its state), the check leaves the rule as it is and, after the reads, if
`cond` holds requests `setPinOutput(action, aState)` and returns true; if
`cond` fails and `aState` is 1 requests `setPinOutput(action, 0)`, after
which the target is cached as claimed with state 0, and returns false; if
`cond` fails and `aState` is 0 makes no request and leaves cache, writes, log
and pin modes as they are, and returns false. The state and the value
returned are the same whatever the `done` flag is. -/
theorem C12_conditional_check (env : Nat → Nat → Nat) (r : Rule) (s : State)
    (hc : Compiled r) (hv : r.parsed.valid = true) (hk : r.parsed.isContinuous = true)
    (hcache : CacheReady s) :
    (r.check env s).1 = r ∧
    (conditionHolds env r s = true →
      (r.check env s).2 =
        (setPinOutput (afterConditionReads env r s) r.parsed.action r.parsed.aState, true)) ∧
    (conditionHolds env r s = false → r.parsed.aState = 1 →
      (r.check env s).2 =
        (setPinOutput (afterConditionReads env r s) r.parsed.action 0, false) ∧
      Cached (r.check env s).2.1 r.parsed.action 0) ∧
    (conditionHolds env r s = false → r.parsed.aState = 0 →
      (r.check env s).2 = (afterConditionReads env r s, false) ∧
      (r.check env s).2.1.ctl = s.ctl ∧
      (r.check env s).2.1.hw.requests = s.hw.requests ∧
      (r.check env s).2.1.hw.writes = s.hw.writes ∧
      (r.check env s).2.1.hw.changes = s.hw.changes ∧
      (r.check env s).2.1.hw.modes = s.hw.modes) ∧
    (r.parsed.aState = 0 ∨ r.parsed.aState = 1) ∧
    (∀ d : Bool, (({ r with done := d } : Rule).check env s).2 = (r.check env s).2) := by
  obtain ⟨hl, hs, hact, hst⟩ := compiled_continuous hc hv hk
  have hchk := check_continuous env r s hv hl hs hk
  refine ⟨?_, ?_, ?_, ?_, by omega, ?_⟩
  · rw [hchk]
    split
    · rfl
    · split <;> rfl
  · intro hcond
    rw [hchk, if_pos hcond]
  · intro hcond ha
    rw [hchk, if_neg (by rw [hcond]; exact Bool.false_ne_true), if_pos ha]
    refine ⟨rfl, ?_⟩
    have hin : r.parsed.action ∈ (afterConditionReads env r s).ctl.pinStates.map PinState.pin := by
      rw [afterConditionReads_eq]
      show r.parsed.action ∈ s.ctl.pinStates.map PinState.pin
      rw [hcache]
      exact hact
    exact setPinOutput_cached _ _ 0 (by decide) hin
  · intro hcond ha
    rw [hchk, if_neg (by rw [hcond]; exact Bool.false_ne_true), if_neg (by omega),
      afterConditionReads_eq]
    exact ⟨rfl, rfl, rfl, rfl, rfl, rfl⟩
  · intro d
    rw [hchk, check_continuous env { r with done := d } s hv hl hs hk]
    show (if conditionHolds env r s = true then _ else _ : Rule × State × Bool).2 = _
    split
    · rfl
    · split <;> rfl

/-- The rule `?5,1!4,1` with pin 5 reading inactive forces pin 4 to 0 on the
initialised controller. -/
theorem C12_conditional_check_witness :
    ((compile "?5,1!4,1".toList).check (fun _ _ => HIGH) (init boot)).2.2 = false ∧
    Cached ((compile "?5,1!4,1".toList).check (fun _ _ => HIGH) (init boot)).2.1 4 0 :=
  have h := (C12_conditional_check (fun _ _ => HIGH) (compile "?5,1!4,1".toList) (init boot)
    (compiled_compile _) (by decide) (by decide) rfl).2.2.1 (by decide) (by decide)
  ⟨congrArg Prod.snd h.1, h.2⟩

/-! ## Running the commands of a loop -/

theorem loopScan_eq_foldl (f : State → List Char → State) (hf : ∀ s, f s [] = s)
    (rest seg : List Char) (s : State) :
    loopScan f rest seg s = (splitAcc rest seg).foldl f s := by
  induction rest generalizing seg s with
  | nil =>
    rw [loopScan_nil, splitAcc_nil]
    by_cases h : seg = []
    · subst h
      simp [hf]
    · rw [if_pos h]
      rfl
  | cons c rest ih =>
    rw [loopScan_cons, splitAcc_cons]
    by_cases hc : c = ';'
    · rw [if_pos hc, if_pos hc, ih]
      rfl
    · rw [if_neg hc, if_neg hc, ih]

theorem foldl_filter_nonempty (f : State → List Char → State) (hf : ∀ s, f s [] = s)
    (l : List (List Char)) (s : State) :
    (l.filter (fun p => decide (p ≠ []))).foldl f s = l.foldl f s := by
  induction l generalizing s with
  | nil => rfl
  | cons p ps ih =>
    by_cases hp : p = []
    · subst hp
      rw [List.filter_cons_of_neg (by simp), List.foldl_cons, hf]
      exact ih s
    · rw [List.filter_cons_of_pos (by simpa using hp), List.foldl_cons, List.foldl_cons]
      exact ih _

theorem foldl_congr_mem {α β : Type} (f g : β → α → β) (l : List α)
    (h : ∀ a ∈ l, ∀ b, f b a = g b a) (b : β) : l.foldl f b = l.foldl g b := by
  induction l generalizing b with
  | nil => rfl
  | cons a as ih =>
    simp only [List.foldl_cons]
    rw [h a (List.mem_cons_self _ _) b]
    exact ih (fun x hx => h x (List.mem_cons_of_mem _ hx)) _

theorem executeLoopCommand_nil (s : State) : (executeLoopCommand s []).1 = s := rfl

theorem executeLoopCommandOff_nil (s : State) : executeLoopCommandOff s [] = s := rfl

theorem commandPin_of_field {p : List Char} {comma : Nat}
    (h : FieldOK isOutputPin p comma) : commandPin p = toByte (atoi (substr p 0 comma)) := by
  unfold commandPin
  rw [pinToken_of_strchr h.1]

theorem commandState_of_field {p : List Char} {comma : Nat}
    (h : FieldOK isOutputPin p comma) : commandState p = stateBit (charAt p (comma + 1)) := by
  unfold commandState
  rw [h.1]

theorem field_ne_nil {role : Nat → Bool} {p : List Char} {comma : Nat}
    (h : FieldOK role p comma) : p ≠ [] := by
  intro he
  have := h.1
  rw [he] at this
  simp [strchr] at this

/-- A command the validator accepted is run as the request for its pin and state. -/
theorem executeLoopCommand_valid (s : State) (p : List Char)
    (h : validateSingleLoopCommand p = true) :
    (executeLoopCommand s p).1 = setPinOutput s (commandPin p) (commandState p) := by
  obtain ⟨comma, hok⟩ := validateSingleLoopCommand_cases p h
  rw [commandPin_of_field hok, commandState_of_field hok]
  have hne := field_ne_nil hok
  obtain ⟨hs, h0, h2, hc1, hc2, hp, hst⟩ := hok
  unfold executeLoopCommand
  rw [if_neg hne, hs]
  dsimp only
  rw [if_neg (by omega), if_neg (by omega), hp.1, hp.2]
  simp only [Bool.not_true, Bool.false_eq_true, if_false, Bool.or_self]
  rw [if_neg (by rcases hst with h | h <;> simp [h])]
  rfl

/-- A command the validator accepted is switched off by the request of state 0
for its pin. -/
theorem executeLoopCommandOff_valid (s : State) (p : List Char)
    (h : validateSingleLoopCommand p = true) :
    executeLoopCommandOff s p = setPinOutput s (commandPin p) 0 := by
  obtain ⟨comma, hok⟩ := validateSingleLoopCommand_cases p h
  rw [commandPin_of_field hok]
  have hne := field_ne_nil hok
  obtain ⟨hs, h0, h2, hc1, hc2, hp, hst⟩ := hok
  unfold executeLoopCommandOff
  rw [if_neg hne, hs]
  dsimp only
  rw [if_neg (by omega), if_neg (by omega), hp.1, hp.2]
  simp only [Bool.not_true, Bool.false_eq_true, if_false, Bool.or_self]

theorem subCommands_valid (cmds : List Char) (h : validateLoopScan cmds [] = true)
    (p : List Char) (hp : p ∈ subCommands cmds) : validateSingleLoopCommand p = true := by
  unfold subCommands at hp
  simp only [List.mem_filter, decide_eq_true_eq] at hp
  exact validateLoopScan_nonempty cmds [] h p hp.1 hp.2

theorem commandPin_mem_outputs (p : List Char) (h : validateSingleLoopCommand p = true) :
    commandPin p ∈ outputs := by
  obtain ⟨comma, hok⟩ := validateSingleLoopCommand_cases p h
  rw [commandPin_of_field hok]
  have := hok.2.2.2.2.2.1.2
  unfold isOutputPin at this
  simpa using this

theorem commandState_le (p : List Char) : commandState p ≤ 1 := by
  unfold commandState
  split
  · exact stateBit_le _
  · omega

theorem foldl_map_requestAll {α : Type} (l : List α) (a b : α → Nat) (s : State) :
    l.foldl (fun st p => setPinOutput st (a p) (b p)) s =
      requestAll (l.map (fun p => (a p, b p))) s := by
  unfold requestAll
  rw [List.foldl_map]

/-- The commands of a valid loop are run as the requests the list stands for. -/
theorem executeLoopCommands_eq (r : Rule) (s : State)
    (hval : validateLoopScan r.parsed.loopCommands [] = true)
    (hlen : r.parsed.loopCommands.length < MAX_LOOP_COMMANDS)
    (hne : r.parsed.loopCommands ≠ []) :
    r.executeLoopCommands s = requestAll (commandRequests r.parsed.loopCommands) s := by
  unfold Rule.executeLoopCommands
  rw [if_neg hne, List.take_of_length_le (by omega),
    loopScan_eq_foldl _ (fun s => executeLoopCommand_nil s),
    ← foldl_filter_nonempty _ (fun s => executeLoopCommand_nil s)]
  unfold commandRequests
  rw [← foldl_map_requestAll]
  exact foldl_congr_mem _ _ _
    (fun p hp st => executeLoopCommand_valid st p (subCommands_valid _ hval p hp)) s

/-- The commands of a valid loop are switched off by the requests of state 0
for their pins. -/
theorem executeLoopCommandsOff_eq (r : Rule) (s : State)
    (hval : validateLoopScan r.parsed.loopCommands [] = true)
    (hlen : r.parsed.loopCommands.length < MAX_LOOP_COMMANDS)
    (hne : r.parsed.loopCommands ≠ []) :
    r.executeLoopCommandsOff s = requestAll (offRequests r.parsed.loopCommands) s := by
  unfold Rule.executeLoopCommandsOff
  rw [if_neg hne, List.take_of_length_le (by omega),
    loopScan_eq_foldl _ (fun s => executeLoopCommandOff_nil s),
    ← foldl_filter_nonempty _ (fun s => executeLoopCommandOff_nil s)]
  unfold offRequests
  rw [← foldl_map_requestAll (subCommands r.parsed.loopCommands) commandPin (fun _ => 0)]
  exact foldl_congr_mem _ _ _
    (fun p hp st => executeLoopCommandOff_valid st p (subCommands_valid _ hval p hp)) s

theorem requestAll_nil (s : State) : requestAll [] s = s := rfl

theorem requestAll_cons (q : Nat × Nat) (qs : List (Nat × Nat)) (s : State) :
    requestAll (q :: qs) s = requestAll qs (setPinOutput s q.1 q.2) := rfl

theorem requestAll_requests (reqs : List (Nat × Nat)) (s : State) :
    (requestAll reqs s).hw.requests = s.hw.requests ++ reqs := by
  induction reqs generalizing s with
  | nil => simp [requestAll_nil]
  | cons q qs ih =>
    rw [requestAll_cons, ih, setPinOutput_requests]
    simp

theorem requestAll_sameTable (reqs : List (Nat × Nat)) (s : State) :
    SameTable s (requestAll reqs s) := by
  induction reqs generalizing s with
  | nil => exact sameTable_refl s
  | cons q qs ih =>
    rw [requestAll_cons]
    exact SameTable.trans (setPinOutput_sameTable _ _ _) (ih _)


/-! ## Evaluation of a loop rule -/

theorem check_loop_idle (env : Nat → Nat → Nat) (r : Rule) (s : State)
    (hv : r.parsed.valid = true) (hl : r.parsed.isLoop = true)
    (hi : r.parsed.inLoop = false) :
    r.check env s =
      if (readPinStable env s r.parsed.loopPin).1 then
        ({ r with parsed := { r.parsed with inLoop := true } },
          Rule.executeLoopCommands { r with parsed := { r.parsed with inLoop := true } }
            (readPinStable env s r.parsed.loopPin).2, false)
      else (r, (readPinStable env s r.parsed.loopPin).2, false) := by
  unfold Rule.check
  simp [hv, hl, hi]

theorem check_loop_active (env : Nat → Nat → Nat) (r : Rule) (s : State)
    (hv : r.parsed.valid = true) (hl : r.parsed.isLoop = true)
    (hi : r.parsed.inLoop = true) :
    r.check env s =
      if (readPinStable env s r.parsed.loopPin).1 then
        (if r.hasAlternatingCommands then
          (r, r.executeLoopCommands (readPinStable env s r.parsed.loopPin).2, false)
        else (r, (readPinStable env s r.parsed.loopPin).2, false))
      else
        ({ r with done := true, parsed := { r.parsed with inLoop := false } },
          Rule.executeLoopCommandsOff { r with parsed := { r.parsed with inLoop := false } }
            (readPinStable env s r.parsed.loopPin).2, true) := by
  unfold Rule.check
  simp [hv, hl, hi]

theorem readPinStable_requests (env : Nat → Nat → Nat) (s : State) (pin : Nat) :
    (readPinStable env s pin).2.hw.requests = s.hw.requests := by
  rw [readPinStable_state]

theorem readPinStable_writes (env : Nat → Nat → Nat) (s : State) (pin : Nat) :
    (readPinStable env s pin).2.hw.writes = s.hw.writes := by
  rw [readPinStable_state]

theorem readPinStable_ctl (env : Nat → Nat → Nat) (s : State) (pin : Nat) :
    (readPinStable env s pin).2.ctl = s.ctl := by
  rw [readPinStable_state]

/-- Claim C19. A valid Loop rule that is Idle: when the gate reads stable-active
the rule becomes Active, the evaluation is exactly the sequence of requests
`setPinOutput(pin, state)` for the sub-commands of the stored command list in
list order (every sub-command was accepted by the validator, names an output pin
and a state of 0 or 1, and none is skipped), and `check` returns false; when the
gate reads inactive the rule is unchanged, no request is issued, and `check`
returns false. -/
theorem C19_loop_entry (env : Nat → Nat → Nat) (r : Rule) (s : State)
    (hc : Compiled r) (hv : r.parsed.valid = true) (hl : r.parsed.isLoop = true)
    (hidle : r.parsed.inLoop = false) :
    ((readPinStable env s r.parsed.loopPin).1 = true →
      (r.check env s).1 = { r with parsed := { r.parsed with inLoop := true } } ∧
      (r.check env s).2.2 = false ∧
      (r.check env s).2.1 =
        requestAll (commandRequests r.parsed.loopCommands)
          (readPinStable env s r.parsed.loopPin).2 ∧
      (r.check env s).2.1.hw.requests =
        s.hw.requests ++ commandRequests r.parsed.loopCommands) ∧
    ((readPinStable env s r.parsed.loopPin).1 = false →
      r.check env s = (r, (readPinStable env s r.parsed.loopPin).2, false) ∧
      (r.check env s).2.1.hw.requests = s.hw.requests ∧
      (r.check env s).2.1.hw.writes = s.hw.writes ∧
      (r.check env s).2.1.ctl = s.ctl) ∧
    (∀ p ∈ subCommands r.parsed.loopCommands,
      validateSingleLoopCommand p = true ∧ commandPin p ∈ outputs ∧ commandState p ≤ 1 ∧
      ∀ st, (executeLoopCommand st p).1 = setPinOutput st (commandPin p) (commandState p)) ∧
    (commandRequests r.parsed.loopCommands).length =
      (subCommands r.parsed.loopCommands).length := by
  obtain ⟨hval, hlen, hne, _⟩ := compiled_loop hc hv hl
  have hchk := check_loop_idle env r s hv hl hidle
  refine ⟨fun hg => ?_, fun hg => ?_, fun p hp => ?_, ?_⟩
  · rw [hg, if_pos rfl] at hchk
    have hex : Rule.executeLoopCommands { r with parsed := { r.parsed with inLoop := true } }
        (readPinStable env s r.parsed.loopPin).2 =
        requestAll (commandRequests r.parsed.loopCommands)
          (readPinStable env s r.parsed.loopPin).2 :=
      executeLoopCommands_eq { r with parsed := { r.parsed with inLoop := true } } _
        hval hlen hne
    rw [hchk]
    refine ⟨rfl, rfl, hex, ?_⟩
    show (Rule.executeLoopCommands _ _).hw.requests = _
    rw [hex, requestAll_requests, readPinStable_requests]
  · rw [hg, if_neg Bool.false_ne_true] at hchk
    rw [hchk]
    exact ⟨rfl, readPinStable_requests env s r.parsed.loopPin,
      readPinStable_writes env s r.parsed.loopPin, readPinStable_ctl env s r.parsed.loopPin⟩
  · have hvp := subCommands_valid _ hval p hp
    exact ⟨hvp, commandPin_mem_outputs p hvp, commandState_le p,
      fun st => executeLoopCommand_valid st p hvp⟩
  · unfold commandRequests
    rw [List.length_map]

/-- The rule compiled from `[5:2,1;4,0]`, Idle, with pin 5 reading LOW: the
evaluation requests pin 2 := 1 and then pin 4 := 0. -/
theorem C19_loop_entry_witness :
    ((compile "[5:2,1;4,0]".toList).check (fun _ _ => LOW) (init boot)).2.1.hw.requests =
      (init boot).hw.requests ++ commandRequests (compile "[5:2,1;4,0]".toList).parsed.loopCommands ∧
    commandRequests (compile "[5:2,1;4,0]".toList).parsed.loopCommands = [(2, 1), (4, 0)] :=
  ⟨((C19_loop_entry (fun _ _ => LOW) (compile "[5:2,1;4,0]".toList) (init boot)
    (compiled_compile _) (by decide) (by decide) (by decide)).1 (by decide)).2.2.2,
    by decide⟩

/-! ## Alternating command lists -/

theorem anyPairDiffers_iff (l : List (List Char)) :
    anyPairDiffers l = true ↔ ∃ x ∈ l, ∃ y ∈ l, x ≠ y := by
  induction l with
  | nil => simp [anyPairDiffers]
  | cons a as ih =>
    rw [anyPairDiffers, Bool.or_eq_true, ih, List.any_eq_true]
    constructor
    · rintro (⟨y, hy, hne⟩ | ⟨x, hx, y, hy, hne⟩)
      · exact ⟨a, List.mem_cons_self _ _, y, List.mem_cons_of_mem _ hy, by simpa using hne⟩
      · exact ⟨x, List.mem_cons_of_mem _ hx, y, List.mem_cons_of_mem _ hy, hne⟩
    · rintro ⟨x, hx, y, hy, hne⟩
      rcases List.mem_cons.1 hx with hxa | hxs
      · rcases List.mem_cons.1 hy with hya | hys
        · exact absurd (hxa.trans hya.symm) hne
        · exact Or.inl ⟨y, hys, by simpa [hxa] using hne⟩
      · rcases List.mem_cons.1 hy with hya | hys
        · exact Or.inl ⟨x, hxs, by simpa [hya] using hne.symm⟩
        · exact Or.inr ⟨x, hxs, y, hys, hne⟩

theorem collectCommands_nil (seg : List Char) (cmds : List (List Char)) :
    collectCommands [] seg cmds =
      if seg ≠ [] ∧ cmds.length < 10 then cmds ++ [seg.dropWhile (fun c => decide (c = ' '))]
      else cmds := by
  rw [collectCommands]

theorem collectCommands_cons (c : Char) (rest seg : List Char) (cmds : List (List Char)) :
    collectCommands (c :: rest) seg cmds =
      if cmds.length < 10 then
        if c = ';' then
          collectCommands rest []
            (if seg.dropWhile (fun c => decide (c = ' ')) ≠ [] then
              cmds ++ [seg.dropWhile (fun c => decide (c = ' '))] else cmds)
        else collectCommands rest (seg ++ [c]) cmds
      else cmds := by
  rw [collectCommands]

theorem valid_command_length (p : List Char) (h : validateSingleLoopCommand p = true) :
    3 ≤ p.length := by
  obtain ⟨comma, hs, h0, _, hc1, _⟩ := validateSingleLoopCommand_cases p h
  have := charAt_lt_of_ne_NUL hc1
  omega

theorem strchr_mem {s : List Char} {c : Char} {i : Nat} (h : strchr s c = some i) :
    c ∈ s := by
  induction s generalizing i with
  | nil => simp [strchr] at h
  | cons a as ih =>
    by_cases hac : a = c
    · subst hac
      exact List.mem_cons_self _ _
    · rw [strchr] at h
      simp only [hac, if_false] at h
      cases hr : strchr as c with
      | none => rw [hr] at h; simp at h
      | some j => exact List.mem_cons_of_mem _ (ih hr)

theorem valid_command_trim (p : List Char) (h : validateSingleLoopCommand p = true) :
    trimSpaces p ≠ [] := by
  obtain ⟨comma, hs, _⟩ := validateSingleLoopCommand_cases p h
  have hm := strchr_mem hs
  unfold trimSpaces
  intro he
  rw [List.dropWhile_eq_nil_iff] at he
  have := he _ hm
  simp at this

theorem validateLoopScan_semis (rest seg : List Char) (h : validateLoopScan rest seg = true) :
    4 * rest.count ';' ≤ rest.length + seg.length := by
  induction rest generalizing seg with
  | nil => simp
  | cons c rest ih =>
    rw [validateLoopScan_cons] at h
    by_cases hc : c = ';'
    · rw [if_pos hc] at h
      cases hv : validateSingleLoopCommand seg with
      | false => rw [hv] at h; simp at h
      | true =>
        rw [hv] at h
        simp only [Bool.not_true, Bool.false_eq_true, if_false] at h
        have h1 := ih [] h
        have h2 := valid_command_length seg hv
        subst hc
        rw [List.count_cons_self]
        simp only [List.length_cons, List.length_nil] at h1 ⊢
        omega
    · rw [if_neg hc] at h
      have h1 := ih _ h
      rw [List.count_cons_of_ne (fun e => hc e.symm)]
      simp only [List.length_cons, List.length_append, List.length_nil] at h1 ⊢
      omega

/-- The array `commands` of `Rule::hasAlternatingCommands` on a validated list
short enough for the cap of ten never to be met: the non-empty pieces, each
without its leading spaces. -/
theorem collectCommands_eq (rest seg : List Char) (cmds : List (List Char))
    (h : validateLoopScan rest seg = true) (hn : cmds.length + rest.count ';' < 10) :
    collectCommands rest seg cmds =
      cmds ++ ((splitAcc rest seg).filter (fun p => decide (p ≠ []))).map trimSpaces := by
  induction rest generalizing seg cmds with
  | nil =>
    rw [collectCommands_nil, splitAcc_nil]
    by_cases hs : seg = []
    · subst hs
      simp
    · rw [if_pos ⟨hs, by simpa using hn⟩, List.filter_cons_of_pos (by simpa using hs)]
      rfl
  | cons c rest ih =>
    rw [collectCommands_cons, splitAcc_cons, if_pos (by omega)]
    rw [validateLoopScan_cons] at h
    by_cases hc : c = ';'
    · rw [if_pos hc] at h
      rw [if_pos hc, if_pos hc]
      subst hc
      rw [List.count_cons_self] at hn
      cases hv : validateSingleLoopCommand seg with
      | false => rw [hv] at h; simp at h
      | true =>
        rw [hv] at h
        simp only [Bool.not_true, Bool.false_eq_true, if_false] at h
        have ht := valid_command_trim seg hv
        have hs : seg ≠ [] := fun e => by
          rw [e] at hv
          exact absurd hv (by decide)
        unfold trimSpaces at ht
        have hn2 : (cmds ++ [seg.dropWhile (fun c => decide (c = ' '))]).length +
            rest.count ';' < 10 := by
          simp only [List.length_append, List.length_cons, List.length_nil]
          omega
        rw [if_pos ht, ih [] _ h hn2, List.filter_cons_of_pos (by simpa using hs)]
        simp [trimSpaces]
    · rw [if_neg hc] at h
      rw [if_neg hc, if_neg hc]
      rw [List.count_cons_of_ne (fun e => hc e.symm)] at hn
      exact ih _ _ h hn

theorem length_le_one_eq {α : Type} (l : List α) (h : l.length ≤ 1) (x y : α)
    (hx : x ∈ l) (hy : y ∈ l) : x = y := by
  match l, h with
  | [], _ => simp at hx
  | [a], _ =>
    simp only [List.mem_singleton] at hx hy
    rw [hx, hy]

/-- The method `Rule::hasAlternatingCommands` on a validated command list: two
of the sub-commands differ once their leading spaces are dropped. -/
theorem hasAlternatingCommands_iff (r : Rule)
    (hval : validateLoopScan r.parsed.loopCommands [] = true)
    (hlen : r.parsed.loopCommands.length < MAX_LOOP_COMMANDS)
    (hne : r.parsed.loopCommands ≠ []) :
    r.hasAlternatingCommands = true ↔
      ∃ p ∈ subCommands r.parsed.loopCommands, ∃ q ∈ subCommands r.parsed.loopCommands,
        trimSpaces p ≠ trimSpaces q := by
  have hsem := validateLoopScan_semis _ _ hval
  have hlen' : r.parsed.loopCommands.length < 24 := hlen
  simp only [List.length_nil] at hsem
  have hcol := collectCommands_eq r.parsed.loopCommands [] [] hval
    (by simp only [List.length_nil]; omega)
  rw [List.nil_append] at hcol
  unfold Rule.hasAlternatingCommands
  rw [if_neg hne, List.take_of_length_le (by unfold MAX_LOOP_COMMANDS at hlen ⊢; omega)]
  dsimp only
  rw [hcol]
  have hsub : (splitAcc r.parsed.loopCommands []).filter (fun p => decide (p ≠ [])) =
    subCommands r.parsed.loopCommands := rfl
  rw [hsub]
  have key : (∃ x ∈ (subCommands r.parsed.loopCommands).map trimSpaces,
      ∃ y ∈ (subCommands r.parsed.loopCommands).map trimSpaces, x ≠ y) ↔
      ∃ p ∈ subCommands r.parsed.loopCommands, ∃ q ∈ subCommands r.parsed.loopCommands,
        trimSpaces p ≠ trimSpaces q := by
    constructor
    · rintro ⟨x, hx, y, hy, hxy⟩
      obtain ⟨p, hp, rfl⟩ := List.mem_map.1 hx
      obtain ⟨q, hq, rfl⟩ := List.mem_map.1 hy
      exact ⟨p, hp, q, hq, hxy⟩
    · rintro ⟨p, hp, q, hq, hpq⟩
      exact ⟨_, List.mem_map_of_mem _ hp, _, List.mem_map_of_mem _ hq, hpq⟩
  by_cases h1 : ((subCommands r.parsed.loopCommands).map trimSpaces).length ≤ 1
  · rw [if_pos h1]
    constructor
    · intro h
      exact (Bool.false_ne_true h).elim
    · intro h
      obtain ⟨x, hx, y, hy, hxy⟩ := key.2 h
      exact absurd (length_le_one_eq _ h1 x y hx hy) hxy
  · rw [if_neg h1, anyPairDiffers_iff]
    exact key

/-- Claim C13. A valid Loop rule that is Active while its gate reads
stable-active: `check` leaves the rule as it is (so it stays Active) and
returns false; it re-issues the whole command list, one request per sub-command
in list order, exactly when two sub-commands differ as texts once leading
spaces are dropped (that is when `hasAlternatingCommands` is true), and issues
no request at all when all sub-commands are equal as such texts. -/
theorem C13_loop_refire (env : Nat → Nat → Nat) (r : Rule) (s : State)
    (hc : Compiled r) (hv : r.parsed.valid = true) (hl : r.parsed.isLoop = true)
    (hact : r.parsed.inLoop = true)
    (hg : (readPinStable env s r.parsed.loopPin).1 = true) :
    (r.check env s).1 = r ∧ (r.check env s).2.2 = false ∧
    (r.hasAlternatingCommands = true ↔
      ∃ p ∈ subCommands r.parsed.loopCommands, ∃ q ∈ subCommands r.parsed.loopCommands,
        trimSpaces p ≠ trimSpaces q) ∧
    ((∃ p ∈ subCommands r.parsed.loopCommands, ∃ q ∈ subCommands r.parsed.loopCommands,
        trimSpaces p ≠ trimSpaces q) →
      (r.check env s).2.1 =
        requestAll (commandRequests r.parsed.loopCommands)
          (readPinStable env s r.parsed.loopPin).2 ∧
      (r.check env s).2.1.hw.requests =
        s.hw.requests ++ commandRequests r.parsed.loopCommands ∧
      2 ≤ (commandRequests r.parsed.loopCommands).length) ∧
    ((∀ p ∈ subCommands r.parsed.loopCommands, ∀ q ∈ subCommands r.parsed.loopCommands,
        trimSpaces p = trimSpaces q) →
      (r.check env s).2.1 = (readPinStable env s r.parsed.loopPin).2 ∧
      (r.check env s).2.1.hw.requests = s.hw.requests ∧
      (r.check env s).2.1.hw.writes = s.hw.writes ∧
      (r.check env s).2.1.ctl = s.ctl) := by
  obtain ⟨hval, hlen, hne, _⟩ := compiled_loop hc hv hl
  have hchk := check_loop_active env r s hv hl hact
  rw [hg, if_pos rfl] at hchk
  have hiff := hasAlternatingCommands_iff r hval hlen hne
  refine ⟨?_, ?_, hiff, fun hex => ?_, fun hall => ?_⟩
  · rw [hchk]
    by_cases ha : r.hasAlternatingCommands = true
    · rw [if_pos ha]
    · rw [if_neg ha]
  · rw [hchk]
    by_cases ha : r.hasAlternatingCommands = true
    · rw [if_pos ha]
    · rw [if_neg ha]
  · rw [if_pos (hiff.2 hex)] at hchk
    rw [hchk]
    have hrun := executeLoopCommands_eq r (readPinStable env s r.parsed.loopPin).2
      hval hlen hne
    refine ⟨hrun, ?_, ?_⟩
    · show (r.executeLoopCommands _).hw.requests = _
      rw [hrun, requestAll_requests, readPinStable_requests]
    · obtain ⟨p, hp, q, hq, hpq⟩ := hex
      unfold commandRequests
      rw [List.length_map]
      by_contra hlt
      exact hpq (congrArg trimSpaces (length_le_one_eq _ (by omega) p q hp hq))
  · have hna : ¬ r.hasAlternatingCommands = true := fun ha => by
      obtain ⟨p, hp, q, hq, hpq⟩ := hiff.1 ha
      exact hpq (hall p hp q hq)
    rw [if_neg hna] at hchk
    rw [hchk]
    exact ⟨rfl, readPinStable_requests env s r.parsed.loopPin,
      readPinStable_writes env s r.parsed.loopPin, readPinStable_ctl env s r.parsed.loopPin⟩

/-- The one-command loop `[5:2,1]`, Active after its entry, with pin 5 still
reading LOW: the evaluation issues no request and the rule stays as it is. -/
theorem C13_loop_refire_witness :
    ((((compile "[5:2,1]".toList).check (fun _ _ => LOW) (init boot)).1.check
      (fun _ _ => LOW) (init boot)).2.1.hw.requests = (init boot).hw.requests) ∧
    (((compile "[5:2,1]".toList).check (fun _ _ => LOW) (init boot)).1.check
      (fun _ _ => LOW) (init boot)).1 =
      ((compile "[5:2,1]".toList).check (fun _ _ => LOW) (init boot)).1 :=
  have h := C13_loop_refire (fun _ _ => LOW)
    ((compile "[5:2,1]".toList).check (fun _ _ => LOW) (init boot)).1 (init boot)
    ⟨"[5:2,1]".toList, by decide⟩ (by decide) (by decide) (by decide) (by decide)
  ⟨(h.2.2.2.2 (by decide)).2.1, h.1⟩

/-! ## Release of a loop -/

theorem find_updatePinState_ne (ps : List PinState) (pin state q : Nat) (h : q ≠ pin) :
    (updatePinState ps pin state).find? (fun e => decide (e.pin = q)) =
      ps.find? (fun e => decide (e.pin = q)) := by
  induction ps with
  | nil => rfl
  | cons e es ih =>
    unfold updatePinState
    by_cases he : e.pin = pin
    · rw [if_pos he]
      have hq : ¬ e.pin = q := fun e2 => h (e2.symm.trans he)
      simp [List.find?, hq]
    · rw [if_neg he]
      by_cases hq : e.pin = q
      · simp [List.find?, hq]
      · simp [List.find?, hq, ih]

/-- The cache after a request of state 0 for a cached pin: that pin is claimed
with state 0, the other entries are as before. -/
theorem cached_setPinOutput_zero (s : State) (p q : Nat)
    (hp : p ∈ s.ctl.pinStates.map PinState.pin) :
    Cached (setPinOutput s p 0) q 0 ↔ q = p ∨ Cached s q 0 := by
  by_cases hcp : Cached s p 0
  · obtain ⟨e, hf, ho, hst⟩ := hcp
    rw [setPinOutput_same s p 0 e hf ho hst]
    constructor
    · intro h
      exact Or.inr h
    · rintro (h | h)
      · subst h
        exact ⟨e, hf, ho, hst⟩
      · exact h
  · rw [setPinOutput_write s p 0 (fun e he hh => hcp ⟨e, he, hh.1, hh.2⟩)]
    by_cases hq : q = p
    · subst hq
      constructor
      · intro _
        exact Or.inl rfl
      · intro _
        exact ⟨_, find_updatePinState _ _ _ hp, rfl, rfl⟩
    · unfold Cached
      dsimp only
      rw [find_updatePinState_ne _ _ _ _ hq]
      constructor
      · intro h
        exact Or.inr h
      · rintro (h | h)
        · exact absurd h hq
        · exact h

theorem writes_setPinOutput_zero (s : State) (p : Nat) :
    ∃ W0, (setPinOutput s p 0).hw.writes = s.hw.writes ++ W0 ∧
      (Cached s p 0 → W0 = []) ∧ (¬ Cached s p 0 → W0 = [(p, 0)]) := by
  by_cases hcp : Cached s p 0
  · obtain ⟨e, hf, ho, hst⟩ := id hcp
    rw [setPinOutput_same s p 0 e hf ho hst]
    exact ⟨[], by simp, fun _ => rfl, fun h => absurd hcp h⟩
  · rw [setPinOutput_write s p 0 (fun e he hh => hcp ⟨e, he, hh.1, hh.2⟩)]
    exact ⟨[(p, 0)], rfl, fun h => absurd h hcp, fun _ => rfl⟩

/-- The requests of state 0 for a list of cached pins, in order: afterwards the
pins are cached with state 0, and the raw writes made are one write of 0 for each
pin of the list that was not cached as claimed with state 0 before. -/
theorem requestAll_off (ps : List Nat) (s : State)
    (hin : ∀ p ∈ ps, p ∈ s.ctl.pinStates.map PinState.pin) :
    (∀ q, Cached (requestAll (ps.map (fun p => (p, 0))) s) q 0 ↔ q ∈ ps ∨ Cached s q 0) ∧
    ∃ W, (requestAll (ps.map (fun p => (p, 0))) s).hw.writes = s.hw.writes ++ W ∧ W.Nodup ∧
      ∀ q v, (q, v) ∈ W ↔ v = 0 ∧ q ∈ ps ∧ ¬ Cached s q 0 := by
  induction ps generalizing s with
  | nil =>
    refine ⟨fun q => by simp [requestAll_nil], [], by simp [requestAll_nil], List.nodup_nil, ?_⟩
    intro q v
    simp
  | cons p ps ih =>
    have hp := hin p (List.mem_cons_self _ _)
    have hpins : (setPinOutput s p 0).ctl.pinStates.map PinState.pin =
        s.ctl.pinStates.map PinState.pin := (setPinOutput_sameTable s p 0).2.2.2.2
    have hin' : ∀ x ∈ ps, x ∈ (setPinOutput s p 0).ctl.pinStates.map PinState.pin := by
      intro x hx
      rw [hpins]
      exact hin x (List.mem_cons_of_mem _ hx)
    obtain ⟨hc, W, hW, hnd, hmem⟩ := ih (setPinOutput s p 0) hin'
    have hstep := cached_setPinOutput_zero s p
    rw [List.map_cons, requestAll_cons]
    dsimp only
    obtain ⟨W0, hW0, hyes, hno⟩ := writes_setPinOutput_zero s p
    refine ⟨fun q => ?_, W0 ++ W, ?_, ?_, ?_⟩
    · rw [hc q, hstep q hp, List.mem_cons]
      tauto
    · rw [hW, hW0, List.append_assoc]
    · by_cases hcp : Cached s p 0
      · rw [hyes hcp]
        simpa using hnd
      · rw [hno hcp]
        refine List.nodup_cons.2 ⟨fun hm => ?_, hnd⟩
        exact ((hmem p 0).1 hm).2.2 ((hstep p hp).2 (Or.inl rfl))
    · intro q v
      rw [List.mem_append, hmem q v, hstep q hp, List.mem_cons]
      by_cases hcp : Cached s p 0
      · rw [hyes hcp]
        constructor
        · rintro (h | ⟨hv, hq, hn⟩)
          · simp at h
          · exact ⟨hv, Or.inr hq, fun h => hn (Or.inr h)⟩
        · rintro ⟨hv, hq | hq, hn⟩
          · subst hq
            exact absurd hcp hn
          · refine Or.inr ⟨hv, hq, ?_⟩
            rintro (h | h)
            · subst h
              exact hn hcp
            · exact hn h
      · rw [hno hcp]
        constructor
        · rintro (h | ⟨hv, hq, hn⟩)
          · simp only [List.mem_singleton, Prod.mk.injEq] at h
            obtain ⟨h1, h2⟩ := h
            subst h1
            exact ⟨h2, Or.inl rfl, hcp⟩
          · exact ⟨hv, Or.inr hq, fun h => hn (Or.inr h)⟩
        · rintro ⟨hv, hq, hn⟩
          by_cases hqp : q = p
          · subst hqp
            left
            simp [hv]
          · right
            rcases hq with hq | hq
            · exact absurd hq hqp
            · refine ⟨hv, hq, ?_⟩
              rintro (h | h)
              · exact hqp h
              · exact hn h

theorem offRequests_eq (cmds : List Char) :
    offRequests cmds = ((subCommands cmds).map commandPin).map (fun p => (p, 0)) := by
  unfold offRequests
  rw [List.map_map]
  rfl

/-- Claim C20. A valid Loop rule that is Active while its gate reads
stable-inactive: `check` is exactly the sequence of requests
`setPinOutput(pin, 0)` for the sub-commands of the stored list in list order,
each with the pin of its sub-command; the rule becomes Idle and done and
`check` returns true. When the cache holds the output pins, every pin named in
the list is afterwards cached as claimed with state 0, and the raw writes of
this evaluation are one write of 0 for each named pin whose cache entry was not
already claimed with state 0, and nothing else. -/
theorem C20_loop_release (env : Nat → Nat → Nat) (r : Rule) (s : State)
    (hc : Compiled r) (hv : r.parsed.valid = true) (hl : r.parsed.isLoop = true)
    (hact : r.parsed.inLoop = true)
    (hg : (readPinStable env s r.parsed.loopPin).1 = false) (hcache : CacheReady s) :
    (r.check env s).1 = { r with done := true, parsed := { r.parsed with inLoop := false } } ∧
    (r.check env s).2.2 = true ∧
    (r.check env s).2.1 =
      requestAll (offRequests r.parsed.loopCommands) (readPinStable env s r.parsed.loopPin).2 ∧
    (r.check env s).2.1.hw.requests = s.hw.requests ++ offRequests r.parsed.loopCommands ∧
    (∀ p ∈ subCommands r.parsed.loopCommands,
      commandPin p ∈ outputs ∧ Cached (r.check env s).2.1 (commandPin p) 0 ∧
      ∀ st, executeLoopCommandOff st p = setPinOutput st (commandPin p) 0) ∧
    ∃ W, (r.check env s).2.1.hw.writes = s.hw.writes ++ W ∧ W.Nodup ∧
      ∀ q v, (q, v) ∈ W ↔
        v = 0 ∧ (∃ p ∈ subCommands r.parsed.loopCommands, commandPin p = q) ∧
          ¬ Cached s q 0 := by
  obtain ⟨hval, hlen, hne, _⟩ := compiled_loop hc hv hl
  have hchk := check_loop_active env r s hv hl hact
  rw [hg, if_neg Bool.false_ne_true] at hchk
  have hoff : Rule.executeLoopCommandsOff { r with parsed := { r.parsed with inLoop := false } }
      (readPinStable env s r.parsed.loopPin).2 =
      requestAll (offRequests r.parsed.loopCommands)
        (readPinStable env s r.parsed.loopPin).2 :=
    executeLoopCommandsOff_eq { r with parsed := { r.parsed with inLoop := false } } _
      hval hlen hne
  have hst : (r.check env s).2.1 =
      requestAll (offRequests r.parsed.loopCommands)
        (readPinStable env s r.parsed.loopPin).2 := by
    rw [hchk]
    exact hoff
  have hin : ∀ p ∈ (subCommands r.parsed.loopCommands).map commandPin,
      p ∈ (readPinStable env s r.parsed.loopPin).2.ctl.pinStates.map PinState.pin := by
    intro p hp
    obtain ⟨c, hcm, rfl⟩ := List.mem_map.1 hp
    rw [readPinStable_ctl, hcache]
    exact commandPin_mem_outputs c (subCommands_valid _ hval c hcm)
  obtain ⟨hcached, W, hW, hnd, hmem⟩ := requestAll_off _ _ hin
  rw [← offRequests_eq, ← hst] at hcached hW
  have hsame : ∀ q, Cached (readPinStable env s r.parsed.loopPin).2 q 0 ↔ Cached s q 0 := by
    intro q
    unfold Cached
    rw [readPinStable_ctl]
  refine ⟨by rw [hchk], by rw [hchk], hst, ?_, fun p hp => ?_, W, ?_, hnd, fun q v => ?_⟩
  · rw [hst, requestAll_requests, readPinStable_requests]
  · have hvp := subCommands_valid _ hval p hp
    exact ⟨commandPin_mem_outputs p hvp,
      (hcached _).2 (Or.inl (List.mem_map_of_mem _ hp)),
      fun st => executeLoopCommandOff_valid st p hvp⟩
  · rw [hW, readPinStable_writes]
  · rw [hmem q v, hsame q, List.mem_map]

/-- The loop `[5:2,1]`, Active after its entry, when pin 5 reads HIGH: the
evaluation returns true and requests pin 2 := 0. -/
theorem C20_loop_release_witness :
    (((compile "[5:2,1]".toList).check (fun _ _ => LOW) (init boot)).1.check
      (fun _ _ => HIGH)
      ((compile "[5:2,1]".toList).check (fun _ _ => LOW) (init boot)).2.1).2.2 = true ∧
    Cached (((compile "[5:2,1]".toList).check (fun _ _ => LOW) (init boot)).1.check
      (fun _ _ => HIGH)
      ((compile "[5:2,1]".toList).check (fun _ _ => LOW) (init boot)).2.1).2.1 2 0 :=
  have h := C20_loop_release (fun _ _ => HIGH)
    ((compile "[5:2,1]".toList).check (fun _ _ => LOW) (init boot)).1
    ((compile "[5:2,1]".toList).check (fun _ _ => LOW) (init boot)).2.1
    ⟨"[5:2,1]".toList, by decide⟩ (by decide) (by decide) (by decide) (by decide)
    (by unfold CacheReady; decide)
  ⟨h.2.1, (h.2.2.2.2.1 "2,1".toList (by decide)).2.1⟩

/-! ## The loop `[5:2,1;2,0]` as the only rule -/

theorem checkRules_one (env : Nat → Nat → Nat) (r : Rule) (rs : List Rule) (s : State) :
    checkRules env 1 (r :: rs) s =
      ((r.check env s).1 :: rs, (r.check env s).2.1, (r.check env s).2.2 || false) := by
  rw [checkRules, checkRules]

theorem check_isSimpleCommand (env : Nat → Nat → Nat) (r : Rule) (s : State) :
    (r.check env s).1.parsed.isSimpleCommand = r.parsed.isSimpleCommand :=
  congrArg (fun x => x.parsed.isSimpleCommand) (check_reset env r s)

/-- One tick of a controller whose only rule is not a SimpleCommand: the rule
is evaluated, and nothing else changes. -/
theorem run_only (env : Nat → Nat → Nat) (r : Rule) (s : State) (h : OnlyRule r s)
    (hs : r.parsed.isSimpleCommand = false) :
    OnlyRule (r.check env s).1 (run env s) ∧ (run env s).hw = (r.check env s).2.1.hw ∧
      (run env s).ctl.pinStates = (r.check env s).2.1.ctl.pinStates := by
  obtain ⟨hi, hc, hcur, hr⟩ := h
  obtain ⟨_, hc', hcur', hi', _⟩ := check_sameTable env r s
  have hsc := check_isSimpleCommand env r s
  cases hrs : s.ctl.rules with
  | nil => rw [hrs] at hr; simp at hr
  | cons r0 rs =>
    rw [hrs] at hr
    simp only [List.head?_cons, Option.some.injEq] at hr
    subst hr
    have hrun : run env s =
        { (r0.check env s).2.1 with
          ctl := { (r0.check env s).2.1.ctl with rules := (r0.check env s).1 :: rs } } := by
      unfold run
      rw [hi, hc, hrs, checkRules_one]
      simp only [Bool.not_true, Bool.false_or, decide_eq_true_eq, OfNat.one_ne_ofNat,
        Nat.one_ne_zero, if_false, Bool.false_eq_true]
      rw [if_neg]
      rintro ⟨_, h2, _⟩
      rw [hcur', hcur, List.getD_cons_zero, hsc, hs] at h2
      exact Bool.false_ne_true h2
    rw [hrun]
    exact ⟨⟨hi'.trans hi, hc'.trans hc, hcur'.trans hcur, rfl⟩, rfl, rfl⟩

theorem cached_unique {s : State} {pin a b : Nat} (ha : Cached s pin a) (hb : Cached s pin b) :
    a = b := by
  obtain ⟨e, he, _, hea⟩ := ha
  obtain ⟨e2, he2, _, heb⟩ := hb
  rw [he] at he2
  cases he2
  exact hea.symm.trans heb

/-- The requests pin 2 := 1 and pin 2 := 0 in a state whose cache holds pin 2
and not as claimed with state 1: both are written, and pin 2 ends as claimed
with state 0. -/
theorem requestAll_on_off (st : State) (hp : 2 ∈ st.ctl.pinStates.map PinState.pin)
    (hn : ¬ Cached st 2 1) :
    (requestAll [(2, 1), (2, 0)] st).hw.writes = st.hw.writes ++ [(2, 1), (2, 0)] ∧
    Cached (requestAll [(2, 1), (2, 0)] st) 2 0 := by
  have h1 := setPinOutput_write st 2 1 (fun e he hh => hn ⟨e, he, hh.1, hh.2⟩)
  have hp1 : 2 ∈ (setPinOutput st 2 1).ctl.pinStates.map PinState.pin := by
    rw [(setPinOutput_sameTable st 2 1).2.2.2.2]
    exact hp
  have hf : (setPinOutput st 2 1).ctl.pinStates.find? (fun e => decide (e.pin = 2)) =
      some { pin := 2, state := 1 % 2, isOutput := true } := by
    rw [h1]
    exact find_updatePinState _ _ _ hp
  have h2 := setPinOutput_write (setPinOutput st 2 1) 2 0 (fun e he hh => by
    rw [hf] at he
    cases he
    exact absurd hh.2 (by decide))
  refine ⟨?_, ?_⟩
  · show (setPinOutput (setPinOutput st 2 1) 2 0).hw.writes = _
    rw [h2]
    show (setPinOutput st 2 1).hw.writes ++ [(2, 0)] = _
    rw [h1]
    simp
  · exact setPinOutput_cached (setPinOutput st 2 1) 2 0 (by decide) hp1

theorem reset_fields {r r0 : Rule} (h : r.reset = r0.reset) :
    r.parsed.valid = r0.parsed.valid ∧ r.parsed.isLoop = r0.parsed.isLoop ∧
    r.parsed.isSimpleCommand = r0.parsed.isSimpleCommand ∧
    r.parsed.loopPin = r0.parsed.loopPin ∧ r.parsed.loopCommands = r0.parsed.loopCommands :=
  ⟨congrArg (fun x => x.parsed.valid) h, congrArg (fun x => x.parsed.isLoop) h,
    congrArg (fun x => x.parsed.isSimpleCommand) h, congrArg (fun x => x.parsed.loopPin) h,
    congrArg (fun x => x.parsed.loopCommands) h⟩

theorem hasAlternatingCommands_congr {r r0 : Rule}
    (h : r.parsed.loopCommands = r0.parsed.loopCommands) :
    r.hasAlternatingCommands = r0.hasAlternatingCommands := by
  unfold Rule.hasAlternatingCommands
  rw [h]

/-- A gated tick of the controller whose only rule was compiled from
`[5:2,1;2,0]`: the rule is Active afterwards, and the tick requested and wrote
pin 2 := 1 and then pin 2 := 0. -/
theorem blink_gated (env : Nat → Nat → Nat) (r : Rule) (s : State)
    (hr : r.reset = (compile "[5:2,1;2,0]".toList).reset) (ho : OnlyRule r s)
    (hcache : CacheReady s) (hn : ¬ Cached s 2 1)
    (hg : (readPinStable env s 5).1 = true) :
    (r.check env s).1.reset = (compile "[5:2,1;2,0]".toList).reset ∧
    (r.check env s).1.parsed.inLoop = true ∧
    OnlyRule (r.check env s).1 (run env s) ∧ CacheReady (run env s) ∧
    Cached (run env s) 2 0 ∧
    (run env s).hw.requests = s.hw.requests ++ [(2, 1), (2, 0)] ∧
    (run env s).hw.writes = s.hw.writes ++ [(2, 1), (2, 0)] := by
  obtain ⟨hv, hl, hsc, hpin, hcmds⟩ := reset_fields hr
  have hv' : r.parsed.valid = true := hv.trans (by decide)
  have hl' : r.parsed.isLoop = true := hl.trans (by decide)
  have hsc' : r.parsed.isSimpleCommand = false := hsc.trans (by decide)
  have hpin' : r.parsed.loopPin = 5 := hpin.trans (by decide)
  have hval : validateLoopScan r.parsed.loopCommands [] = true := by rw [hcmds]; decide
  have hlen : r.parsed.loopCommands.length < MAX_LOOP_COMMANDS := by rw [hcmds]; decide
  have hne : r.parsed.loopCommands ≠ [] := by rw [hcmds]; decide
  have hreq : commandRequests r.parsed.loopCommands = [(2, 1), (2, 0)] := by rw [hcmds]; decide
  have halt : r.hasAlternatingCommands = true :=
    (hasAlternatingCommands_congr hcmds).trans (by decide)
  obtain ⟨ho', hhw, hps⟩ := run_only env r s ho hsc'
  have hst : (r.check env s).2.1 = requestAll [(2, 1), (2, 0)] (readPinStable env s 5).2 ∧
      (r.check env s).1.parsed.inLoop = true := by
    cases hin : r.parsed.inLoop with
    | false =>
      have hchk := check_loop_idle env r s hv' hl' hin
      rw [hpin', hg, if_pos rfl] at hchk
      rw [hchk]
      refine ⟨?_, rfl⟩
      show Rule.executeLoopCommands _ _ = _
      rw [← hreq]
      exact executeLoopCommands_eq { r with parsed := { r.parsed with inLoop := true } } _
        hval hlen hne
    | true =>
      have hchk := check_loop_active env r s hv' hl' hin
      rw [hpin', hg, if_pos rfl, if_pos halt] at hchk
      rw [hchk]
      refine ⟨?_, hin⟩
      show Rule.executeLoopCommands _ _ = _
      rw [← hreq]
      exact executeLoopCommands_eq r _ hval hlen hne
  have hpins : 2 ∈ (readPinStable env s 5).2.ctl.pinStates.map PinState.pin := by
    rw [readPinStable_ctl, hcache]
    decide
  have hn' : ¬ Cached (readPinStable env s 5).2 2 1 := by
    unfold Cached
    rw [readPinStable_ctl]
    exact hn
  obtain ⟨hw, hc0⟩ := requestAll_on_off _ hpins hn'
  rw [← hst.1] at hw hc0
  refine ⟨(check_reset env r s).trans hr, hst.2, ho', ?_, ?_, ?_, ?_⟩
  · unfold CacheReady
    rw [hps, (check_sameTable env r s).2.2.2.2]
    exact hcache
  · unfold Cached
    rw [hps]
    exact hc0
  · rw [hhw, hst.1, requestAll_requests, readPinStable_requests]
  · rw [hhw, hw, readPinStable_writes]

theorem setPinOutput_of_cached (st : State) (p v : Nat) (h : Cached st p v) :
    setPinOutput st p v =
      { st with hw := { st.hw with requests := st.hw.requests ++ [(p, v)] } } := by
  obtain ⟨e, hf, ho, hst⟩ := h
  exact setPinOutput_same st p v e hf ho hst

/-- The tick that releases the loop `[5:2,1;2,0]` when pin 2 is cached as
claimed with state 0: two requests pin 2 := 0, no raw write. -/
theorem blink_release (env : Nat → Nat → Nat) (r : Rule) (s : State)
    (hr : r.reset = (compile "[5:2,1;2,0]".toList).reset) (hact : r.parsed.inLoop = true)
    (ho : OnlyRule r s) (h0 : Cached s 2 0)
    (hg : (readPinStable env s 5).1 = false) :
    (run env s).hw.requests = s.hw.requests ++ [(2, 0), (2, 0)] ∧
    (run env s).hw.writes = s.hw.writes ∧ Cached (run env s) 2 0 ∧
    OnlyRule (r.check env s).1 (run env s) ∧
    (r.check env s).1.parsed.inLoop = false ∧ (r.check env s).1.done = true := by
  obtain ⟨hv, hl, hsc, hpin, hcmds⟩ := reset_fields hr
  have hv' : r.parsed.valid = true := hv.trans (by decide)
  have hl' : r.parsed.isLoop = true := hl.trans (by decide)
  have hsc' : r.parsed.isSimpleCommand = false := hsc.trans (by decide)
  have hpin' : r.parsed.loopPin = 5 := hpin.trans (by decide)
  have hval : validateLoopScan r.parsed.loopCommands [] = true := by rw [hcmds]; decide
  have hlen : r.parsed.loopCommands.length < MAX_LOOP_COMMANDS := by rw [hcmds]; decide
  have hne : r.parsed.loopCommands ≠ [] := by rw [hcmds]; decide
  have hreq : offRequests r.parsed.loopCommands = [(2, 0), (2, 0)] := by rw [hcmds]; decide
  obtain ⟨ho', hhw, hps⟩ := run_only env r s ho hsc'
  have hchk := check_loop_active env r s hv' hl' hact
  rw [hpin', hg, if_neg Bool.false_ne_true] at hchk
  have hoff : Rule.executeLoopCommandsOff { r with parsed := { r.parsed with inLoop := false } }
      (readPinStable env s 5).2 = requestAll [(2, 0), (2, 0)] (readPinStable env s 5).2 := by
    rw [← hreq]
    exact executeLoopCommandsOff_eq { r with parsed := { r.parsed with inLoop := false } } _
      hval hlen hne
  have hc1 : Cached (readPinStable env s 5).2 2 0 := by
    unfold Cached
    rw [readPinStable_ctl]
    exact h0
  have hstep1 := setPinOutput_of_cached (readPinStable env s 5).2 2 0 hc1
  have hc2 : Cached (setPinOutput (readPinStable env s 5).2 2 0) 2 0 := by
    rw [hstep1]
    exact hc1
  have hstep2 := setPinOutput_of_cached _ 2 0 hc2
  have hst : (r.check env s).2.1 =
      setPinOutput (setPinOutput (readPinStable env s 5).2 2 0) 2 0 := by
    rw [hchk]
    exact hoff
  refine ⟨?_, ?_, ?_, ho', by rw [hchk], by rw [hchk]⟩
  · rw [hhw, hst, setPinOutput_requests, setPinOutput_requests, readPinStable_requests]
    simp
  · rw [hhw, hst, hstep2]
    show (setPinOutput (readPinStable env s 5).2 2 0).hw.writes = _
    rw [hstep1]
    exact readPinStable_writes env s 5
  · unfold Cached
    rw [hps, hst, hstep2]
    exact hc2

/-- Any number of gated ticks of the Active loop `[5:2,1;2,0]`: each requests
and writes pin 2 := 1 and then pin 2 := 0. -/
theorem blink_ticks (envs : List (Nat → Nat → Nat)) (r : Rule) (s : State)
    (hr : r.reset = (compile "[5:2,1;2,0]".toList).reset) (hact : r.parsed.inLoop = true)
    (ho : OnlyRule r s) (hcache : CacheReady s) (h0 : Cached s 2 0)
    (hg : GatedTicks 5 envs s) :
    ∃ r2, r2.reset = (compile "[5:2,1;2,0]".toList).reset ∧ r2.parsed.inLoop = true ∧
      OnlyRule r2 (exec (envs.map Call.tick) s) ∧ CacheReady (exec (envs.map Call.tick) s) ∧
      Cached (exec (envs.map Call.tick) s) 2 0 ∧
      (exec (envs.map Call.tick) s).hw.requests =
        s.hw.requests ++ (List.replicate envs.length [(2, 1), (2, 0)]).flatten ∧
      (exec (envs.map Call.tick) s).hw.writes =
        s.hw.writes ++ (List.replicate envs.length [(2, 1), (2, 0)]).flatten := by
  induction envs generalizing r s with
  | nil => exact ⟨r, hr, hact, ho, hcache, h0, by simp [exec], by simp [exec]⟩
  | cons env envs ih =>
    obtain ⟨hg1, hg2⟩ := hg
    obtain ⟨hr1, hact1, ho1, hcache1, h01, hreq1, hw1⟩ :=
      blink_gated env r s hr ho hcache (fun h1 => absurd (cached_unique h0 h1) (by decide)) hg1
    obtain ⟨r2, hr2, hact2, ho2, hcache2, h02, hreq2, hw2⟩ :=
      ih (r.check env s).1 (run env s) hr1 hact1 ho1 hcache1 h01 hg2
    refine ⟨r2, hr2, hact2, ho2, hcache2, h02, ?_, ?_⟩
    · show (exec (envs.map Call.tick) (run env s)).hw.requests = _
      rw [hreq2, hreq1, List.length_cons, List.replicate_succ, List.flatten_cons,
        List.append_assoc]
    · show (exec (envs.map Call.tick) (run env s)).hw.writes = _
      rw [hw2, hw1, List.length_cons, List.replicate_succ, List.flatten_cons,
        List.append_assoc]
/-- Claim C14 as stated fails. With `[5:2,1;2,0]` as the only rule, one tick
with pin 5 reading LOW enters the loop and writes pin 2 to 1 and then to 0; on
the next tick, with pin 5 reading HIGH, the loop is released and no raw write
happens at all, so there is not exactly one write of 0 to pin 2. -/
theorem C14_counterexample :
    GatedTicks 5 [fun _ _ => LOW] (exec [Call.register "[5:2,1;2,0]".toList] (init boot)) ∧
    (exec [Call.register "[5:2,1;2,0]".toList, Call.tick (fun _ _ => LOW)]
      (init boot)).hw.writes = [(2, 1), (2, 0)] ∧
    (readPinStable (fun _ _ => HIGH)
      (exec [Call.register "[5:2,1;2,0]".toList, Call.tick (fun _ _ => LOW)]
        (init boot)) 5).1 = false ∧
    tickWrites (fun _ _ => HIGH)
      (exec [Call.register "[5:2,1;2,0]".toList, Call.tick (fun _ _ => LOW)]
        (init boot)) = [] ∧
    ¬ ((tickWrites (fun _ _ => HIGH)
      (exec [Call.register "[5:2,1;2,0]".toList, Call.tick (fun _ _ => LOW)]
        (init boot))).filter (fun w => decide (w.1 = 2)) = [(2, 0)]) := by
  refine ⟨⟨by decide, trivial⟩, by decide, by decide, by decide, by decide⟩

/-- Claim C14, amended. With `[5:2,1;2,0]` registered as the only rule, after
the gate (pin 5) has read active for one or more ticks: every gated tick
requested and wrote pin 2 := 1 and then pin 2 := 0, so the last raw write is
pin 2 := 0 and pin 2 is cached as claimed with state 0; the tick on which the
gate reads inactive issues the two requests pin 2 := 0 of the off list and
performs no raw write, pin 2 stays cached with state 0, and the rule is Idle
and done. -/
theorem C14_release_after_refire (envs : List (Nat → Nat → Nat)) (env : Nat → Nat → Nat)
    (s : State)
    (hs : s = exec (Call.register "[5:2,1;2,0]".toList :: envs.map Call.tick) (init boot))
    (hne : envs ≠ [])
    (hg : GatedTicks 5 envs (exec [Call.register "[5:2,1;2,0]".toList] (init boot)))
    (hrel : (readPinStable env s 5).1 = false) :
    s.hw.requests = (List.replicate envs.length [(2, 1), (2, 0)]).flatten ∧
    s.hw.writes = (List.replicate envs.length [(2, 1), (2, 0)]).flatten ∧
    s.hw.writes.getLast? = some (2, 0) ∧
    Cached s 2 0 ∧
    tickRequests env s = [(2, 0), (2, 0)] ∧
    tickWrites env s = [] ∧
    Cached (run env s) 2 0 ∧
    ∃ r, OnlyRule r (run env s) ∧ r.parsed.inLoop = false ∧ r.done = true := by
  cases envs with
  | nil => exact absurd rfl hne
  | cons e1 envs =>
    obtain ⟨hg1, hg2⟩ := hg
    have hs0 : s = exec (envs.map Call.tick)
        (run e1 (exec [Call.register "[5:2,1;2,0]".toList] (init boot))) := hs
    have hn : ¬ Cached (exec [Call.register "[5:2,1;2,0]".toList] (init boot)) 2 1 := by
      rintro ⟨e, he, ho, _⟩
      have hf : (exec [Call.register "[5:2,1;2,0]".toList] (init boot)).ctl.pinStates.find?
          (fun e => decide (e.pin = 2)) = some { pin := 2, state := 0, isOutput := false } := by
        decide
      rw [hf] at he
      cases he
      exact Bool.false_ne_true ho
    obtain ⟨hr1, hact1, ho1, hcache1, h01, hreq1, hw1⟩ :=
      blink_gated e1 (compile "[5:2,1;2,0]".toList)
        (exec [Call.register "[5:2,1;2,0]".toList] (init boot)) rfl
        ⟨by decide, by decide, by decide, by decide⟩ (by unfold CacheReady; decide) hn hg1
    obtain ⟨r2, hr2, hact2, ho2, hcache2, h02, hreq2, hw2⟩ :=
      blink_ticks envs _ _ hr1 hact1 ho1 hcache1 h01 hg2
    rw [← hs0] at ho2 hcache2 h02 hreq2 hw2
    obtain ⟨hq, hw, hc, ho3, hin3, hd3⟩ := blink_release env r2 s hr2 hact2 ho2 h02 hrel
    have hreqs : s.hw.requests =
        (List.replicate (e1 :: envs).length [(2, 1), (2, 0)]).flatten := by
      rw [hreq2, hreq1, List.length_cons, List.replicate_succ, List.flatten_cons]
      rfl
    have hwrites : s.hw.writes =
        (List.replicate (e1 :: envs).length [(2, 1), (2, 0)]).flatten := by
      rw [hw2, hw1, List.length_cons, List.replicate_succ, List.flatten_cons]
      rfl
    refine ⟨hreqs, hwrites, ?_, h02, ?_, ?_, hc, _, ho3, hin3, hd3⟩
    · rw [hwrites, List.length_cons, List.replicate_succ', List.flatten_append]
      simp
    · unfold tickRequests
      rw [hq]
      simp
    · unfold tickWrites
      rw [hw]
      simp

/-- One gated tick and then the release tick of `[5:2,1;2,0]`: the release
issues two requests pin 2 := 0 and writes nothing. -/
theorem C14_release_after_refire_witness :
    tickRequests (fun _ _ => HIGH)
      (exec [Call.register "[5:2,1;2,0]".toList, Call.tick (fun _ _ => LOW)]
        (init boot)) = [(2, 0), (2, 0)] ∧
    tickWrites (fun _ _ => HIGH)
      (exec [Call.register "[5:2,1;2,0]".toList, Call.tick (fun _ _ => LOW)]
        (init boot)) = [] :=
  have h := C14_release_after_refire [fun _ _ => LOW] (fun _ _ => HIGH)
    (exec [Call.register "[5:2,1;2,0]".toList, Call.tick (fun _ _ => LOW)] (init boot))
    rfl (by simp) ⟨by decide, trivial⟩ (by decide)
  ⟨h.2.2.2.2.1, h.2.2.2.2.2.1⟩

/-! ## One tick -/

theorem checkRules_zero (env : Nat → Nat → Nat) (rs : List Rule) (s : State) :
    checkRules env 0 rs s = (rs, s, false) := by
  rw [checkRules]

theorem checkRules_succ (env : Nat → Nat → Nat) (n : Nat) (r : Rule) (rs : List Rule)
    (s : State) :
    checkRules env (n + 1) (r :: rs) s =
      ((r.check env s).1 :: (checkRules env n rs (r.check env s).2.1).1,
        (checkRules env n rs (r.check env s).2.1).2.1,
        (r.check env s).2.2 || (checkRules env n rs (r.check env s).2.1).2.2) := by
  rw [checkRules]

theorem evalAt_append (env : Nat → Nat → Nat) (pre : List Rule) (r : Rule) (rs : List Rule)
    (s : State) :
    evalAt env (pre ++ r :: rs, s) pre.length =
      ((pre ++ [(r.check env s).1]) ++ rs, (r.check env s).2.1) := by
  unfold evalAt
  have hg : (pre ++ r :: rs).getD pre.length Rule.new = r := by
    rw [List.getD_eq_getElem?_getD, List.getElem?_append_right (le_refl _)]
    simp
  dsimp only
  rw [hg]
  congr 1
  simp

/-- The loop of `run` over the rules, as the loop over their indices. -/
theorem checkRules_fold (env : Nat → Nat → Nat) (n : Nat) (pre rs : List Rule) (s : State)
    (hn : n ≤ rs.length) :
    (List.range' pre.length n).foldl (evalAt env) (pre ++ rs, s) =
      (pre ++ (checkRules env n rs s).1, (checkRules env n rs s).2.1) := by
  induction n generalizing pre rs s with
  | zero =>
    rw [checkRules_zero]
    rfl
  | succ n ih =>
    cases rs with
    | nil => simp at hn
    | cons r rs =>
      rw [List.range'_succ, List.foldl_cons, evalAt_append, checkRules_succ]
      have hl : (pre ++ [(r.check env s).1]).length = pre.length + 1 := by simp
      rw [← hl, ih _ _ _ (by simpa using hn)]
      simp

theorem checkRules_evalPass (env : Nat → Nat → Nat) (s : State)
    (h : s.ctl.count ≤ s.ctl.rules.length) :
    evalPass env s =
      ((checkRules env s.ctl.count s.ctl.rules s).1,
        (checkRules env s.ctl.count s.ctl.rules s).2.1) := by
  have := checkRules_fold env s.ctl.count [] s.ctl.rules s h
  simp only [List.length_nil, List.nil_append] at this
  unfold evalPass
  rw [List.range_eq_range']
  exact this

theorem evalAt_getD_ne (env : Nat → Nat → Nat) (st : List Rule × State) (i j : Nat) (d : Rule)
    (h : i ≠ j) : (evalAt env st i).1.getD j d = st.1.getD j d := by
  unfold evalAt
  exact getD_set_ne _ _ _ _ _ h

theorem evalAt_length (env : Nat → Nat → Nat) (st : List Rule × State) (i : Nat) :
    (evalAt env st i).1.length = st.1.length := by
  unfold evalAt
  simp

theorem evalUpTo_succ (env : Nat → Nat → Nat) (s : State) (k : Nat) :
    evalUpTo env s (k + 1) = evalAt env (evalUpTo env s k) k := by
  unfold evalUpTo
  rw [List.range_succ, List.foldl_append]
  rfl

theorem evalUpTo_length (env : Nat → Nat → Nat) (s : State) (k : Nat) :
    (evalUpTo env s k).1.length = s.ctl.rules.length := by
  induction k with
  | zero => rfl
  | succ k ih => rw [evalUpTo_succ, evalAt_length, ih]

/-- Before its turn a rule is as the tick found it. -/
theorem evalUpTo_getD_ge (env : Nat → Nat → Nat) (s : State) (k j : Nat) (d : Rule)
    (h : k ≤ j) : (evalUpTo env s k).1.getD j d = s.ctl.rules.getD j d := by
  induction k with
  | zero => rfl
  | succ k ih => rw [evalUpTo_succ, evalAt_getD_ne _ _ _ _ _ (by omega), ih (by omega)]

theorem fold_range'_getD_lt (env : Nat → Nat → Nat) (m k j : Nat) (d : Rule)
    (st : List Rule × State) (h : j < k) :
    ((List.range' k m).foldl (evalAt env) st).1.getD j d = st.1.getD j d := by
  induction m generalizing k st with
  | zero => rfl
  | succ m ih =>
    rw [List.range'_succ, List.foldl_cons, ih (k + 1) _ (by omega),
      evalAt_getD_ne _ _ _ _ _ (by omega)]

theorem evalPass_split (env : Nat → Nat → Nat) (s : State) (k : Nat) (h : k ≤ s.ctl.count) :
    evalPass env s =
      (List.range' k (s.ctl.count - k)).foldl (evalAt env) (evalUpTo env s k) := by
  unfold evalPass evalUpTo
  rw [← List.foldl_append]
  congr 1
  rw [List.range_eq_range', List.range_eq_range']
  have := List.range'_append 0 k (s.ctl.count - k) 1
  simp only [Nat.zero_add, Nat.one_mul] at this
  rw [this]
  congr 1
  omega

/-- After the pass a registered rule is the result of its one `check`, made on
the rule as the tick found it, in the state left by the rules before it. -/
theorem evalPass_getD_lt (env : Nat → Nat → Nat) (s : State) (i : Nat)
    (hi : i < s.ctl.count) (hlen : s.ctl.count ≤ s.ctl.rules.length) :
    (evalPass env s).1.getD i Rule.new =
      ((s.ctl.rules.getD i Rule.new).check env (evalUpTo env s i).2).1 := by
  rw [evalPass_split env s (i + 1) hi, fold_range'_getD_lt _ _ _ _ _ _ (Nat.lt_succ_self i),
    evalUpTo_succ]
  unfold evalAt
  rw [getD_set_self _ _ _ _ (by rw [evalUpTo_length]; omega), evalUpTo_getD_ge _ _ _ _ _ (le_refl i)]

/-- The method `run` on an initialised controller with a rule and the cursor
on a registered rule: the pass, then the three cases of the cursor. -/
theorem run_cases (env : Nat → Nat → Nat) (s : State) (hi : s.ctl.initialized = true)
    (hc : 0 < s.ctl.count) (hcur : s.ctl.currentRule < s.ctl.count)
    (hlen : s.ctl.count ≤ s.ctl.rules.length) :
    run env s =
      if ((evalPass env s).1.getD s.ctl.currentRule Rule.new).parsed.isSimpleCommand = true ∧
          ((evalPass env s).1.getD s.ctl.currentRule Rule.new).done = true then
        if s.ctl.count ≤ s.ctl.currentRule + 1 then
          { (evalPass env s).2 with ctl := { (evalPass env s).2.ctl with
              currentRule := 0,
              rules := mapFirst (fun r => if r.parsed.isSimpleCommand then r.reset else r)
                s.ctl.count (evalPass env s).1 } }
        else
          { (evalPass env s).2 with ctl := { (evalPass env s).2.ctl with
              rules := (evalPass env s).1, currentRule := s.ctl.currentRule + 1 } }
      else
        { (evalPass env s).2 with ctl := { (evalPass env s).2.ctl with
            rules := (evalPass env s).1 } } := by
  have hE := checkRules_evalPass env s hlen
  have h1 : (evalPass env s).1 = (checkRules env s.ctl.count s.ctl.rules s).1 :=
    congrArg Prod.fst hE
  have h2 : (evalPass env s).2 = (checkRules env s.ctl.count s.ctl.rules s).2.1 :=
    congrArg Prod.snd hE
  obtain ⟨_, hc', hcur', _, _⟩ := checkRules_sameTable env s.ctl.count s.ctl.rules s
  rw [h1, h2]
  unfold run
  have hinit : ¬ ((!s.ctl.initialized || decide (s.ctl.count = 0)) = true) := by
    rw [hi]
    simp
    omega
  rw [if_neg hinit]
  dsimp only
  rw [hcur', hc']
  by_cases hcond : ((checkRules env s.ctl.count s.ctl.rules s).1.getD s.ctl.currentRule
      Rule.new).parsed.isSimpleCommand = true ∧
      ((checkRules env s.ctl.count s.ctl.rules s).1.getD s.ctl.currentRule Rule.new).done = true
  · rw [if_pos ⟨hcur, hcond⟩, if_pos hcond]
  · rw [if_neg (fun h => hcond h.2), if_neg hcond]

/-- Claim C18. One tick of an initialised controller (a state reached from
initialisation) with at least one rule. First the pass: the rules at the
indices 0, 1, ..., count - 1 are checked in this order, each once, on the rule as
the tick found it and in the state left by the rules before it, whatever the
kind of the rule and wherever the cursor is; rules beyond the count are not
touched. Then the cursor: if the rule at the cursor is a SimpleCommand that is
done, the cursor advances by one, and if it reaches the count it wraps to 0 and
exactly the SimpleCommand rules below the count are reset; otherwise cursor and
rules are as the pass left them. Hardware and output cache are as the pass left
them in every case. -/
theorem C18_tick (env : Nat → Nat → Nat) (s : State) (hs : Reachable s)
    (hc : 0 < s.ctl.count) :
    evalPass env s = evalUpTo env s s.ctl.count ∧
    (∀ i, (evalUpTo env s (i + 1)).2 =
      ((s.ctl.rules.getD i Rule.new).check env (evalUpTo env s i).2).2.1) ∧
    (∀ i, i < s.ctl.count → (evalPass env s).1.getD i Rule.new =
      ((s.ctl.rules.getD i Rule.new).check env (evalUpTo env s i).2).1) ∧
    (∀ i, s.ctl.count ≤ i →
      (evalPass env s).1.getD i Rule.new = s.ctl.rules.getD i Rule.new) ∧
    (run env s).hw = (evalPass env s).2.hw ∧
    (run env s).ctl.pinStates = (evalPass env s).2.ctl.pinStates ∧
    (run env s).ctl.count = s.ctl.count ∧
    (((evalPass env s).1.getD s.ctl.currentRule Rule.new).parsed.isSimpleCommand = true →
      ((evalPass env s).1.getD s.ctl.currentRule Rule.new).done = true →
      s.ctl.currentRule + 1 < s.ctl.count →
      (run env s).ctl.currentRule = s.ctl.currentRule + 1 ∧
      (run env s).ctl.rules = (evalPass env s).1) ∧
    (((evalPass env s).1.getD s.ctl.currentRule Rule.new).parsed.isSimpleCommand = true →
      ((evalPass env s).1.getD s.ctl.currentRule Rule.new).done = true →
      s.ctl.count ≤ s.ctl.currentRule + 1 →
      (run env s).ctl.currentRule = 0 ∧
      ∀ i, (run env s).ctl.rules.getD i Rule.new =
        if i < s.ctl.count ∧
            ((evalPass env s).1.getD i Rule.new).parsed.isSimpleCommand = true then
          ((evalPass env s).1.getD i Rule.new).reset
        else (evalPass env s).1.getD i Rule.new) ∧
    (¬ (((evalPass env s).1.getD s.ctl.currentRule Rule.new).parsed.isSimpleCommand = true ∧
        ((evalPass env s).1.getD s.ctl.currentRule Rule.new).done = true) →
      (run env s).ctl.currentRule = s.ctl.currentRule ∧
      (run env s).ctl.rules = (evalPass env s).1) := by
  have hinv := hs.inv
  have hlen : s.ctl.count ≤ s.ctl.rules.length := by
    rw [hinv.length]
    exact hinv.count_le
  have hcur : s.ctl.currentRule < s.ctl.count := by
    rcases hinv.cursor with h | h
    · rw [h]
      exact hc
    · exact h
  have hrun := run_cases env s hinv.initialized hc hcur hlen
  have hE := checkRules_evalPass env s hlen
  have h1 : (evalPass env s).1 = (checkRules env s.ctl.count s.ctl.rules s).1 :=
    congrArg Prod.fst hE
  have h2 : (evalPass env s).2 = (checkRules env s.ctl.count s.ctl.rules s).2.1 :=
    congrArg Prod.snd hE
  obtain ⟨_, hc', hcur', _, _⟩ := checkRules_sameTable env s.ctl.count s.ctl.rules s
  rw [← h2] at hc' hcur'
  have hplen : (evalPass env s).1.length = s.ctl.rules.length := by
    rw [h1, checkRules_length]
  refine ⟨rfl, fun i => ?_, fun i hi => evalPass_getD_lt env s i hi hlen, fun i hi => ?_,
    ?_, ?_, ?_, fun h1 h2 h3 => ?_, fun h1 h2 h3 => ?_, fun h => ?_⟩
  · rw [evalUpTo_succ]
    unfold evalAt
    rw [evalUpTo_getD_ge _ _ _ _ _ (le_refl i)]
  · rw [h1]
    exact checkRules_getD_ge _ _ _ _ _ _ hi
  · rw [hrun]
    split_ifs <;> rfl
  · rw [hrun]
    split_ifs <;> rfl
  · rw [hrun]
    split_ifs <;> exact hc'
  · rw [hrun, if_pos ⟨h1, h2⟩, if_neg (by omega)]
    exact ⟨rfl, rfl⟩
  · rw [hrun, if_pos ⟨h1, h2⟩, if_pos h3]
    refine ⟨rfl, fun i => ?_⟩
    show (mapFirst _ s.ctl.count (evalPass env s).1).getD i Rule.new = _
    by_cases hi : i < s.ctl.count
    · rw [mapFirst_getD_lt _ _ _ _ _ hi (by rw [hplen]; omega)]
      by_cases hsc : ((evalPass env s).1.getD i Rule.new).parsed.isSimpleCommand = true
      · rw [if_pos hsc, if_pos ⟨hi, hsc⟩]
      · rw [if_neg hsc, if_neg (fun h => hsc h.2)]
    · rw [mapFirst_getD_ge _ _ _ _ _ (by omega), if_neg (fun h => hi h.1)]
  · rw [hrun, if_neg h]
    exact ⟨hcur', rfl⟩

/-- Two SimpleCommands `2,1` and `4,1`: the first tick evaluates both and moves
the cursor from 0 to 1. -/
theorem C18_tick_witness :
    (run (fun _ _ => LOW)
      (exec [Call.register "2,1".toList, Call.register "4,1".toList]
        (init boot))).ctl.currentRule =
      (exec [Call.register "2,1".toList, Call.register "4,1".toList]
        (init boot)).ctl.currentRule + 1 ∧
    (run (fun _ _ => LOW)
      (exec [Call.register "2,1".toList, Call.register "4,1".toList] (init boot))).ctl.rules =
      (evalPass (fun _ _ => LOW)
        (exec [Call.register "2,1".toList, Call.register "4,1".toList] (init boot))).1 :=
  (C18_tick (fun _ _ => LOW)
    (exec [Call.register "2,1".toList, Call.register "4,1".toList] (init boot))
    ⟨_, rfl⟩ (by decide)).2.2.2.2.2.2.2.1 (by decide) (by decide) (by decide)

/-! ## Registered rules are compiled rules -/

theorem Registered.carry {s s' : State} (h : Registered s)
    (hc : s'.ctl.count = s.ctl.count)
    (hr : ∀ i, (s'.ctl.rules.getD i Rule.new).reset = (s.ctl.rules.getD i Rule.new).reset) :
    Registered s' := by
  intro i hi
  obtain ⟨text, ht⟩ := h i (hc ▸ hi)
  exact ⟨text, (hr i).trans ht⟩

theorem run_count (env : Nat → Nat → Nat) (s : State) : (run env s).ctl.count = s.ctl.count := by
  have h2 := (checkRules_sameTable env s.ctl.count s.ctl.rules s).2.1
  unfold run
  dsimp only
  split_ifs
  · rfl
  · exact h2
  · exact h2
  · exact h2

theorem run_getD_reset (env : Nat → Nat → Nat) (s : State) (i : Nat) :
    ((run env s).ctl.rules.getD i Rule.new).reset = (s.ctl.rules.getD i Rule.new).reset := by
  unfold run
  dsimp only
  split_ifs
  · rfl
  · refine (mapFirst_getD_reset _ ?_ _ _ _ _).trans (checkRules_getD_reset _ _ _ _ _ _)
    intro r
    split <;> rfl
  · exact checkRules_getD_reset _ _ _ _ _ _
  · exact checkRules_getD_reset _ _ _ _ _ _

theorem Registered.afterRun {s : State} (h : Registered s) (env : Nat → Nat → Nat) :
    Registered (run env s) :=
  h.carry (run_count env s) (run_getD_reset env s)

theorem Registered.afterReset {s : State} (h : Registered s) : Registered (EgLang.reset s) :=
  h.carry rfl
    (fun i => mapFirst_getD_reset Rule.reset (fun _ => rfl) s.ctl.count s.ctl.rules i Rule.new)

theorem Registered.afterShutdown {s : State} (h : Registered s) : Registered (EgLang.shutdown s) :=
  h.afterReset.carry rfl (fun _ => rfl)

theorem Registered.afterAdd {s : State} (h : Registered s) (hi : Inv s) (text : List Char) :
    Registered (add s text).1 := by
  by_cases hc : MAX_RULES ≤ s.ctl.count
  · rw [add_full hi.initialized hc]
    exact h
  · have hc' : s.ctl.count < MAX_RULES := Nat.lt_of_not_le hc
    have hlen : s.ctl.count < s.ctl.rules.length := by rw [hi.length]; exact hc'
    obtain ⟨hinv, hdone⟩ := hi.fresh_above _ (Nat.le_refl s.ctl.count)
    cases hv : ((s.ctl.rules.getD s.ctl.count Rule.new).setRule text).parsed.valid with
    | true =>
      rw [add_valid hi.initialized hc' text hv]
      intro i hlt
      have hlt' : i < s.ctl.count + 1 := hlt
      show Compiled ((s.ctl.rules.set _ _).getD i Rule.new)
      by_cases hic : s.ctl.count = i
      · subst hic
        rw [getD_set_self _ _ _ _ hlen]
        have hne : text ≠ [] := by
          intro he
          rw [he] at hv
          have : (s.ctl.rules.getD s.ctl.count Rule.new).setRule [] =
              s.ctl.rules.getD s.ctl.count Rule.new := by
            unfold Rule.setRule
            rw [if_pos rfl]
          rw [this, hinv] at hv
          exact Bool.false_ne_true hv
        rw [setRule_eq_compile _ hdone text hne]
        exact compiled_compile text
      · rw [getD_set_ne _ _ _ _ _ hic]
        exact h i (by omega)
    | false =>
      rw [add_invalid hi.initialized hc' text hv]
      intro i hlt
      have hlt' : i < s.ctl.count := hlt
      show Compiled ((s.ctl.rules.set _ _).getD i Rule.new)
      rw [getD_set_ne _ _ _ _ _ (by omega)]
      exact h i hlt'

theorem Registered.afterCall {s : State} (h : Registered s) (hi : Inv s) (c : Call) :
    Registered (c.apply s) := by
  cases c with
  | register text => exact h.afterAdd hi text
  | tick env => exact h.afterRun env
  | reset => exact h.afterReset
  | shutdown => exact h.afterShutdown
  | setOutput pin state =>
    obtain ⟨h1, h2, _⟩ := setPinOutput_sameTable s pin state
    exact h.carry h2 (fun i => by
      show ((setPinOutput s pin state).ctl.rules.getD i Rule.new).reset = _
      rw [h1])

theorem Registered.afterCalls {s : State} (h : Registered s) (hi : Inv s) (calls : List Call) :
    Registered (exec calls s) := by
  induction calls generalizing s with
  | nil => exact h
  | cons c cs ih => exact ih (h.afterCall hi c) (hi.apply c)

/-- In every state reached from initialisation the registered rules are
compiled rules. -/
theorem Reachable.registered {s : State} (h : Reachable s) : Registered s := by
  obtain ⟨calls, rfl⟩ := h
  exact Registered.afterCalls (fun i hi => absurd hi (Nat.not_lt_zero i)) inv_init_boot calls

/-! ## The requests of a tick -/

theorem outView_setPinOutput {s t : State} (h : outView s = outView t) (pin state : Nat) :
    outView (setPinOutput s pin state) = outView (setPinOutput t pin state) := by
  rcases s with ⟨⟨r1, c1, k1, i1, p1⟩, ⟨m1, w1, g1, q1, d1⟩⟩
  rcases t with ⟨⟨r2, c2, k2, i2, p2⟩, ⟨m2, w2, g2, q2, d2⟩⟩
  simp only [outView, Prod.mk.injEq] at h
  obtain ⟨rfl, rfl, rfl, rfl, rfl⟩ := h
  unfold setPinOutput
  dsimp only
  cases p1.find? (fun e => decide (e.pin = pin)) with
  | none => rfl
  | some e =>
    dsimp only
    by_cases hc : e.isOutput = true ∧ e.state = state
    · rw [if_pos hc, if_pos hc]
      rfl
    · rw [if_neg hc, if_neg hc]
      rfl

theorem outView_requestAll {s t : State} (h : outView s = outView t)
    (reqs : List (Nat × Nat)) : outView (requestAll reqs s) = outView (requestAll reqs t) := by
  induction reqs generalizing s t with
  | nil => exact h
  | cons q qs ih =>
    rw [requestAll_cons, requestAll_cons]
    exact ih (outView_setPinOutput h q.1 q.2)

theorem requestAll_append (a b : List (Nat × Nat)) (s : State) :
    requestAll (a ++ b) s = requestAll b (requestAll a s) := by
  unfold requestAll
  rw [List.foldl_append]

theorem issued_nil {s s' : State} (h : outView s' = outView s) : Issued [] s s' := h

theorem Issued.append {a b : List (Nat × Nat)} {s t u : State} (h1 : Issued a s t)
    (h2 : Issued b t u) : Issued (a ++ b) s u := by
  unfold Issued at h1 h2 ⊢
  rw [h2, requestAll_append]
  exact outView_requestAll h1 b

theorem issued_of_view {reqs : List (Nat × Nat)} {s t : State} (h : outView t = outView s) :
    Issued reqs s (requestAll reqs t) :=
  outView_requestAll h reqs

theorem outView_readPinStable (env : Nat → Nat → Nat) (s : State) (pin : Nat) :
    outView (readPinStable env s pin).2 = outView s := by
  rw [readPinStable_state]
  rfl

theorem outView_afterConditionReads (env : Nat → Nat → Nat) (r : Rule) (s : State) :
    outView (afterConditionReads env r s) = outView s := by
  rw [afterConditionReads_eq]
  rfl

/-- A valid compiled rule is a loop, a SimpleCommand or a continuous
condition. -/
theorem compiled_kind {r : Rule} (hc : Compiled r) (hv : r.parsed.valid = true) :
    r.parsed.isLoop = true ∨
    (r.parsed.isLoop = false ∧ r.parsed.isSimpleCommand = true) ∨
    (r.parsed.isLoop = false ∧ r.parsed.isSimpleCommand = false ∧
      r.parsed.isContinuous = true) := by
  obtain ⟨t, h⟩ := compiled_parsed hc hv
  cases h with
  | loop colon shape ok eq =>
    exact Or.inl (congrArg (fun x => x.isLoop) eq)
  | cond excl ac comma shape first act noAmp ok eq =>
    exact Or.inr (Or.inr ⟨congrArg (fun x => x.isLoop) eq,
      congrArg (fun x => x.isSimpleCommand) eq, congrArg (fun x => x.isContinuous) eq⟩)
  | and excl ac amp comma1 comma2 shape first act hamp ok eq =>
    exact Or.inr (Or.inr ⟨congrArg (fun x => x.isLoop) eq,
      congrArg (fun x => x.isSimpleCommand) eq, congrArg (fun x => x.isContinuous) eq⟩)
  | simple comma shape first ok eq =>
    exact Or.inr (Or.inl ⟨congrArg (fun x => x.isLoop) eq,
      congrArg (fun x => x.isSimpleCommand) eq⟩)

theorem commandRequests_ok (cmds : List Char) (hval : validateLoopScan cmds [] = true) :
    ∀ q ∈ commandRequests cmds, q.1 ∈ outputs ∧ q.2 ≤ 1 := by
  intro q hq
  unfold commandRequests at hq
  obtain ⟨p, hp, rfl⟩ := List.mem_map.1 hq
  exact ⟨commandPin_mem_outputs p (subCommands_valid _ hval p hp), commandState_le p⟩

theorem offRequests_ok (cmds : List Char) (hval : validateLoopScan cmds [] = true) :
    ∀ q ∈ offRequests cmds, q.1 ∈ outputs ∧ q.2 ≤ 1 := by
  intro q hq
  unfold offRequests at hq
  obtain ⟨p, hp, rfl⟩ := List.mem_map.1 hq
  exact ⟨commandPin_mem_outputs p (subCommands_valid _ hval p hp), Nat.zero_le 1⟩

/-- One `check` of a compiled rule acts on the output side through requests
for output pins with states 0 or 1 only. -/
theorem check_issued (env : Nat → Nat → Nat) (r : Rule) (s : State) (hc : Compiled r) :
    ∃ reqs, Issued reqs s (r.check env s).2.1 ∧ ∀ q ∈ reqs, q.1 ∈ outputs ∧ q.2 ≤ 1 := by
  cases hv : r.parsed.valid with
  | false =>
    have hchk : r.check env s = (r, s, false) := by
      unfold Rule.check
      simp [hv]
    rw [hchk]
    exact ⟨[], rfl, by simp⟩
  | true =>
    rcases compiled_kind hc hv with hl | ⟨hl, hs⟩ | ⟨hl, hs, hk⟩
    · obtain ⟨hval, hlen, hne, _⟩ := compiled_loop hc hv hl
      cases hin : r.parsed.inLoop with
      | false =>
        rw [check_loop_idle env r s hv hl hin]
        by_cases hg : (readPinStable env s r.parsed.loopPin).1 = true
        · rw [if_pos hg]
          refine ⟨commandRequests r.parsed.loopCommands, ?_, commandRequests_ok _ hval⟩
          show Issued _ s (Rule.executeLoopCommands _ _)
          rw [executeLoopCommands_eq { r with parsed := { r.parsed with inLoop := true } } _
            hval hlen hne]
          exact issued_of_view (outView_readPinStable env s _)
        · rw [if_neg hg]
          exact ⟨[], outView_readPinStable env s r.parsed.loopPin, by simp⟩
      | true =>
        rw [check_loop_active env r s hv hl hin]
        by_cases hg : (readPinStable env s r.parsed.loopPin).1 = true
        · rw [if_pos hg]
          by_cases ha : r.hasAlternatingCommands = true
          · rw [if_pos ha]
            refine ⟨commandRequests r.parsed.loopCommands, ?_, commandRequests_ok _ hval⟩
            show Issued _ s (Rule.executeLoopCommands _ _)
            rw [executeLoopCommands_eq r _ hval hlen hne]
            exact issued_of_view (outView_readPinStable env s _)
          · rw [if_neg ha]
            exact ⟨[], outView_readPinStable env s r.parsed.loopPin, by simp⟩
        · rw [if_neg hg]
          refine ⟨offRequests r.parsed.loopCommands, ?_, offRequests_ok _ hval⟩
          show Issued _ s (Rule.executeLoopCommandsOff _ _)
          rw [executeLoopCommandsOff_eq { r with parsed := { r.parsed with inLoop := false } } _
            hval hlen hne]
          exact issued_of_view (outView_readPinStable env s _)
    · obtain ⟨_, _, hact, hst⟩ := compiled_simple hc hv hs
      cases hd : r.done with
      | false =>
        rw [check_simple_pending env r s hv hl hs hd]
        refine ⟨[(r.parsed.action, r.parsed.aState)], rfl, ?_⟩
        intro q hq
        rw [List.mem_singleton] at hq
        rw [hq]
        exact ⟨hact, hst⟩
      | true =>
        rw [check_simple_done env r s hv hl hs hd]
        exact ⟨[], rfl, by simp⟩
    · obtain ⟨_, _, hact, hst⟩ := compiled_continuous hc hv hk
      rw [check_continuous env r s hv hl hs hk]
      by_cases hcond : conditionHolds env r s = true
      · rw [if_pos hcond]
        refine ⟨[(r.parsed.action, r.parsed.aState)],
          issued_of_view (outView_afterConditionReads env r s), ?_⟩
        intro q hq
        rw [List.mem_singleton] at hq
        rw [hq]
        exact ⟨hact, hst⟩
      · rw [if_neg hcond]
        by_cases h1 : r.parsed.aState = 1
        · rw [if_pos h1]
          refine ⟨[(r.parsed.action, 0)],
            issued_of_view (outView_afterConditionReads env r s), ?_⟩
          intro q hq
          rw [List.mem_singleton] at hq
          rw [hq]
          exact ⟨hact, Nat.zero_le 1⟩
        · rw [if_neg h1]
          exact ⟨[], outView_afterConditionReads env r s, by simp⟩

theorem checkRules_issued (env : Nat → Nat → Nat) (n : Nat) (rs : List Rule) (s : State)
    (h : ∀ i, i < n → Compiled (rs.getD i Rule.new)) :
    ∃ reqs, Issued reqs s (checkRules env n rs s).2.1 ∧
      ∀ q ∈ reqs, q.1 ∈ outputs ∧ q.2 ≤ 1 := by
  induction n generalizing rs s with
  | zero =>
    rw [checkRules_zero]
    exact ⟨[], rfl, by simp⟩
  | succ n ih =>
    cases rs with
    | nil =>
      rw [checkRules]
      exact ⟨[], rfl, by simp⟩
    | cons r rs =>
      rw [checkRules_succ]
      obtain ⟨a, ha, hoka⟩ := check_issued env r s (h 0 (Nat.succ_pos n))
      obtain ⟨b, hb, hokb⟩ := ih rs (r.check env s).2.1
        (fun i hi => h (i + 1) (Nat.succ_lt_succ hi))
      refine ⟨a ++ b, ha.append hb, ?_⟩
      intro q hq
      rcases List.mem_append.1 hq with hq | hq
      · exact hoka q hq
      · exact hokb q hq

theorem outView_run (env : Nat → Nat → Nat) (s : State) :
    outView (run env s) = outView s ∨
      outView (run env s) = outView (checkRules env s.ctl.count s.ctl.rules s).2.1 := by
  unfold run
  dsimp only
  split_ifs
  · exact Or.inl rfl
  · exact Or.inr rfl
  · exact Or.inr rfl
  · exact Or.inr rfl

/-- One tick of a controller whose registered rules are compiled rules acts on
the output side through requests for output pins with states 0 or 1 only. -/
theorem run_issued (env : Nat → Nat → Nat) (s : State) (h : Registered s) :
    ∃ reqs, Issued reqs s (run env s) ∧ ∀ q ∈ reqs, q.1 ∈ outputs ∧ q.2 ≤ 1 := by
  rcases outView_run env s with hv | hv
  · exact ⟨[], hv, by simp⟩
  · obtain ⟨reqs, hr, hok⟩ := checkRules_issued env s.ctl.count s.ctl.rules s h
    exact ⟨reqs, hv.trans hr, hok⟩

theorem setPinOutput_traces (s : State) (pin state : Nat) :
    ((setPinOutput s pin state).hw.writes = s.hw.writes ∧
      (setPinOutput s pin state).hw.modes = s.hw.modes) ∨
    ((setPinOutput s pin state).hw.writes = s.hw.writes ++ [(pin, state)] ∧
      (setPinOutput s pin state).hw.modes = s.hw.modes ++ [(pin, PinMode.OUTPUT)]) := by
  unfold setPinOutput
  dsimp only
  cases s.ctl.pinStates.find? (fun e => decide (e.pin = pin)) with
  | none => exact Or.inr ⟨rfl, rfl⟩
  | some e =>
    dsimp only
    by_cases hc : e.isOutput = true ∧ e.state = state
    · rw [if_pos hc]
      exact Or.inl ⟨rfl, rfl⟩
    · rw [if_neg hc]
      exact Or.inr ⟨rfl, rfl⟩

/-- The writes and mode changes made by a list of requests: each write is one
of the requests, each mode change makes the pin of a request an output. -/
theorem requestAll_traces (reqs : List (Nat × Nat)) (s : State) :
    ∃ W M, (requestAll reqs s).hw.writes = s.hw.writes ++ W ∧
      (requestAll reqs s).hw.modes = s.hw.modes ++ M ∧
      (∀ w ∈ W, w ∈ reqs) ∧
      (∀ m ∈ M, m.2 = PinMode.OUTPUT ∧ ∃ q ∈ reqs, q.1 = m.1) := by
  induction reqs generalizing s with
  | nil => exact ⟨[], [], by simp [requestAll_nil], by simp [requestAll_nil], by simp, by simp⟩
  | cons q qs ih =>
    obtain ⟨W, M, hW, hM, hw, hm⟩ := ih (setPinOutput s q.1 q.2)
    rw [requestAll_cons]
    rcases setPinOutput_traces s q.1 q.2 with ⟨h1, h2⟩ | ⟨h1, h2⟩
    · refine ⟨W, M, by rw [hW, h1], by rw [hM, h2],
        fun w hx => List.mem_cons_of_mem _ (hw w hx), fun m hx => ?_⟩
      obtain ⟨hm1, x, hx1, hx2⟩ := hm m hx
      exact ⟨hm1, x, List.mem_cons_of_mem _ hx1, hx2⟩
    · refine ⟨(q.1, q.2) :: W, (q.1, PinMode.OUTPUT) :: M, by rw [hW, h1]; simp,
        by rw [hM, h2]; simp, fun w hx => ?_, fun m hx => ?_⟩
      · rcases List.mem_cons.1 hx with hx | hx
        · rw [hx]
          exact List.mem_cons_self _ _
        · exact List.mem_cons_of_mem _ (hw w hx)
      · rcases List.mem_cons.1 hx with hx | hx
        · rw [hx]
          exact ⟨rfl, q, List.mem_cons_self _ _, rfl⟩
        · obtain ⟨hm1, x, hx1, hx2⟩ := hm m hx
          exact ⟨hm1, x, List.mem_cons_of_mem _ hx1, hx2⟩

theorem outputs_not_inputs {p : Nat} (h : p ∈ outputs) : p ∉ inputs := by
  unfold outputs at h
  simp only [List.mem_cons, List.mem_singleton, List.not_mem_nil, or_false] at h
  rcases h with h | h | h | h | h | h <;> subst h <;> decide

/-- Claim C22. In every state reached from initialisation, for any readings:
the tick extends the traces of requests, raw writes and mode changes; every
`setPinOutput` call it makes is for an output pin (not an input pin) with state
0 or 1; every raw write it makes is one of these requests, hence to an output
pin; and every mode change it makes sets an output pin to OUTPUT. -/
theorem C22_tick_outputs_only (env : Nat → Nat → Nat) (s : State) (hs : Reachable s) :
    (run env s).hw.requests = s.hw.requests ++ tickRequests env s ∧
    (run env s).hw.writes = s.hw.writes ++ tickWrites env s ∧
    (run env s).hw.modes = s.hw.modes ++ tickModes env s ∧
    (∀ q ∈ tickRequests env s, q.1 ∈ outputs ∧ q.1 ∉ inputs ∧ q.2 ≤ 1) ∧
    (∀ w ∈ tickWrites env s, w ∈ tickRequests env s ∧ w.1 ∈ outputs ∧ w.1 ∉ inputs) ∧
    (∀ m ∈ tickModes env s, m.2 = PinMode.OUTPUT ∧ m.1 ∈ outputs ∧ m.1 ∉ inputs) := by
  obtain ⟨reqs, hiss, hok⟩ := run_issued env s hs.registered
  obtain ⟨W, M, hW, hM, hw, hm⟩ := requestAll_traces reqs s
  have hview : outView (run env s) = outView (requestAll reqs s) := hiss
  simp only [outView, Prod.mk.injEq] at hview
  obtain ⟨_, hmodes, hwrites, _, hreqs⟩ := hview
  rw [requestAll_requests] at hreqs
  rw [hW] at hwrites
  rw [hM] at hmodes
  have h1 : tickRequests env s = reqs := by
    unfold tickRequests
    rw [hreqs]
    simp
  have h2 : tickWrites env s = W := by
    unfold tickWrites
    rw [hwrites]
    simp
  have h3 : tickModes env s = M := by
    unfold tickModes
    rw [hmodes]
    simp
  rw [h1, h2, h3]
  refine ⟨hreqs, hwrites, hmodes, fun q hq => ?_, fun w hx => ?_, fun m hx => ?_⟩
  · exact ⟨(hok q hq).1, outputs_not_inputs (hok q hq).1, (hok q hq).2⟩
  · exact ⟨hw w hx, (hok w (hw w hx)).1, outputs_not_inputs (hok w (hw w hx)).1⟩
  · obtain ⟨hm1, q, hq, hqm⟩ := hm m hx
    rw [← hqm]
    exact ⟨hm1, (hok q hq).1, outputs_not_inputs (hok q hq).1⟩

/-- A loop on pins 2 and 4 and a conditional rule on pin 6: the first tick
requests pin 2 := 1, pin 4 := 0 and pin 6 := 1, all output pins. -/
theorem C22_tick_outputs_only_witness :
    tickRequests (fun _ _ => LOW)
      (exec [Call.register "[5:2,1;4,0]".toList, Call.register "?3,1!6,1".toList]
        (init boot)) = [(2, 1), (4, 0), (6, 1)] ∧
    (6 ∈ outputs ∧ 6 ∉ inputs ∧ 1 ≤ 1) :=
  ⟨by decide,
    (C22_tick_outputs_only (fun _ _ => LOW)
      (exec [Call.register "[5:2,1;4,0]".toList, Call.register "?3,1!6,1".toList] (init boot))
      ⟨_, rfl⟩).2.2.2.1 (6, 1) (by decide)⟩

/-! ## The output cache and the write history -/

theorem dropRepeats_nil : dropRepeats [] = [] := by rw [dropRepeats]

theorem dropRepeats_single (a : Nat) : dropRepeats [a] = [a] := by rw [dropRepeats]

theorem dropRepeats_cons_cons (a b : Nat) (l : List Nat) :
    dropRepeats (a :: b :: l) =
      if a = b then dropRepeats (b :: l) else a :: dropRepeats (b :: l) := by
  rw [dropRepeats]

theorem dropRepeats_cons_ne_nil (a : Nat) (l : List Nat) : dropRepeats (a :: l) ≠ [] := by
  induction l generalizing a with
  | nil => rw [dropRepeats_single]; simp
  | cons b l ih =>
    rw [dropRepeats_cons_cons]
    by_cases h : a = b
    · rw [if_pos h]
      exact ih b
    · rw [if_neg h]
      simp

theorem dropRepeats_eq_nil {l : List Nat} (h : dropRepeats l = []) : l = [] := by
  cases l with
  | nil => rfl
  | cons a l => exact absurd h (dropRepeats_cons_ne_nil a l)

theorem getLast?_dropRepeats (l : List Nat) : (dropRepeats l).getLast? = l.getLast? := by
  induction l with
  | nil => rw [dropRepeats_nil]
  | cons a l ih =>
    cases l with
    | nil => rw [dropRepeats_single]
    | cons b l =>
      rw [dropRepeats_cons_cons]
      by_cases h : a = b
      · rw [if_pos h, ih]
        simp [List.getLast?_cons_cons]
      · rw [if_neg h, List.getLast?_cons_cons]
        have hne := dropRepeats_cons_ne_nil b l
        cases hd : dropRepeats (b :: l) with
        | nil => exact absurd hd hne
        | cons c cs =>
          rw [List.getLast?_cons_cons, ← hd, ih]

/-- A value added at the end is kept unless it repeats the last value. -/
theorem dropRepeats_snoc (l : List Nat) (v : Nat) :
    dropRepeats (l ++ [v]) =
      if l.getLast? = some v then dropRepeats l else dropRepeats l ++ [v] := by
  induction l with
  | nil => simp [dropRepeats_nil, dropRepeats_single]
  | cons a l ih =>
    cases l with
    | nil =>
      show dropRepeats [a, v] = _
      rw [dropRepeats_cons_cons, dropRepeats_single]
      by_cases h : a = v
      · subst h
        simp [dropRepeats_single]
      · rw [if_neg h, if_neg (by simpa using h)]
        rfl
    | cons b l =>
      show dropRepeats (a :: b :: (l ++ [v])) = _
      rw [dropRepeats_cons_cons, dropRepeats_cons_cons, List.getLast?_cons_cons]
      have ih' : dropRepeats (b :: (l ++ [v])) =
          if (b :: l).getLast? = some v then dropRepeats (b :: l)
          else dropRepeats (b :: l) ++ [v] := ih
      rw [ih']
      by_cases h : a = b <;> by_cases hl : (b :: l).getLast? = some v <;> simp [h, hl]

theorem statesFor_append (p : Nat) (a b : List (Nat × Nat)) :
    statesFor p (a ++ b) = statesFor p a ++ statesFor p b := by
  unfold statesFor
  rw [List.filter_append, List.map_append]

theorem statesFor_single_self (p v : Nat) : statesFor p [(p, v)] = [v] := by
  simp [statesFor]

theorem statesFor_single_ne {p q : Nat} (v : Nat) (h : q ≠ p) : statesFor p [(q, v)] = [] := by
  simp [statesFor, h]

theorem statesFor_ne_nil (p : Nat) (l : List (Nat × Nat)) :
    statesFor p l ≠ [] ↔ ∃ v, (p, v) ∈ l := by
  unfold statesFor
  rw [Ne, List.map_eq_nil_iff, List.filter_eq_nil_iff]
  constructor
  · intro h
    by_contra hn
    apply h
    intro q hq hqp
    simp only [decide_eq_true_eq] at hqp
    exact hn ⟨q.2, by rw [← hqp]; exact hq⟩
  · rintro ⟨v, hv⟩ h
    exact h (p, v) hv (by simp)

theorem getLast?_snoc (l : List Nat) (v : Nat) : (l ++ [v]).getLast? = some v := by
  simp

/-- One call of `setPinOutput` with a state of 0 or 1 keeps cache and traces
in agreement. -/
theorem CacheAgrees.request {e : Nat × Nat} {s : State} (h : CacheAgrees e s)
    (pin v : Nat) (hv : v ≤ 1) : CacheAgrees e (setPinOutput s pin v) := by
  obtain ⟨he1, he2, hpins, hall⟩ := h
  by_cases hc : Cached s pin v
  · rw [setPinOutput_of_cached s pin v hc]
    refine ⟨he1, ?_, hpins, fun p hp => ?_⟩
    · show e.2 ≤ (s.hw.requests ++ [(pin, v)]).length
      rw [List.length_append]
      omega
    · obtain ⟨x, hx, h1, h2, h3⟩ := hall p hp
      refine ⟨x, hx, h1, h2, ?_⟩
      show statesFor p (s.hw.writes.drop e.1) =
        dropRepeats (statesFor p ((s.hw.requests ++ [(pin, v)]).drop e.2))
      rw [List.drop_append_of_le_length he2, statesFor_append]
      by_cases hpp : pin = p
      · subst hpp
        rw [statesFor_single_self, dropRepeats_snoc]
        obtain ⟨e0, he0, ho, hst⟩ := hc
        rw [hx] at he0
        cases he0
        have hlast := h2 ho
        rw [h3, getLast?_dropRepeats, hst] at hlast
        rw [if_pos hlast]
        exact h3
      · rw [statesFor_single_ne v hpp, List.append_nil]
        exact h3
  · rw [setPinOutput_write s pin v (fun e0 he0 hh => hc ⟨e0, he0, hh.1, hh.2⟩)]
    refine ⟨?_, ?_, ?_, fun p hp => ?_⟩
    · show e.1 ≤ (s.hw.writes ++ [(pin, v)]).length
      rw [List.length_append]
      omega
    · show e.2 ≤ (s.hw.requests ++ [(pin, v)]).length
      rw [List.length_append]
      omega
    · show (updatePinState s.ctl.pinStates pin v).map PinState.pin = outputs
      rw [updatePinState_pins]
      exact hpins
    · obtain ⟨x, hx, h1, h2, h3⟩ := hall p hp
      show ∃ y, (updatePinState s.ctl.pinStates pin v).find? (fun y => decide (y.pin = p)) =
          some y ∧
        (y.isOutput = true ↔ statesFor p ((s.hw.writes ++ [(pin, v)]).drop e.1) ≠ []) ∧
        (y.isOutput = true →
          (statesFor p ((s.hw.writes ++ [(pin, v)]).drop e.1)).getLast? = some y.state) ∧
        statesFor p ((s.hw.writes ++ [(pin, v)]).drop e.1) =
          dropRepeats (statesFor p ((s.hw.requests ++ [(pin, v)]).drop e.2))
      rw [List.drop_append_of_le_length he1, List.drop_append_of_le_length he2,
        statesFor_append, statesFor_append]
      by_cases hpp : pin = p
      · subst hpp
        have hmem : pin ∈ s.ctl.pinStates.map PinState.pin := by
          rw [hpins]
          exact hp
        rw [statesFor_single_self]
        refine ⟨_, find_updatePinState _ _ _ hmem, ?_, ?_, ?_⟩
        · simp
        · intro _
          rw [getLast?_snoc]
          show some v = some (v % 2)
          rw [Nat.mod_eq_of_lt (by omega)]
        · have hnl : ¬ (statesFor pin (s.hw.requests.drop e.2)).getLast? = some v := by
            intro hl
            cases hxo : x.isOutput with
            | false =>
              have hW : statesFor pin (s.hw.writes.drop e.1) = [] := by
                by_contra hne
                have := h1.2 hne
                rw [hxo] at this
                exact Bool.false_ne_true this
              rw [hW] at h3
              rw [dropRepeats_eq_nil h3.symm] at hl
              simp at hl
            | true =>
              have hlast := h2 hxo
              rw [h3, getLast?_dropRepeats, hl] at hlast
              exact hc ⟨x, hx, hxo, (Option.some.inj hlast).symm⟩
          rw [dropRepeats_snoc, if_neg hnl, h3]
      · rw [statesFor_single_ne v hpp, List.append_nil, List.append_nil]
        exact ⟨x, (find_updatePinState_ne _ _ _ _ (Ne.symm hpp)).trans hx, h1, h2, h3⟩

theorem CacheAgrees.requests {e : Nat × Nat} {s : State} (h : CacheAgrees e s)
    (reqs : List (Nat × Nat)) (hb : ∀ q ∈ reqs, q.2 ≤ 1) :
    CacheAgrees e (requestAll reqs s) := by
  induction reqs generalizing s with
  | nil => exact h
  | cons q qs ih =>
    rw [requestAll_cons]
    exact ih (h.request q.1 q.2 (hb q (List.mem_cons_self _ _)))
      (fun x hx => hb x (List.mem_cons_of_mem _ hx))

theorem CacheAgrees.ofView {e : Nat × Nat} {s s' : State} (h : CacheAgrees e s)
    (hv : outView s' = outView s) : CacheAgrees e s' := by
  simp only [outView, Prod.mk.injEq] at hv
  obtain ⟨h1, _, h3, _, h5⟩ := hv
  unfold CacheAgrees at h ⊢
  rw [h1, h3, h5]
  exact h

theorem CacheAgrees.ofIssued {e : Nat × Nat} {s s' : State} (h : CacheAgrees e s)
    {reqs : List (Nat × Nat)} (hi : Issued reqs s s') (hb : ∀ q ∈ reqs, q.2 ≤ 1) :
    CacheAgrees e s' :=
  (h.requests reqs hb).ofView hi

theorem outView_add {s : State} (hi : Inv s) (text : List Char) :
    outView (add s text).1 = outView s := by
  by_cases hc : MAX_RULES ≤ s.ctl.count
  · rw [add_full hi.initialized hc]
  · have hc' : s.ctl.count < MAX_RULES := Nat.lt_of_not_le hc
    cases hv : ((s.ctl.rules.getD s.ctl.count Rule.new).setRule text).parsed.valid with
    | true =>
      rw [add_valid hi.initialized hc' text hv]
      rfl
    | false =>
      rw [add_invalid hi.initialized hc' text hv]
      rfl

theorem CacheAgrees.cleared {e : Nat × Nat} {s : State} (h : CacheAgrees e s) :
    CacheAgrees ((EgLang.shutdown s).hw.writes.length, (EgLang.shutdown s).hw.requests.length)
      (EgLang.shutdown s) := by
  obtain ⟨_, _, hpins, hall⟩ := h
  refine ⟨Nat.le_refl _, Nat.le_refl _, ?_, fun p hp => ?_⟩
  · show ((EgLang.reset s).ctl.pinStates.map _).map PinState.pin = _
    rw [List.map_map]
    exact hpins
  · obtain ⟨x, hx, _⟩ := hall p hp
    have hf : (EgLang.shutdown s).ctl.pinStates.find? (fun y => decide (y.pin = p)) =
        some { x with state := 0, isOutput := false } := by
      show (s.ctl.pinStates.map (fun e => { e with state := 0, isOutput := false })).find?
        (fun y => decide (y.pin = p)) = _
      rw [List.find?_map]
      show Option.map _ (s.ctl.pinStates.find? (fun y => decide (y.pin = p))) = _
      rw [hx]
      rfl
    refine ⟨_, hf, ?_, ?_, ?_⟩
    · simp [statesFor]
    · intro hf2
      exact (Bool.false_ne_true hf2).elim
    · simp [statesFor, dropRepeats_nil]

theorem cacheAgrees_init : CacheAgrees (0, 0) (init boot) := by
  refine ⟨Nat.le_refl _, Nat.le_refl _, rfl, fun p hp => ?_⟩
  have hw : statesFor p ((init boot).hw.writes.drop 0) = [] := rfl
  have hq : statesFor p ((init boot).hw.requests.drop 0) = [] := rfl
  show ∃ x, (init boot).ctl.pinStates.find? (fun y => decide (y.pin = p)) = some x ∧
    (x.isOutput = true ↔ statesFor p ((init boot).hw.writes.drop 0) ≠ []) ∧
    (x.isOutput = true →
      (statesFor p ((init boot).hw.writes.drop 0)).getLast? = some x.state) ∧
    statesFor p ((init boot).hw.writes.drop 0) =
      dropRepeats (statesFor p ((init boot).hw.requests.drop 0))
  rw [hw, hq]
  unfold outputs at hp
  simp only [List.mem_cons, List.mem_singleton, List.not_mem_nil, or_false] at hp
  rcases hp with h | h | h | h | h | h <;> subst h <;>
    exact ⟨_, rfl, by simp, fun hf => (Bool.false_ne_true hf).elim, by rw [dropRepeats_nil]⟩

theorem exec_cons (c : Call) (cs : List Call) (s : State) :
    exec (c :: cs) s = exec cs (c.apply s) := rfl

/-- Cache and traces agree after any calls with states of 0 or 1, from the
position of the last `shutdown()` on. -/
theorem cacheAgrees_exec (calls : List Call) (s : State) (e : Nat × Nat)
    (h : CacheAgrees e s) (hi : Inv s) (hr : Registered s)
    (hb : ∀ c ∈ calls, c.booleanState) : CacheAgrees (epoch calls s e) (exec calls s) := by
  induction calls generalizing s e with
  | nil => exact h
  | cons c cs ih =>
    have hb' : ∀ x ∈ cs, x.booleanState := fun x hx => hb x (List.mem_cons_of_mem _ hx)
    have hc := hb c (List.mem_cons_self _ _)
    rw [exec_cons]
    cases c with
    | register text =>
      rw [epoch]
      exact ih _ _ (h.ofView (outView_add hi text)) (hi.add text) (hr.afterAdd hi text) hb'
    | tick env =>
      rw [epoch]
      obtain ⟨reqs, hiss, hok⟩ := run_issued env s hr
      exact ih _ _ (h.ofIssued hiss (fun q hq => (hok q hq).2)) (hi.run env) (hr.afterRun env) hb'
    | reset =>
      rw [epoch]
      exact ih _ _ (h.ofView rfl) hi.reset hr.afterReset hb'
    | shutdown =>
      rw [epoch]
      exact ih _ _ h.cleared hi.shutdown hr.afterShutdown hb'
    | setOutput pin state =>
      rw [epoch]
      exact ih _ _ (h.request pin state hc)
        (hi.apply (Call.setOutput pin state)) (hr.afterCall hi (Call.setOutput pin state)) hb'

theorem find_of_mem_nodup (ps : List PinState) (h : (ps.map PinState.pin).Nodup)
    (x : PinState) (hx : x ∈ ps) :
    ps.find? (fun y => decide (y.pin = x.pin)) = some x := by
  induction ps with
  | nil => simp at hx
  | cons a as ih =>
    rw [List.map_cons, List.nodup_cons] at h
    rcases List.mem_cons.1 hx with hxa | hxs
    · subst hxa
      simp [List.find?]
    · have hne : ¬ a.pin = x.pin := by
        intro he
        apply h.1
        rw [he]
        exact List.mem_map_of_mem _ hxs
      simp only [List.find?, hne, decide_False]
      exact ih h.2 hxs

/-- Claim C23. After any calls of `add`, `run`, `reset`, `shutdown` and
`setPinOutput` with a state of 0 or 1 from initialisation, with the traces
taken from the last `shutdown()` on (from initialisation when there was none):
the six cache entries hold the pins 2, 4, 6, 8, 10, 12 in this order; an entry
is claimed exactly when a raw write to its pin is in the write trace; a claimed
entry holds the state written last to its pin; and the states written to the
pin are the states requested for it without their consecutive repetitions. -/
theorem C23_cache_agrees (calls : List Call) (s : State) (e : Nat × Nat)
    (hb : ∀ c ∈ calls, c.booleanState)
    (hs : s = exec calls (init boot)) (he : e = epoch calls (init boot) (0, 0)) :
    s.ctl.pinStates.map PinState.pin = outputs ∧
    e.1 ≤ s.hw.writes.length ∧ e.2 ≤ s.hw.requests.length ∧
    ∀ x ∈ s.ctl.pinStates,
      (x.isOutput = true ↔ ∃ v, (x.pin, v) ∈ s.hw.writes.drop e.1) ∧
      (x.isOutput = true →
        (statesFor x.pin (s.hw.writes.drop e.1)).getLast? = some x.state) ∧
      statesFor x.pin (s.hw.writes.drop e.1) =
        dropRepeats (statesFor x.pin (s.hw.requests.drop e.2)) := by
  have h := cacheAgrees_exec calls (init boot) (0, 0) cacheAgrees_init inv_init_boot
    (fun i hi => absurd hi (Nat.not_lt_zero i)) hb
  rw [← hs, ← he] at h
  obtain ⟨h1, h2, hpins, hall⟩ := h
  refine ⟨hpins, h1, h2, fun x hx => ?_⟩
  have hp : x.pin ∈ outputs := by
    rw [← hpins]
    exact List.mem_map_of_mem _ hx
  have hnd : (s.ctl.pinStates.map PinState.pin).Nodup := by
    rw [hpins]
    decide
  obtain ⟨y, hy, h3, h4, h5⟩ := hall x.pin hp
  rw [find_of_mem_nodup _ hnd x hx] at hy
  cases hy
  exact ⟨h3.trans (statesFor_ne_nil _ _), h4, h5⟩

/-- Two requests pin 2 := 1, a shutdown, then pin 2 := 1 and pin 2 := 0: the
entry of pin 2 is claimed with state 0, and from the shutdown on the writes
to pin 2 are 1 and 0. -/
theorem C23_cache_agrees_witness :
    epoch [Call.setOutput 2 1, Call.setOutput 2 1, Call.shutdown, Call.setOutput 2 1,
      Call.setOutput 2 0] (init boot) (0, 0) = (1, 2) ∧
    statesFor 2 ((exec [Call.setOutput 2 1, Call.setOutput 2 1, Call.shutdown,
      Call.setOutput 2 1, Call.setOutput 2 0] (init boot)).hw.writes.drop 1) =
      dropRepeats (statesFor 2 ((exec [Call.setOutput 2 1, Call.setOutput 2 1, Call.shutdown,
        Call.setOutput 2 1, Call.setOutput 2 0] (init boot)).hw.requests.drop 2)) :=
  ⟨rfl,
    ((C23_cache_agrees [Call.setOutput 2 1, Call.setOutput 2 1, Call.shutdown,
      Call.setOutput 2 1, Call.setOutput 2 0] _ (1, 2)
      (fun c hc => by
        simp only [List.mem_cons, List.mem_singleton, List.not_mem_nil, or_false] at hc
        rcases hc with h | h | h | h | h <;> subst h <;> simp [Call.booleanState])
      rfl rfl).2.2.2 { pin := 2, state := 0, isOutput := true } (by decide)).2.2⟩

/-! ## The cursor and rules that are not SimpleCommands -/

theorem reset_isSimpleCommand {r r0 : Rule} (h : r.reset = r0.reset) :
    r.parsed.isSimpleCommand = r0.parsed.isSimpleCommand :=
  congrArg (fun x => x.parsed.isSimpleCommand) h

theorem evalPass_getD_reset (env : Nat → Nat → Nat) (s : State)
    (hlen : s.ctl.count ≤ s.ctl.rules.length) (i : Nat) :
    ((evalPass env s).1.getD i Rule.new).reset = (s.ctl.rules.getD i Rule.new).reset := by
  rw [checkRules_evalPass env s hlen]
  exact checkRules_getD_reset _ _ _ _ _ _

/-- The cursor step of a tick: the cursor stays, or it is on a SimpleCommand and
advances, or it is on the last rule, a SimpleCommand, and wraps. Without a wrap
the rules are as the pass left them. -/
theorem run_cursor_cases (env : Nat → Nat → Nat) (s : State) (hinv : Inv s) :
    ((run env s).ctl.currentRule = s.ctl.currentRule ∧
      (run env s).ctl.rules = (evalPass env s).1) ∨
    ((s.ctl.rules.getD s.ctl.currentRule Rule.new).parsed.isSimpleCommand = true ∧
      s.ctl.currentRule + 1 < s.ctl.count ∧
      (run env s).ctl.currentRule = s.ctl.currentRule + 1 ∧
      (run env s).ctl.rules = (evalPass env s).1) ∨
    ((s.ctl.rules.getD s.ctl.currentRule Rule.new).parsed.isSimpleCommand = true ∧
      s.ctl.currentRule + 1 = s.ctl.count ∧ (run env s).ctl.currentRule = 0) := by
  have hlen : s.ctl.count ≤ s.ctl.rules.length := by
    rw [hinv.length]
    exact hinv.count_le
  by_cases hc : s.ctl.count = 0
  · have hrun : run env s = s := by
      unfold run
      simp [hc]
    have hp : (evalPass env s).1 = s.ctl.rules := by
      unfold evalPass
      rw [hc]
      rfl
    rw [hrun, hp]
    exact Or.inl ⟨rfl, rfl⟩
  · have hc' : 0 < s.ctl.count := Nat.pos_of_ne_zero hc
    have hcur : s.ctl.currentRule < s.ctl.count := by
      rcases hinv.cursor with h | h
      · rw [h]
        exact hc'
      · exact h
    have hcurS := (checkRules_sameTable env s.ctl.count s.ctl.rules s).2.2.1
    have hE := checkRules_evalPass env s hlen
    have h2 : (evalPass env s).2 = (checkRules env s.ctl.count s.ctl.rules s).2.1 :=
      congrArg Prod.snd hE
    rw [← h2] at hcurS
    have hkind := reset_isSimpleCommand (evalPass_getD_reset env s hlen s.ctl.currentRule)
    rw [run_cases env s hinv.initialized hc' hcur hlen]
    by_cases hcond :
        ((evalPass env s).1.getD s.ctl.currentRule Rule.new).parsed.isSimpleCommand = true ∧
        ((evalPass env s).1.getD s.ctl.currentRule Rule.new).done = true
    · rw [if_pos hcond]
      by_cases hw : s.ctl.count ≤ s.ctl.currentRule + 1
      · rw [if_pos hw]
        exact Or.inr (Or.inr ⟨hkind.symm.trans hcond.1, by omega, rfl⟩)
      · rw [if_neg hw]
        exact Or.inr (Or.inl ⟨hkind.symm.trans hcond.1, by omega, rfl, rfl⟩)
    · rw [if_neg hcond]
      exact Or.inl ⟨hcurS, rfl⟩

theorem CursorBound.tick {s : State} (h : CursorBound s) (hinv : Inv s)
    (env : Nat → Nat → Nat) : CursorBound (run env s) := by
  intro k hk hns
  rw [run_count] at hk
  have hns' : (s.ctl.rules.getD k Rule.new).parsed.isSimpleCommand = false :=
    (reset_isSimpleCommand (run_getD_reset env s k)).symm.trans hns
  have hb := h k hk hns'
  rcases run_cursor_cases env s hinv with ⟨h1, _⟩ | ⟨hs, _, h1, _⟩ | ⟨_, _, h1⟩
  · rw [h1]
    exact hb
  · rw [h1]
    have hne : s.ctl.currentRule ≠ k := by
      intro he
      rw [he, hns'] at hs
      exact Bool.false_ne_true hs
    omega
  · rw [h1]
    exact Nat.zero_le k

theorem add_count_le (s : State) (hinv : Inv s) (text : List Char) :
    s.ctl.count ≤ (add s text).1.ctl.count := by
  by_cases hc : MAX_RULES ≤ s.ctl.count
  · rw [add_full hinv.initialized hc]
  · have hc' : s.ctl.count < MAX_RULES := Nat.lt_of_not_le hc
    cases hv : ((s.ctl.rules.getD s.ctl.count Rule.new).setRule text).parsed.valid with
    | true =>
      rw [add_valid hinv.initialized hc' text hv]
      exact Nat.le_succ _
    | false =>
      rw [add_invalid hinv.initialized hc' text hv]

theorem add_count_succ (s : State) (hinv : Inv s) (text : List Char) :
    (add s text).1.ctl.count ≤ s.ctl.count + 1 := by
  by_cases hc : MAX_RULES ≤ s.ctl.count
  · rw [add_full hinv.initialized hc]
    exact Nat.le_succ _
  · have hc' : s.ctl.count < MAX_RULES := Nat.lt_of_not_le hc
    cases hv : ((s.ctl.rules.getD s.ctl.count Rule.new).setRule text).parsed.valid with
    | true =>
      rw [add_valid hinv.initialized hc' text hv]
    | false =>
      rw [add_invalid hinv.initialized hc' text hv]
      exact Nat.le_succ _

theorem add_currentRule (s : State) (hinv : Inv s) (text : List Char) :
    (add s text).1.ctl.currentRule = s.ctl.currentRule := by
  by_cases hc : MAX_RULES ≤ s.ctl.count
  · rw [add_full hinv.initialized hc]
  · have hc' : s.ctl.count < MAX_RULES := Nat.lt_of_not_le hc
    cases hv : ((s.ctl.rules.getD s.ctl.count Rule.new).setRule text).parsed.valid with
    | true => rw [add_valid hinv.initialized hc' text hv]
    | false => rw [add_invalid hinv.initialized hc' text hv]

/-- Registration leaves the registered rules as they are. -/
theorem add_getD_lt (s : State) (hinv : Inv s) (text : List Char) (i : Nat)
    (hi : i < s.ctl.count) :
    (add s text).1.ctl.rules.getD i Rule.new = s.ctl.rules.getD i Rule.new := by
  by_cases hc : MAX_RULES ≤ s.ctl.count
  · rw [add_full hinv.initialized hc]
  · have hc' : s.ctl.count < MAX_RULES := Nat.lt_of_not_le hc
    cases hv : ((s.ctl.rules.getD s.ctl.count Rule.new).setRule text).parsed.valid with
    | true =>
      rw [add_valid hinv.initialized hc' text hv]
      exact getD_set_ne _ _ _ _ _ (by omega)
    | false =>
      rw [add_invalid hinv.initialized hc' text hv]
      exact getD_set_ne _ _ _ _ _ (by omega)

theorem CursorBound.register {s : State} (h : CursorBound s) (hinv : Inv s) (text : List Char) :
    CursorBound (add s text).1 := by
  intro k hk hns
  rw [add_currentRule s hinv text]
  by_cases hlt : k < s.ctl.count
  · rw [add_getD_lt s hinv text k hlt] at hns
    exact h k hlt hns
  · have := add_count_succ s hinv text
    rcases hinv.cursor with h0 | h1
    · rw [h0]
      exact Nat.zero_le k
    · omega

theorem cursorBound_init : CursorBound (init boot) :=
  fun k hk _ => absurd hk (Nat.not_lt_zero k)

/-- With a registered rule that is not a SimpleCommand at or after the cursor,
a tick does not wrap: the cursor does not move back and the rules are as the
pass left them. -/
theorem run_no_wrap (env : Nat → Nat → Nat) (s : State) (hinv : Inv s) (hb : CursorBound s)
    (k : Nat) (hk : k < s.ctl.count)
    (hns : (s.ctl.rules.getD k Rule.new).parsed.isSimpleCommand = false) :
    s.ctl.currentRule ≤ (run env s).ctl.currentRule ∧
      (run env s).ctl.rules = (evalPass env s).1 := by
  rcases run_cursor_cases env s hinv with ⟨h1, h2⟩ | ⟨_, _, h1, h2⟩ | ⟨hs, hw, _⟩
  · rw [h1]
    exact ⟨Nat.le_refl _, h2⟩
  · rw [h1]
    exact ⟨Nat.le_succ _, h2⟩
  · have hle := hb k hk hns
    have he : s.ctl.currentRule = k := by omega
    rw [he, hns] at hs
    exact (Bool.false_ne_true hs).elim

/-- The rule at a registered index after a tick without wrap is the result of
its `check` in the pass. -/
theorem run_getD_check (env : Nat → Nat → Nat) (s : State) (hinv : Inv s)
    (hb : CursorBound s) (k : Nat) (hk : k < s.ctl.count)
    (hns : (s.ctl.rules.getD k Rule.new).parsed.isSimpleCommand = false)
    (i : Nat) (hi : i < s.ctl.count) :
    (run env s).ctl.rules.getD i Rule.new =
      ((s.ctl.rules.getD i Rule.new).check env (evalUpTo env s i).2).1 := by
  have hlen : s.ctl.count ≤ s.ctl.rules.length := by
    rw [hinv.length]
    exact hinv.count_le
  rw [(run_no_wrap env s hinv hb k hk hns).2]
  exact evalPass_getD_lt env s i hi hlen

theorem registered_simple {s : State} (hinv : Inv s) (hreg : Registered s) (i : Nat)
    (hi : i < s.ctl.count)
    (hsc : (s.ctl.rules.getD i Rule.new).parsed.isSimpleCommand = true) :
    (s.ctl.rules.getD i Rule.new).parsed.valid = true ∧
      (s.ctl.rules.getD i Rule.new).parsed.isLoop = false :=
  ⟨hinv.valid_below i hi, (compiled_simple (hreg i hi) (hinv.valid_below i hi) hsc).1⟩

/-- Registrations and ticks keep the cursor bound, do not lower the count and
keep the compiled form of every registered rule. -/
theorem regtick_exec (more : List Call) (s : State) (hinv : Inv s) (hb : CursorBound s)
    (hrt : ∀ c ∈ more, c.isRegTick) :
    CursorBound (exec more s) ∧ s.ctl.count ≤ (exec more s).ctl.count ∧
      ∀ i, i < s.ctl.count →
        ((exec more s).ctl.rules.getD i Rule.new).reset =
          (s.ctl.rules.getD i Rule.new).reset := by
  induction more generalizing s with
  | nil => exact ⟨hb, Nat.le_refl _, fun _ _ => rfl⟩
  | cons c cs ih =>
    have hrt' : ∀ x ∈ cs, x.isRegTick := fun x hx => hrt x (List.mem_cons_of_mem _ hx)
    have hc := hrt c (List.mem_cons_self _ _)
    rw [exec_cons]
    cases c with
    | register text =>
      obtain ⟨h1, h2, h3⟩ := ih (add s text).1 (hinv.add text) (hb.register hinv text) hrt'
      have hle := add_count_le s hinv text
      refine ⟨h1, Nat.le_trans hle h2, fun i hi => ?_⟩
      have := h3 i (Nat.lt_of_lt_of_le hi hle)
      rw [add_getD_lt s hinv text i hi] at this
      exact this
    | tick env =>
      obtain ⟨h1, h2, h3⟩ := ih (run env s) (hinv.run env) (hb.tick hinv env) hrt'
      rw [run_count] at h2 h3
      exact ⟨h1, h2, fun i hi => (h3 i hi).trans (run_getD_reset env s i)⟩
    | reset => exact hc.elim
    | shutdown => exact hc.elim
    | setOutput pin state => exact hc.elim

theorem fires_tick (i : Nat) (env : Nat → Nat → Nat) (cs : List Call) (s : State) :
    fires i (Call.tick env :: cs) s =
      (if firedAt env s i then 1 else 0) + fires i cs (run env s) := by
  rw [fires]

theorem fires_register (i : Nat) (text : List Char) (cs : List Call) (s : State) :
    fires i (Call.register text :: cs) s = fires i cs (add s text).1 := by
  rw [fires]

/-- A SimpleCommand that is done stays done, and its `check` returns false in
every tick, as long as a registered rule that is not a SimpleCommand holds the
cursor back and only registrations and ticks are made. -/
theorem fires_done (i k : Nat) (more : List Call) (s : State) (hinv : Inv s)
    (hreg : Registered s) (hb : CursorBound s) (hk : k < s.ctl.count)
    (hns : (s.ctl.rules.getD k Rule.new).parsed.isSimpleCommand = false)
    (hi : i < s.ctl.count)
    (hsc : (s.ctl.rules.getD i Rule.new).parsed.isSimpleCommand = true)
    (hd : (s.ctl.rules.getD i Rule.new).done = true)
    (hrt : ∀ c ∈ more, c.isRegTick) :
    ((exec more s).ctl.rules.getD i Rule.new).done = true ∧ fires i more s = 0 := by
  induction more generalizing s with
  | nil => exact ⟨hd, by rw [fires]⟩
  | cons c cs ih =>
    have hrt' : ∀ x ∈ cs, x.isRegTick := fun x hx => hrt x (List.mem_cons_of_mem _ hx)
    have hc := hrt c (List.mem_cons_self _ _)
    rw [exec_cons]
    cases c with
    | register text =>
      have hle := add_count_le s hinv text
      rw [fires_register]
      exact ih (add s text).1 (hinv.add text) (hreg.afterAdd hinv text) (hb.register hinv text)
        (Nat.lt_of_lt_of_le hk hle) (by rw [add_getD_lt s hinv text k hk]; exact hns)
        (Nat.lt_of_lt_of_le hi hle) (by rw [add_getD_lt s hinv text i hi]; exact hsc)
        (by rw [add_getD_lt s hinv text i hi]; exact hd) hrt'
    | tick env =>
      obtain ⟨hv, hl⟩ := registered_simple hinv hreg i hi hsc
      have hchk := check_simple_done env (s.ctl.rules.getD i Rule.new)
        (evalUpTo env s i).2 hv hl hsc hd
      have hrule := run_getD_check env s hinv hb k hk hns i hi
      rw [hchk] at hrule
      have hfired : firedAt env s i = false := by
        unfold firedAt
        rw [hchk]
        simp
      rw [fires_tick, hfired]
      have hres := ih (run env s) (hinv.run env) (hreg.afterRun env) (hb.tick hinv env)
        (by rw [run_count]; exact hk)
        ((reset_isSimpleCommand (run_getD_reset env s k)).trans hns)
        (by rw [run_count]; exact hi) (by rw [hrule]; exact hsc) (by rw [hrule]; exact hd) hrt'
      refine ⟨hres.1, ?_⟩
      rw [hres.2]
      rfl
    | reset => exact hc.elim
    | shutdown => exact hc.elim
    | setOutput pin state => exact hc.elim

/-- A SimpleCommand fires in at most one tick under the same conditions. -/
theorem fires_once (i k : Nat) (more : List Call) (s : State) (hinv : Inv s)
    (hreg : Registered s) (hb : CursorBound s) (hk : k < s.ctl.count)
    (hns : (s.ctl.rules.getD k Rule.new).parsed.isSimpleCommand = false)
    (hi : i < s.ctl.count)
    (hsc : (s.ctl.rules.getD i Rule.new).parsed.isSimpleCommand = true)
    (hrt : ∀ c ∈ more, c.isRegTick) : fires i more s ≤ 1 := by
  induction more generalizing s with
  | nil => rw [fires]; exact Nat.zero_le 1
  | cons c cs ih =>
    have hrt' : ∀ x ∈ cs, x.isRegTick := fun x hx => hrt x (List.mem_cons_of_mem _ hx)
    have hc := hrt c (List.mem_cons_self _ _)
    cases c with
    | register text =>
      have hle := add_count_le s hinv text
      rw [fires_register]
      exact ih (add s text).1 (hinv.add text) (hreg.afterAdd hinv text) (hb.register hinv text)
        (Nat.lt_of_lt_of_le hk hle) (by rw [add_getD_lt s hinv text k hk]; exact hns)
        (Nat.lt_of_lt_of_le hi hle) (by rw [add_getD_lt s hinv text i hi]; exact hsc) hrt'
    | tick env =>
      cases hd : (s.ctl.rules.getD i Rule.new).done with
      | true =>
        rw [(fires_done i k (Call.tick env :: cs) s hinv hreg hb hk hns hi hsc hd hrt).2]
        exact Nat.zero_le 1
      | false =>
        obtain ⟨hv, hl⟩ := registered_simple hinv hreg i hi hsc
        have hchk := check_simple_pending env (s.ctl.rules.getD i Rule.new)
          (evalUpTo env s i).2 hv hl hsc hd
        have hrule := run_getD_check env s hinv hb k hk hns i hi
        rw [hchk] at hrule
        have hzero := (fires_done i k cs (run env s) (hinv.run env) (hreg.afterRun env)
          (hb.tick hinv env) (by rw [run_count]; exact hk)
          ((reset_isSimpleCommand (run_getD_reset env s k)).trans hns)
          (by rw [run_count]; exact hi) (by rw [hrule]; exact hsc) (by rw [hrule]) hrt').2
        rw [fires_tick, hzero]
        split <;> omega
    | reset => exact hc.elim
    | shutdown => exact hc.elim
    | setOutput pin state => exact hc.elim

theorem cursorBound_regtick (calls : List Call) (h : ∀ c ∈ calls, c.isRegTick) :
    CursorBound (exec calls (init boot)) :=
  (regtick_exec calls (init boot) inv_init_boot cursorBound_init h).1

/-- Claim C21. Let `s` be reached from initialisation by registrations and
ticks only and hold a registered rule, at index `k`, that is not a
SimpleCommand. Then after any further registrations and ticks the cursor is at
most `k`; no tick from such a state moves the cursor back or resets a rule: the
rules after the tick are the rules as the evaluation pass left them; and every
SimpleCommand registered in `s` fires in at most one of the further ticks, and
if it is done in `s` it stays done and fires in none. -/
theorem C21_cursor_blocked (calls more : List Call) (s : State) (k : Nat)
    (h1 : ∀ c ∈ calls, c.isRegTick) (h2 : ∀ c ∈ more, c.isRegTick)
    (hs : s = exec calls (init boot)) (hk : k < s.ctl.count)
    (hns : (s.ctl.rules.getD k Rule.new).parsed.isSimpleCommand = false) :
    (exec more s).ctl.currentRule ≤ k ∧
    (∀ env, (exec more s).ctl.currentRule ≤ (run env (exec more s)).ctl.currentRule ∧
      (run env (exec more s)).ctl.rules = (evalPass env (exec more s)).1) ∧
    (∀ i, i < s.ctl.count →
      (s.ctl.rules.getD i Rule.new).parsed.isSimpleCommand = true →
      fires i more s ≤ 1 ∧
      ((s.ctl.rules.getD i Rule.new).done = true →
        ((exec more s).ctl.rules.getD i Rule.new).done = true ∧ fires i more s = 0)) := by
  have hinv : Inv s := by
    rw [hs]
    exact inv_reachable calls
  have hreg : Registered s := Reachable.registered ⟨calls, hs⟩
  have hb : CursorBound s := by
    rw [hs]
    exact cursorBound_regtick calls h1
  obtain ⟨hb', hcount, hkind⟩ := regtick_exec more s hinv hb h2
  have hk' : k < (exec more s).ctl.count := Nat.lt_of_lt_of_le hk hcount
  have hns' : ((exec more s).ctl.rules.getD k Rule.new).parsed.isSimpleCommand = false :=
    (reset_isSimpleCommand (hkind k hk)).trans hns
  refine ⟨hb' k hk' hns', fun env => ?_, fun i hi hsc => ?_⟩
  · exact run_no_wrap env (exec more s) (hinv.exec more) hb' k hk' hns'
  · exact ⟨fires_once i k more s hinv hreg hb hk hns hi hsc h2,
      fun hd => fires_done i k more s hinv hreg hb hk hns hi hsc hd h2⟩

/-- The table `2,1`, `?5,1!4,1`: in three ticks the command `2,1` fires once,
in the first one. -/
theorem C21_cursor_blocked_witness :
    fires 0 [Call.tick (fun _ _ => LOW), Call.tick (fun _ _ => HIGH),
      Call.tick (fun _ _ => LOW)]
      (exec [Call.register "2,1".toList, Call.register "?5,1!4,1".toList] (init boot)) ≤ 1 ∧
    firedAt (fun _ _ => LOW)
      (exec [Call.register "2,1".toList, Call.register "?5,1!4,1".toList] (init boot)) 0 =
      true :=
  ⟨((C21_cursor_blocked [Call.register "2,1".toList, Call.register "?5,1!4,1".toList]
    [Call.tick (fun _ _ => LOW), Call.tick (fun _ _ => HIGH), Call.tick (fun _ _ => LOW)]
    _ 1
    (fun c hc => by
      simp only [List.mem_cons, List.mem_singleton, List.not_mem_nil, or_false] at hc
      rcases hc with h | h <;> subst h <;> trivial)
    (fun c hc => by
      simp only [List.mem_cons, List.mem_singleton, List.not_mem_nil, or_false] at hc
      rcases hc with h | h | h <;> subst h <;> trivial)
    rfl (by decide) (by decide)).2.2 0 (by decide) (by decide)).1,
    by decide⟩
end EgLang
